import Mathlib

/-!
Verification of the venn-diagram layout engine (src/src/utils/d3-venn.ts).

The source is TypeScript operating on IEEE doubles; the embedding models
numbers by the real numbers, JavaScript objects by Lean structures, and the
mutable object graph (the simplex scratch arrays of fmin, the transient
union-find parent pointers of disjointCluster) by an explicit store that is
threaded through each step in the order the source performs its reads and
writes.  JavaScript's Array.prototype.sort with a comparator is a stable
sort, so every sort of the source is modelled by List.insertionSort with the
comparator's reflexive order (a stable sort for a total preorder has a
unique result, so the choice of stable algorithm does not matter).
Math.atan2 is modelled by an explicit atan2 on the reals (real arguments
only; signed zeros do not exist on the reals).
-/

open Classical

namespace DV

/-- 2-d point (the x/y part of the source's duck-typed objects). -/
structure Point where
  x : ℝ
  y : ℝ

/-- Circle record of the source: x, y, radius, plus the optional fields the
source bolts on (setid for post-processing, size in greedyLayout, and the
transient union-find parent pointer of disjointCluster, modelled as an index
into the circle store). -/
structure Circle where
  x : ℝ
  y : ℝ
  radius : ℝ
  setid : Option String := none
  size : Option ℝ := none
  parent : Option Nat := none

instance : Inhabited Circle := ⟨⟨0, 0, 0, none, none, none⟩⟩

/-- The x/y part of a circle. -/
def Circle.pt (c : Circle) : Point := ⟨c.x, c.y⟩

/-- Intersection point tagged with the indices of its two parent circles and
the angle field the sort of intersectionArea assigns. -/
structure IPoint where
  x : ℝ
  y : ℝ
  parentIndex : List Nat
  angle : ℝ := 0

instance : Inhabited IPoint := ⟨⟨0, 0, [], 0⟩⟩

def IPoint.pt (p : IPoint) : Point := ⟨p.x, p.y⟩

/-- Arc record built by intersectionArea. -/
structure Arc where
  circle : Circle
  p1 : Point
  p2 : Point
  width : ℝ

/-- The source's SMALL tolerance. -/
noncomputable def SMALL : ℝ := 1e-10

/-- JavaScript's Math.atan2(y, x): the angle of the point (x, y). -/
noncomputable def atan2 (y x : ℝ) : ℝ :=
  if 0 < x then Real.arctan (y / x)
  else if x < 0 then
    (if 0 ≤ y then Real.arctan (y / x) + Real.pi else Real.arctan (y / x) - Real.pi)
  else
    (if 0 < y then Real.pi / 2 else if y < 0 then -(Real.pi / 2) else 0)

/-- distance(p1, p2): euclidean distance. -/
noncomputable def distance (p1 p2 : Point) : ℝ :=
  Real.sqrt ((p1.x - p2.x) * (p1.x - p2.x) + (p1.y - p2.y) * (p1.y - p2.y))

/-- getCenter(points): the mean of a list of points. -/
noncomputable def getCenter (points : List IPoint) : Point :=
  ⟨(points.map (fun p => p.x)).sum / points.length,
   (points.map (fun p => p.y)).sum / points.length⟩

/-- circleIntegral(r, x). -/
noncomputable def circleIntegral (r x : ℝ) : ℝ :=
  x * Real.sqrt (r * r - x * x) + r * r * atan2 x (Real.sqrt (r * r - x * x))

/-- circleArea(r, width): area of a circular segment of the given width. -/
noncomputable def circleArea (r width : ℝ) : ℝ :=
  circleIntegral r (width - r) - circleIntegral r (-r)

/-- circleOverlap(r1, r2, d): lens area of two circles at center distance d. -/
noncomputable def circleOverlap (r1 r2 d : ℝ) : ℝ :=
  if r1 + r2 ≤ d then 0
  else if d ≤ |r1 - r2| then Real.pi * min r1 r2 * min r1 r2
  else
    circleArea r1 (r1 - (d * d - r2 * r2 + r1 * r1) / (2 * d)) +
    circleArea r2 (r2 - (d * d - r1 * r1 + r2 * r2) / (2 * d))

/-- circleCircleIntersection(p1, p2): the 0 or 2 intersection points, in the
order the source returns them. -/
noncomputable def circleCircleIntersection (p1 p2 : Circle) : List Point :=
  let d := distance p1.pt p2.pt
  let r1 := p1.radius
  let r2 := p2.radius
  if r1 + r2 ≤ d ∨ d ≤ |r1 - r2| then []
  else
    let a := (r1 * r1 - r2 * r2 + d * d) / (2 * d)
    let h := Real.sqrt (r1 * r1 - a * a)
    let x0 := p1.x + a * (p2.x - p1.x) / d
    let y0 := p1.y + a * (p2.y - p1.y) / d
    let rx := -(p2.y - p1.y) * h / d
    let ry := -(p2.x - p1.x) * h / d
    [⟨x0 + rx, y0 - ry⟩, ⟨x0 - rx, y0 + ry⟩]

/-- getIntersectionPoints(circles): every pairwise intersection point,
tagged with its pair of parent indices, pairs enumerated i < j in order. -/
noncomputable def getIntersectionPoints (circles : List Circle) : List IPoint :=
  (List.range circles.length).flatMap fun i =>
    ((List.range circles.length).filter fun j => i < j).flatMap fun j =>
      (circleCircleIntersection (circles.getD i default) (circles.getD j default)).map
        fun p => { x := p.x, y := p.y, parentIndex := [i, j] }

/-- containedInCircles(point, circles). -/
noncomputable def containedInCircles (p : Point) (circles : List Circle) : Prop :=
  ∀ c ∈ circles, distance p c.pt ≤ c.radius + SMALL

/-- outOfCircles(point, circles). -/
noncomputable def outOfCircles (p : Point) (circles : List Circle) : Prop :=
  ∀ c ∈ circles, c.radius + SMALL ≤ distance p c.pt

/-- The arc the inner loop of intersectionArea chooses for one consecutive
pair of boundary points: among the circles tagged on both points, the one of
smallest width, the first such on a tie of widths. -/
noncomputable def chooseArc (circles : List Circle) (p1 p2 : IPoint) : Option Arc :=
  p1.parentIndex.foldl
    (fun arc j =>
      if p2.parentIndex.contains j then
        let c := circles.getD j default
        let a1 := atan2 (p1.x - c.x) (p1.y - c.y)
        let a2 := atan2 (p2.x - c.x) (p2.y - c.y)
        let angleDiff0 := a2 - a1
        let angleDiff := if angleDiff0 < 0 then angleDiff0 + 2 * Real.pi else angleDiff0
        let a := a2 - angleDiff / 2
        let width := distance ⟨(p1.x + p2.x) / 2, (p1.y + p2.y) / 2⟩
          ⟨c.x + c.radius * Real.sin a, c.y + c.radius * Real.cos a⟩
        match arc with
        | none => some ⟨c, p1.pt, p2.pt, width⟩
        | some prev => if width < prev.width then some ⟨c, p1.pt, p2.pt, width⟩ else some prev
      else arc)
    none

/-- The consecutive pairs (p1, p2) the loop of intersectionArea walks: p2
starts at the last sorted point and trails p1 by one, with wrap-around. -/
def walkPairs (l : List IPoint) : List (IPoint × IPoint) :=
  match l.getLast? with
  | none => []
  | some lst => l.zip (lst :: l)

/-- intersectionArea(circles): the area common to all circles, by the
arc-plus-polygon decomposition of the source.  (The optional stats output
parameter is not modelled; only the returned area is.)  The source indexes
circles[0] in its fallback branch, so it is only called on non-empty lists;
on [] the embedding returns the junk value 0. -/
noncomputable def intersectionArea (circles : List Circle) : ℝ :=
  let intersectionPoints := getIntersectionPoints circles
  let innerPoints := intersectionPoints.filter fun p => decide (containedInCircles p.pt circles)
  if 1 < innerPoints.length then
    let center := getCenter innerPoints
    let tagged := innerPoints.map fun p =>
      { p with angle := atan2 (p.x - center.x) (p.y - center.y) }
    let sorted := List.insertionSort (fun a b : IPoint => b.angle ≤ a.angle) tagged
    let pairs := walkPairs sorted
    let polygonArea :=
      (pairs.map fun q => (q.2.x + q.1.x) * (q.1.y - q.2.y)).sum / 2
    let arcs := pairs.filterMap fun q => chooseArc circles q.1 q.2
    let arcArea := (arcs.map fun a => circleArea a.circle.radius a.width).sum
    arcArea + polygonArea
  else
    let smallest := circles.tail.foldl
      (fun s c => if c.radius < s.radius then c else s) (circles.headD default)
    if ∃ c ∈ circles, |smallest.radius - c.radius| < distance c.pt smallest.pt then 0
    else smallest.radius * smallest.radius * Real.pi

/-! ## Optimizers -/

/-- The state of bisect's loop: the moving left endpoint a and the current
delta.  One iteration of the for-loop of bisect; fA is the value f(a) taken
once at entry and never updated by the source. -/
noncomputable def bisectLoop (f : ℝ → ℝ) (fA tolerance : ℝ) :
    Nat → ℝ → ℝ → ℝ
  | 0, a, delta => a + delta
  | fuel + 1, a, delta =>
    let delta2 := delta / 2
    let mid := a + delta2
    let fMid := f mid
    let a2 := if 0 ≤ fMid * fA then mid else a
    if |delta2| < tolerance ∨ fMid = 0 then mid
    else bisectLoop f fA tolerance fuel a2 delta2

/-- bisect(f, a, b, parameters): throws when f(a) and f(b) have a positive
product, returns an endpoint whose value is 0, otherwise runs the bisection
loop for maxIterations iterations (tolerance-based early return inside). -/
noncomputable def bisect (f : ℝ → ℝ) (a b : ℝ) (maxIterations : Nat)
    (tolerance : ℝ) : Except String ℝ :=
  let fA := f a
  let fB := f b
  if 0 < fA * fB then Except.error "Initial bisect points must have opposite signs"
  else if fA = 0 then Except.ok a
  else if fB = 0 then Except.ok b
  else Except.ok (bisectLoop f fA tolerance maxIterations a (b - a))

/-- A simplex vertex: a coordinate array with the fx value the source stores
on the array object. -/
structure Vertex where
  coords : List ℝ
  fx : ℝ

instance : Inhabited Vertex := ⟨⟨[], 0⟩⟩

/-- The result record of fmin. -/
structure FminResult where
  f : ℝ
  solution : List ℝ

/-- weightedSum(ret, w1, v1, w2, v2), pointwise (each index is read and then
written within one loop step, so aliasing of ret with v1 or v2 still yields
the pointwise formula). -/
def weightedSumL (w1 : ℝ) (v1 : List ℝ) (w2 : ℝ) (v2 : List ℝ) : List ℝ :=
  List.zipWith (fun p q => w1 * p + w2 * q) v1 v2

/-- The mutable store of array objects fmin works on: vertex r of the store
is one JavaScript array (with its fx property); the simplex holds references
into the store, and the scratch arrays centroid/reflected/contracted/expanded
are fixed references.  This models the source faithfully: the source assigns
the scratch arrays into the simplex by reference, so later writes to a
scratch array mutate the simplex vertex that aliases it. -/
structure FminState where
  store : List Vertex
  simplex : List Nat

/-- Read a vertex of the store. -/
def vGet (st : List Vertex) (r : Nat) : Vertex := st.getD r default

/-- Overwrite a vertex of the store. -/
def vSet (st : List Vertex) (r : Nat) (v : Vertex) : List Vertex := st.set r v

/-- The simplex sort: stable, ascending on the fx property. -/
noncomputable def sortSimplex (st : List Vertex) (simplex : List Nat) : List Nat :=
  List.insertionSort (fun a b : Nat => (vGet st a).fx ≤ (vGet st b).fx) simplex

/-- Coordinates of the centroid of the N best vertices. -/
noncomputable def centroidCoords (st : List Vertex) (simplex : List Nat) (N : Nat) :
    List ℝ :=
  (List.range N).map fun i =>
    ((List.range N).map fun j => ((vGet st (simplex.getD j 0)).coords.getD i 0)).sum / N

/-- The shrink step: for i = 1..N replace simplex[i] in place by
(1-sigma)*simplex[0] + (sigma-1)*simplex[i], reading the current store at
each step (the source writes through the object references). -/
noncomputable def shrinkStep (f : List ℝ → ℝ) (sigma : ℝ) (simplex : List Nat)
    (N : Nat) (st : List Vertex) : List Vertex :=
  (List.range N).foldl
    (fun st k =>
      let i := k + 1
      let r := simplex.getD i 0
      let c := weightedSumL (1 - sigma) (vGet st (simplex.getD 0 0)).coords
        (sigma - 1) (vGet st r).coords
      vSet st r ⟨c, f c⟩)
    st

/-- One iteration of fmin's main loop (after the sort and the convergence
check).  Scratch references: with N = x0.length, the store lays out the
simplex at 0..N, then centroid, reflected, contracted, expanded. -/
noncomputable def fminIter (f : List ℝ → ℝ) (N : Nat) (st0 : List Vertex)
    (simplex : List Nat) : FminState :=
  let rho : ℝ := 1
  let chi : ℝ := 2
  let psi : ℝ := -(1 / 2)
  let sigma : ℝ := 1 / 2
  let centroidRef := N + 1
  let reflRef := N + 2
  let contrRef := N + 3
  let expRef := N + 4
  let st1 := vSet st0 centroidRef ⟨centroidCoords st0 simplex N, (vGet st0 centroidRef).fx⟩
  let worstRef := simplex.getD N 0
  let rc := weightedSumL (1 + rho) (vGet st1 centroidRef).coords (-rho)
    (vGet st1 worstRef).coords
  let st2 := vSet st1 reflRef ⟨rc, f rc⟩
  if (vGet st2 reflRef).fx ≤ (vGet st2 (simplex.getD 0 0)).fx then
    let ec := weightedSumL (1 + chi) (vGet st2 centroidRef).coords (-chi)
      (vGet st2 worstRef).coords
    let st3 := vSet st2 expRef ⟨ec, f ec⟩
    if (vGet st3 expRef).fx < (vGet st3 reflRef).fx then
      ⟨st3, simplex.set N expRef⟩
    else
      ⟨st3, simplex.set N reflRef⟩
  else if (vGet st2 (simplex.getD (N - 1) 0)).fx ≤ (vGet st2 reflRef).fx then
    if (vGet st2 reflRef).fx ≤ (vGet st2 worstRef).fx then
      let cc := weightedSumL (1 + psi) (vGet st2 centroidRef).coords (-psi)
        (vGet st2 worstRef).coords
      let st3 := vSet st2 contrRef ⟨cc, f cc⟩
      if (vGet st3 contrRef).fx < (vGet st3 worstRef).fx then
        ⟨st3, simplex.set N contrRef⟩
      else
        ⟨shrinkStep f sigma simplex N st3, simplex⟩
    else
      let cc := weightedSumL (1 - psi * rho) (vGet st2 centroidRef).coords (psi * rho)
        (vGet st2 worstRef).coords
      let st3 := vSet st2 contrRef ⟨cc, f cc⟩
      if (vGet st3 contrRef).fx ≤ (vGet st3 reflRef).fx then
        ⟨st3, simplex.set N contrRef⟩
      else
        ⟨shrinkStep f sigma simplex N st3, simplex⟩
  else
    ⟨st2, simplex.set N reflRef⟩

/-- fmin's main loop: sort, break when the best/worst fx spread is below
minErrorDelta, else one iteration. -/
noncomputable def fminLoop (f : List ℝ → ℝ) (N : Nat) :
    Nat → FminState → FminState
  | 0, s => s
  | fuel + 1, s =>
    let simplex := sortSimplex s.store s.simplex
    if |(vGet s.store (simplex.getD 0 0)).fx - (vGet s.store (simplex.getD N 0)).fx|
        < 1e-6 then
      ⟨s.store, simplex⟩
    else
      fminLoop f N fuel (fminIter f N s.store simplex)

/-- fmin(f, x0, parameters): Nelder-Mead as the source ports it, with the
default coefficients (rho 1, chi 2, psi -0.5, sigma 0.5, nonZeroDelta 1.1,
zeroDelta 0.001, minErrorDelta 1e-6) and an explicit maxIterations. -/
noncomputable def fmin (f : List ℝ → ℝ) (x0 : List ℝ) (maxIterations : Nat) :
    FminResult :=
  let N := x0.length
  let perturb : Nat → Vertex := fun i =>
    let c := x0.set i (if x0.getD i 0 = 0 then 0.001 else x0.getD i 0 * 1.1)
    ⟨c, f c⟩
  let st0 : List Vertex :=
    ⟨x0, f x0⟩ :: (List.range N).map perturb ++ [⟨x0, 0⟩, ⟨x0, 0⟩, ⟨x0, 0⟩, ⟨x0, 0⟩]
  let s := fminLoop f N maxIterations ⟨st0, List.range (N + 1)⟩
  let simplex := sortSimplex s.store s.simplex
  let best := vGet s.store (simplex.getD 0 0)
  ⟨best.fx, best.coords⟩

/-! ## Conjugate gradient (used only by the constrained-MDS initial layout) -/

/-- dot(a, b). -/
def dot (a b : List ℝ) : ℝ := (List.zipWith (fun p q => p * q) a b).sum

/-- norm2(a). -/
noncomputable def norm2 (a : List ℝ) : ℝ := Real.sqrt (dot a a)

/-- The x/fx/fxprime record of the conjugate gradient code. -/
structure CGState where
  x : List ℝ
  fx : ℝ
  fxprime : List ℝ

/-- An objective returning its value and (freshly written) gradient: models
the source's f(x, fxprime) that writes the gradient into its second
argument. -/
def ObjFun : Type := List ℝ → ℝ × List ℝ

noncomputable def wolfeC1 : ℝ := 1e-6

noncomputable def wolfeC2 : ℝ := 1 / 10

/-- The zoom loop of wolfeLineSearch (16 iterations). -/
noncomputable def wolfeZoom (f : ObjFun) (pk : List ℝ) (cur : CGState)
    (phi0 phiPrime0 : ℝ) :
    Nat → ℝ → ℝ → ℝ → CGState → ℝ × CGState
  | 0, _, _, _, nxt => (0, nxt)
  | fuel + 1, a_lo, a_high, phi_lo, _ =>
    let a := (a_lo + a_high) / 2
    let nx := weightedSumL 1 cur.x a pk
    let r := f nx
    let nxt : CGState := ⟨nx, r.1, r.2⟩
    let phi := r.1
    let phiPrime := dot r.2 pk
    if phi0 + wolfeC1 * a * phiPrime0 < phi ∨ phi_lo ≤ phi then
      wolfeZoom f pk cur phi0 phiPrime0 fuel a_lo a phi_lo nxt
    else if |phiPrime| ≤ -wolfeC2 * phiPrime0 then (a, nxt)
    else
      let a_high2 := if 0 ≤ phiPrime * (a_high - a_lo) then a_lo else a_high
      wolfeZoom f pk cur phi0 phiPrime0 fuel a a_high2 phi nxt

/-- The outer loop of wolfeLineSearch (10 iterations); `first` tells the
first iteration apart (the source tests `iteration &&`). -/
noncomputable def wolfeOuter (f : ObjFun) (pk : List ℝ) (cur : CGState)
    (phi0 phiPrime0 : ℝ) :
    Nat → Bool → ℝ → ℝ → ℝ → CGState → ℝ × CGState
  | 0, _, _, _, _, nxt => (0, nxt)
  | fuel + 1, first, a, a0, phi_old, _ =>
    let nx := weightedSumL 1 cur.x a pk
    let r := f nx
    let nxt : CGState := ⟨nx, r.1, r.2⟩
    let phi := r.1
    let phiPrime := dot r.2 pk
    if phi0 + wolfeC1 * a * phiPrime0 < phi ∨ (¬first ∧ phi_old ≤ phi) then
      wolfeZoom f pk cur phi0 phiPrime0 16 a0 a phi_old nxt
    else if |phiPrime| ≤ -wolfeC2 * phiPrime0 then (a, nxt)
    else if 0 ≤ phiPrime then
      wolfeZoom f pk cur phi0 phiPrime0 16 a a0 phi nxt
    else
      wolfeOuter f pk cur phi0 phiPrime0 fuel false (a * 2) a phi nxt

/-- wolfeLineSearch(f, pk, current, next, a): returns the accepted step (0 on
failure) together with the state written into `next`. -/
noncomputable def wolfeLineSearch (f : ObjFun) (pk : List ℝ) (cur nxt : CGState)
    (a : ℝ) : ℝ × CGState :=
  let phi0 := cur.fx
  let phiPrime0 := dot cur.fxprime pk
  let a1 := if a = 0 then 1 else a
  wolfeOuter f pk cur phi0 phiPrime0 10 true a1 0 phi0 nxt

/-- The loop of minimizeConjugateGradient. -/
noncomputable def cgLoop (f : ObjFun) :
    Nat → CGState → CGState → List ℝ → ℝ → CGState
  | 0, cur, _, _, _ => cur
  | fuel + 1, cur, nxt, pk, a =>
    let r := wolfeLineSearch f pk cur nxt a
    let a2 := r.1
    let nxt2 := r.2
    if a2 = 0 then
      let pk2 := cur.fxprime.map fun v => -v
      if norm2 cur.fxprime ≤ 1e-5 then cur else cgLoop f fuel cur nxt2 pk2 a2
    else
      let yk := weightedSumL 1 nxt2.fxprime (-1) cur.fxprime
      let delta_k := dot cur.fxprime cur.fxprime
      let beta_k := max 0 (dot yk nxt2.fxprime / delta_k)
      let pk2 := weightedSumL beta_k pk (-1) nxt2.fxprime
      let cur2 := nxt2
      let nxt3 := cur
      if norm2 cur2.fxprime ≤ 1e-5 then cur2 else cgLoop f fuel cur2 nxt3 pk2 a2

/-- minimizeConjugateGradient(f, initial, params). -/
noncomputable def minimizeConjugateGradient (f : ObjFun) (initial : List ℝ)
    (maxIterations : Nat) : CGState :=
  let r := f initial
  let cur : CGState := ⟨initial, r.1, r.2⟩
  let pk := cur.fxprime.map fun v => -v
  cgLoop f maxIterations cur ⟨initial, 0, initial⟩ pk 1

/-! ## Layout helpers -/

/-- AreaSpec: an ordered set-id list with a target size and optional
weight. -/
structure Area where
  sets : List String
  size : ℝ
  weight : Option ℝ := none

instance : Inhabited Area := ⟨⟨[], 0, none⟩⟩

/-- Association list with JavaScript object-key semantics: first write of a
key fixes its position, later writes update the value in place. -/
def aUpsert {α : Type} : List (String × α) → String → α → List (String × α)
  | [], k, v => [(k, v)]
  | (k0, v0) :: t, k, v =>
    if k0 = k then (k0, v) :: t else (k0, v0) :: aUpsert t k v

/-- Lookup in an association list (first occurrence). -/
def aLookup {α : Type} (l : List (String × α)) (k : String) : Option α :=
  (l.find? fun p => p.1 == k).map Prod.snd

/-- A Solution: the source's Record from set id to Circle, with its key
order. -/
abbrev Solution : Type := List (String × Circle)

/-- The ordered pairs (i, j), i before j, of a list: the nested
for-loops of the source. -/
def pairsOf {α : Type} : List α → List (α × α)
  | [] => []
  | x :: xs => (xs.map fun y => (x, y)) ++ pairsOf xs

/-- distanceFromIntersectArea(r1, r2, overlap): |r1-r2| when the overlap is
within SMALL of the smaller circle's area, else the bisection inverse of
circleOverlap on [0, r1+r2]. -/
noncomputable def distanceFromIntersectArea (r1 r2 overlap : ℝ) :
    Except String ℝ :=
  if min r1 r2 * min r1 r2 * Real.pi ≤ overlap + SMALL then Except.ok |r1 - r2|
  else bisect (fun d => circleOverlap r1 r2 d - overlap) 0 (r1 + r2) 100 1e-10

/-- The single-set ids of an area list, in order of appearance (the ids
array addMissingAreas collects). -/
def singleIds (areas : List Area) : List String :=
  areas.filterMap fun a =>
    match a.sets with
    | [x] => some x
    | _ => none

/-- The keys the 2-set entries of the input mark in the pair map of
addMissingAreas: the source keys that map by array.toString(), the two ids
joined by a comma, in both orders. -/
def pairKeys (areas : List Area) : List String :=
  areas.flatMap fun a =>
    match a.sets with
    | [x, y] => [x ++ "," ++ y, y ++ "," ++ x]
    | _ => []

/-- addMissingAreas(areas): appends a size-0 pair for each ordered pair of
sorted single-set ids whose concatenated key was not marked by a 2-set entry
of the input. -/
def addMissingAreas (areas : List Area) : List Area :=
  let sortedIds := List.insertionSort (fun a b : String => a ≤ b) (singleIds areas)
  let extra := (pairsOf sortedIds).filterMap fun q =>
    if (pairKeys areas).contains (q.1 ++ "," ++ q.2) then none
    else some ({ sets := [q.1, q.2], size := 0 } : Area)
  areas ++ extra

/-- Write one entry of a square matrix held as a list of rows. -/
def mSet (m : List (List ℝ)) (i j : Nat) (v : ℝ) : List (List ℝ) :=
  m.set i ((m.getD i []).set j v)

/-- getDistanceMatrices(areas, sets, setids): the target distance matrix and
constraint matrix of constrained MDS.  A 2-set entry naming an unknown id
makes the source dereference undefined; the embedding reports it as an
error. -/
noncomputable def getDistanceMatrices (areas : List Area) (sets : List Area)
    (setids : List (String × Nat)) :
    Except String (List (List ℝ) × List (List ℝ)) := do
  let n := sets.length
  let z : List (List ℝ) := List.replicate n (List.replicate n 0)
  (areas.filter fun a => a.sets.length = 2).foldlM
    (fun (m : List (List ℝ) × List (List ℝ)) current => do
      let some left := aLookup setids (current.sets.getD 0 "") | Except.error "TypeError"
      let some right := aLookup setids (current.sets.getD 1 "") | Except.error "TypeError"
      let r1 := Real.sqrt ((sets.getD left default).size / Real.pi)
      let r2 := Real.sqrt ((sets.getD right default).size / Real.pi)
      let dist ← distanceFromIntersectArea r1 r2 current.size
      let distances := mSet (mSet m.1 left right dist) right left dist
      let c : ℝ :=
        if min (sets.getD left default).size (sets.getD right default).size ≤
            current.size + (1e-10 : ℝ) then 1
        else if current.size ≤ (1e-10 : ℝ) then -1
        else 0
      let constraints := mSet (mSet m.2 left right c) right left c
      return (distances, constraints))
    (z, z)

/-- constrainedMDSGradient(x, fxprime, distances, constraints): the loss and
the gradient it writes into fxprime. -/
noncomputable def constrainedMDSGradient (x : List ℝ)
    (distances constraints : List (List ℝ)) : ℝ × List ℝ :=
  let n := distances.length
  (pairsOf (List.range n)).foldl
    (fun (acc : ℝ × List ℝ) q =>
      let i := q.1
      let j := q.2
      let xi := x.getD (2 * i) 0
      let yi := x.getD (2 * i + 1) 0
      let xj := x.getD (2 * j) 0
      let yj := x.getD (2 * j + 1) 0
      let dij := (distances.getD i []).getD j 0
      let constraint := (constraints.getD i []).getD j 0
      let squaredDistance := (xj - xi) * (xj - xi) + (yj - yi) * (yj - yi)
      let dist := Real.sqrt squaredDistance
      let delta := squaredDistance - dij * dij
      if (0 < constraint ∧ dist ≤ dij) ∨ (constraint < 0 ∧ dij ≤ dist) then acc
      else
        let g := acc.2
        let g := g.set (2 * i) (g.getD (2 * i) 0 + 4 * delta * (xi - xj))
        let g := g.set (2 * i + 1) (g.getD (2 * i + 1) 0 + 4 * delta * (yi - yj))
        let g := g.set (2 * j) (g.getD (2 * j) 0 + 4 * delta * (xj - xi))
        let g := g.set (2 * j + 1) (g.getD (2 * j + 1) 0 + 4 * delta * (yj - yi))
        (acc.1 + 2 * delta * delta, g))
    (0, List.replicate (2 * n) 0)

/-- One step of the set-collecting fold of constrainedMDSLayout: a
single-set area is appended and its id is mapped to its index. -/
def mdsCollect (st : List Area × List (String × Nat)) (area : Area) :
    List Area × List (String × Nat) :=
  match area.sets with
  | [x] => (st.1 ++ [area], aUpsert st.2 x st.1.length)
  | _ => st

/-- One step of the solution-building fold of constrainedMDSLayout: write
the circle of one set (radius sqrt(size/pi), position from the optimizer
scaled back by the distance norm). -/
noncomputable def mdsBuild (positions : List ℝ) (nrm : ℝ)
    (circles : Solution) (sc : Nat × Area) : Solution :=
  aUpsert circles (sc.2.sets.getD 0 "")
    { x := positions.getD (2 * sc.1) 0 * nrm,
      y := positions.getD (2 * sc.1 + 1) 0 * nrm,
      radius := Real.sqrt (sc.2.size / Real.pi) }

/-- constrainedMDSLayout(areas, params): random restarts are drawn from the
stream rng (one real per Math.random() call, numbered in call order). -/
noncomputable def constrainedMDSLayout (rng : Nat → ℝ) (areas : List Area)
    (restarts maxIterations : Nat) : Except String Solution := do
  let start := areas.foldl mdsCollect ([], [])
  let sets := start.1
  let setids := start.2
  let matrices ← getDistanceMatrices areas sets setids
  let distances0 := matrices.1
  let constraints := matrices.2
  let norm := norm2 (distances0.map norm2) / distances0.length
  let distances := distances0.map fun row => row.map fun v => v / norm
  let obj : ObjFun := fun x => constrainedMDSGradient x distances constraints
  let n := distances.length
  let best := (List.range restarts).foldl
    (fun (best : Option CGState) i =>
      let initial := (List.range (n * 2)).map fun j => rng (i * (n * 2) + j)
      let current := minimizeConjugateGradient obj initial maxIterations
      match best with
      | none => some current
      | some b => if current.fx < b.fx then some current else some b)
    none
  let positions := (best.getD ⟨[], 0, []⟩).x
  return sets.enum.foldl (mdsBuild positions norm) []

/-- lossFunction(sets, overlaps): the canonical loss.  A set id with no
circle makes the source dereference undefined; the embedding substitutes the
default circle (every claim is settled on inputs where each lookup
succeeds). -/
noncomputable def lossFunction (sets : Solution) (overlaps : List Area) : ℝ :=
  (overlaps.map fun area =>
    if area.sets.length = 1 then 0
    else
      let overlap :=
        if area.sets.length = 2 then
          let left := (aLookup sets (area.sets.getD 0 "")).getD default
          let right := (aLookup sets (area.sets.getD 1 "")).getD default
          circleOverlap left.radius right.radius (distance left.pt right.pt)
        else
          intersectionArea (area.sets.map fun i => (aLookup sets i).getD default)
      let weight := (area.weight).getD 1
      weight * (overlap - area.size) * (overlap - area.size)).sum

/-- One overlap record of greedyLayout's setOverlaps table. -/
structure OverlapRec where
  set : String
  size : ℝ
  weight : ℝ

instance : Inhabited OverlapRec := ⟨⟨"", 0, 0⟩⟩

/-- Write the x and y of the circle stored under a key (the source mutates
the object in place). -/
def updateXY (circles : Solution) (k : String) (px py : ℝ) : Solution :=
  aUpsert circles k { ((aLookup circles k).getD default) with x := px, y := py }

/-- One step of the initial fold of greedyLayout: a single-set area writes
its circle (radius sqrt(size/pi)) and an empty overlap row. -/
noncomputable def glInitStep (st : Solution × List (String × List OverlapRec))
    (area : Area) : Solution × List (String × List OverlapRec) :=
  match area.sets with
  | [s] =>
    (aUpsert st.1 s
      { x := 1e10, y := 1e10, radius := Real.sqrt (area.size / Real.pi),
        size := some area.size },
     aUpsert st.2 s [])
  | _ => st

/-- One step of the setOverlaps fold of greedyLayout. -/
noncomputable def glOverlapStep (circles0 : Solution)
    (so : List (String × List OverlapRec)) (current : Area) :
    List (String × List OverlapRec) :=
  let left := current.sets.getD 0 ""
  let right := current.sets.getD 1 ""
  let sizeL := ((aLookup circles0 left).getD default).size.getD 0
  let sizeR := ((aLookup circles0 right).getD default).size.getD 0
  let weight : ℝ :=
    if min sizeL sizeR ≤ current.size + SMALL then 0 else (current.weight).getD 1
  let so := aUpsert so left
    ((aLookup so left).getD [] ++ [⟨right, current.size, weight⟩])
  aUpsert so right
    ((aLookup so right).getD [] ++ [⟨left, current.size, weight⟩])

/-- One step of the positioning loop of greedyLayout: place the next most
overlapped set at the best of the candidate points.  The candidate loop of
the source writes trial positions into the circle before each loss
evaluation and finally overwrites them with the best point; the embedding
evaluates each trial on its own updated copy, which reads the same. -/
noncomputable def glStep (areas : List Area)
    (setOverlaps : List (String × List OverlapRec))
    (st : Solution × List String) (mo : String × ℝ) :
    Except String (Solution × List String) := do
  let circles := st.1
  let positioned := st.2
  let setIndex := mo.1
  let overlap := List.insertionSort (fun a b : OverlapRec => b.size ≤ a.size)
    (((aLookup setOverlaps setIndex).getD []).filter fun o =>
      positioned.contains o.set)
  let set := (aLookup circles setIndex).getD default
  if overlap.length = 0 then
    Except.error "ERROR: missing pairwise overlap information"
  else do
    let points ← (List.range overlap.length).foldlM
      (fun (pts : List Point) j => do
        let oj := overlap.getD j default
        let p1 := (aLookup circles oj.set).getD default
        let d1 ← distanceFromIntersectArea set.radius p1.radius oj.size
        let base : List Point :=
          [⟨p1.x + d1, p1.y⟩, ⟨p1.x - d1, p1.y⟩, ⟨p1.x, p1.y + d1⟩,
           ⟨p1.x, p1.y - d1⟩]
        let extra ← ((List.range overlap.length).filter fun k => j < k).foldlM
          (fun (ex : List Point) k => do
            let ok := overlap.getD k default
            let p2 := (aLookup circles ok.set).getD default
            let d2 ← distanceFromIntersectArea set.radius p2.radius ok.size
            return ex ++ circleCircleIntersection
              { x := p1.x, y := p1.y, radius := d1 }
              { x := p2.x, y := p2.y, radius := d2 })
          []
        return pts ++ base ++ extra)
      []
    let best := points.foldl
      (fun (b : ℝ × Point) p =>
        let loss := lossFunction (updateXY circles setIndex p.x p.y) areas
        if loss < b.1 then (loss, p) else b)
      (1e50, points.headD ⟨0, 0⟩)
    return (updateXY circles setIndex best.2.x best.2.y,
            positioned ++ [setIndex])

/-- greedyLayout(areas).  Lookups of ids with no circle substitute the
default circle where the source would dereference undefined (such inputs
crash the source; the claims are conditional on a successful return or
instantiated where every lookup succeeds), and the source's crash on an
input with no single-set area is reported as a TypeError. -/
noncomputable def greedyLayout (areas : List Area) : Except String Solution := do
  let init := areas.foldl glInitStep ([], [])
  let circles0 := init.1
  let pairAreas := areas.filter fun a => a.sets.length = 2
  let setOverlaps := pairAreas.foldl (glOverlapStep circles0) init.2
  let mostOverlapped := List.insertionSort (fun a b : String × ℝ => b.2 ≤ a.2)
    (setOverlaps.map fun p => (p.1, (p.2.map fun o => o.size * o.weight).sum))
  match mostOverlapped with
  | [] => Except.error "TypeError"
  | first :: rest => do
    let st ← rest.foldlM (glStep areas setOverlaps)
      (updateXY circles0 first.1 0 0, [first.1])
    return st.1

/-- bestInitialLayout(areas, params): greedy, compared against constrained
MDS when there are at least 8 areas. -/
noncomputable def bestInitialLayout (rng : Nat → ℝ) (areas : List Area) :
    Except String Solution := do
  let initial ← greedyLayout areas
  if 8 ≤ areas.length then do
    let constrained ← constrainedMDSLayout rng areas 10 500
    let constrainedLoss := lossFunction constrained areas
    let greedyLoss := lossFunction initial areas
    return (if constrainedLoss + 1e-8 < greedyLoss then constrained else initial)
  else
    return initial

/-- venn(areas, parameters) with the default parameters: maxIterations 500,
the canonical lossFunction, bestInitialLayout and fmin.  rng supplies the
Math.random() stream of the constrained-MDS restarts. -/
noncomputable def venn (rng : Nat → ℝ) (areas0 : List Area) :
    Except String Solution := do
  let areas := addMissingAreas areas0
  let circles ← bestInitialLayout rng areas
  let initial := circles.flatMap fun p => [p.2.x, p.2.y]
  let setids := circles.map Prod.fst
  let f : List ℝ → ℝ := fun values =>
    lossFunction
      (setids.enum.map fun si =>
        (si.2,
         ({ x := values.getD (2 * si.1) 0, y := values.getD (2 * si.1 + 1) 0,
            radius := ((aLookup circles si.2).getD default).radius } : Circle)))
      areas
  let solution := fmin f initial 500
  let positions := solution.solution
  return setids.enum.foldl
    (fun cs si =>
      updateXY cs si.2 (positions.getD (2 * si.1) 0) (positions.getD (2 * si.1 + 1) 0))
    circles

/-! ## Post-processing -/

/-- The union-find find with path compression, on the circle store; parent
pointers are indices.  The fuel bounds the recursion depth; on the states
disjointCluster reaches, chains are duplicate-free, so circles.length + 1
fuel always suffices. -/
def ufFind (cs : List Circle) (i : Nat) : Nat → List Circle × Nat
  | 0 => (cs, i)
  | fuel + 1 =>
    let p := ((cs.getD i default).parent).getD i
    if p = i then (cs, i)
    else
      let r := ufFind cs p fuel
      (r.1.set i { (r.1.getD i default) with parent := some r.2 }, r.2)

/-- union(x, y): link the root of x under the root of y. -/
def ufUnion (fuel : Nat) (cs : List Circle) (x y : Nat) : List Circle :=
  let rx := ufFind cs x fuel
  let ry := ufFind rx.1 y fuel
  ry.1.set rx.2 { (ry.1.getD rx.2 default) with parent := some ry.2 }

/-- Insertion-ordered grouping table of disjointCluster, keyed by the root
circle's setid. -/
def clUpsert : List (Option String × List Nat) → Option String → Nat →
    List (Option String × List Nat)
  | [], k, i => [(k, [i])]
  | (k0, l) :: t, k, i =>
    if k0 = k then (k0, l ++ [i]) :: t else (k0, l) :: clUpsert t k i

/-- Erase the transient parent pointer of a circle (delete circle.parent). -/
def strip (c : Circle) : Circle := { c with parent := none }

/-- disjointCluster(circles): returns the clusters and the final circle
store (the source returns the clusters of the very objects it was given,
after deleting every transient parent pointer). -/
noncomputable def disjointCluster (circles : List Circle) :
    List (List Circle) × List Circle :=
  let n := circles.length
  let fuel := n + 1
  let cs0 := circles.enum.map fun ic => { ic.2 with parent := some ic.1 }
  let cs1 := (pairsOf (List.range n)).foldl
    (fun cs q =>
      let a := cs.getD q.1 default
      let b := cs.getD q.2 default
      if distance a.pt b.pt + 1e-10 < a.radius + b.radius then
        ufUnion fuel cs q.2 q.1
      else cs)
    cs0
  let grouped := (List.range n).foldl
    (fun (st : List Circle × List (Option String × List Nat)) i =>
      let r := ufFind st.1 i fuel
      (r.1, clUpsert st.2 ((r.1.getD r.2 default).setid) i))
    (cs1, [])
  let csFinal := grouped.1.map strip
  (grouped.2.map fun p => p.2.map fun i => csFinal.getD i default, csFinal)

/-- One step of the pair fold of disjointCluster (the same function the
definition folds with, named for the proofs). -/
noncomputable def dcStep (fuel : Nat) (cs : List Circle) (q : Nat × Nat) :
    List Circle :=
  let a := cs.getD q.1 default
  let b := cs.getD q.2 default
  if distance a.pt b.pt + 1e-10 < a.radius + b.radius then
    ufUnion fuel cs q.2 q.1
  else cs

/-- One step of the grouping fold of disjointCluster. -/
def grpStep (fuel : Nat) (st : List Circle × List (Option String × List Nat))
    (i : Nat) : List Circle × List (Option String × List Nat) :=
  let r := ufFind st.1 i fuel
  (r.1, clUpsert st.2 ((r.1.getD r.2 default).setid) i)

/-- Math.max over a list (the claims only use non-empty lists; the source
yields negative infinity on an empty one, the embedding 0). -/
def listMax : List ℝ → ℝ
  | [] => 0
  | x :: xs => xs.foldl max x

/-- Math.min over a list. -/
def listMin : List ℝ → ℝ
  | [] => 0
  | x :: xs => xs.foldl min x

/-- Bounding box of a list of circles. -/
structure BBox where
  xmin : ℝ
  xmax : ℝ
  ymin : ℝ
  ymax : ℝ

/-- getBoundingBox(circles). -/
def getBoundingBox (circles : List Circle) : BBox :=
  ⟨listMin (circles.map fun c => c.x - c.radius),
   listMax (circles.map fun c => c.x + c.radius),
   listMin (circles.map fun c => c.y - c.radius),
   listMax (circles.map fun c => c.y + c.radius)⟩

/-- scaleSolution(solution, width, height, padding). -/
noncomputable def scaleSolution (solution : Solution) (width height padding : ℝ) :
    Solution :=
  let circles := solution.map Prod.snd
  let w := width - 2 * padding
  let h := height - 2 * padding
  let b := getBoundingBox circles
  let xScaling := w / (b.xmax - b.xmin)
  let yScaling := h / (b.ymax - b.ymin)
  let scaling := min yScaling xScaling
  let xOffset := (w - (b.xmax - b.xmin) * scaling) / 2
  let yOffset := (h - (b.ymax - b.ymin) * scaling) / 2
  solution.map fun p =>
    (p.1,
     ({ radius := scaling * p.2.radius,
        x := padding + xOffset + (p.2.x - b.xmin) * scaling,
        y := padding + yOffset + (p.2.y - b.ymin) * scaling } : Circle))

/-! ## Union-find proof layer -/

/-- The parent function a circle store encodes: parent pointer, or self for
a missing pointer or an out-of-range index. -/
def pf (cs : List Circle) (i : Nat) : Nat := ((cs.getD i default).parent).getD i

/-- i reaches the root r in exactly k parent steps. -/
inductive RootedH (p : Nat → Nat) : Nat → Nat → Nat → Prop
  | self (i : Nat) : p i = i → RootedH p i i 0
  | step (i r k : Nat) : p i ≠ i → RootedH p (p i) r k → RootedH p i r (k + 1)

/-- i reaches the root r. -/
def Rooted (p : Nat → Nat) (i r : Nat) : Prop := ∃ k, RootedH p i r k

/-- The union-find invariant of a circle store: parents stay in range and
some ranking strictly decreases along non-trivial parent edges (the parent
graph is a forest). -/
def UF (cs : List Circle) : Prop :=
  (∀ i, i < cs.length → pf cs i < cs.length) ∧
  ∃ rk : Nat → Nat, ∀ i, i < cs.length → pf cs i ≠ i → rk (pf cs i) < rk i

/-- The overlap-graph edge of disjointCluster: the two circles strictly
overlap, with the 1e-10 tolerance. -/
noncomputable def overlapEdge (circles : List Circle) (i j : Nat) : Prop :=
  i < circles.length ∧ j < circles.length ∧
  distance (circles.getD i default).pt (circles.getD j default).pt + 1e-10 <
    (circles.getD i default).radius + (circles.getD j default).radius

/-- Two indices share a union-find root in a store. -/
def sameRoot (cs : List Circle) (i j : Nat) : Prop :=
  ∃ t, Rooted (pf cs) i t ∧ Rooted (pf cs) j t

/-- Reachability in the (undirected) overlap graph of disjointCluster. -/
inductive OReach (circles : List Circle) : Nat → Nat → Prop
  | refl (i : Nat) : i < circles.length → OReach circles i i
  | tail (i j k : Nat) : OReach circles i j →
      overlapEdge circles j k ∨ overlapEdge circles k j → OReach circles i k

/-- Proof layer: the circular-segment area of circleArea in closed arcsin
form (valid for segment widths w in [0, 2r]). -/
noncomputable def segArea (r w : ℝ) : ℝ :=
  (w - r) * Real.sqrt (r * r - (w - r) * (w - r)) +
    r * r * Real.arcsin ((w - r) / r) + r * r * (Real.pi / 2)

/-- Proof layer: the lens-area branch of circleOverlap for properly
intersecting circles. -/
noncomputable def ovMid (r1 r2 d : ℝ) : ℝ :=
  circleArea r1 (r1 - (d * d - r2 * r2 + r1 * r1) / (2 * d)) +
  circleArea r2 (r2 - (d * d - r1 * r1 + r2 * r2) / (2 * d))

/-! ## Concrete inputs used by witnesses and counterexamples -/

/-- A one-circle solution used to instantiate scaleSolution. -/
noncomputable def c3sol : Solution := [("a", { x := 0, y := 0, radius := 1 })]

/-- Two disjoint unit circles with distinct set ids. -/
noncomputable def c8inp : List Circle :=
  [{ x := 0, y := 0, radius := 1, setid := some "a" },
   { x := 10, y := 0, radius := 1, setid := some "b" }]

/-- Proof layer: the arc record the inner loop of intersectionArea builds
for one candidate circle. -/
noncomputable def arcOf (c : Circle) (p1 p2 : IPoint) : Arc :=
  let a1 := atan2 (p1.x - c.x) (p1.y - c.y)
  let a2 := atan2 (p2.x - c.x) (p2.y - c.y)
  let angleDiff0 := a2 - a1
  let angleDiff := if angleDiff0 < 0 then angleDiff0 + 2 * Real.pi
    else angleDiff0
  let a := a2 - angleDiff / 2
  ⟨c, p1.pt, p2.pt, distance ⟨(p1.x + p2.x) / 2, (p1.y + p2.y) / 2⟩
    ⟨c.x + c.radius * Real.sin a, c.y + c.radius * Real.cos a⟩⟩

/-- Three circles through the two common points (3, 4) and (3, -4). -/
noncomputable def c4A : Circle := { x := 0, y := 0, radius := 5 }

noncomputable def c4B : Circle := { x := 6, y := 0, radius := 5 }

noncomputable def c4C : Circle := { x := 3, y := 0, radius := 4 }

/-- The six tagged boundary points intersectionArea builds on them. -/
noncomputable def c4p01 : IPoint := { x := 3, y := 4, parentIndex := [0, 1], angle := 0 }

noncomputable def c4q01 : IPoint :=
  { x := 3, y := -4, parentIndex := [0, 1], angle := Real.pi }

noncomputable def c4p02 : IPoint := { x := 3, y := 4, parentIndex := [0, 2], angle := 0 }

noncomputable def c4q02 : IPoint :=
  { x := 3, y := -4, parentIndex := [0, 2], angle := Real.pi }

noncomputable def c4p12 : IPoint := { x := 3, y := 4, parentIndex := [1, 2], angle := 0 }

noncomputable def c4q12 : IPoint :=
  { x := 3, y := -4, parentIndex := [1, 2], angle := Real.pi }

/-- An input with a duplicated single-set id, on which addMissingAreas
misbehaves. -/
def c2inp : List Area := [{ sets := ["a"], size := 0 }, { sets := ["a"], size := 0 },
  { sets := ["b"], size := 0 }]

/-- An objective on which the ported fmin misbehaves: its values at the five
points the 1-d trace visits. -/
noncomputable def fBug : List ℝ → ℝ := fun v =>
  if v = [(0.9 : ℝ)] then 1
  else if v = [(0.8 : ℝ)] then 6
  else if v = [(0.7 : ℝ)] then 5
  else if v = [(1 : ℝ)] then 2
  else if v = [(1.1 : ℝ)] then 3
  else 100

/-- A well-formed one-set input for the venn pipeline. -/
def c1inp : List Area := [{ sets := ["a"], size := 1 }]

/-- A Math.random() stream for the witness runs. -/
noncomputable def c1rng : Nat → ℝ := fun _ => 0

/-! ## C7: when bisect reports an invalid-input error -/

/-- C7 (amended): bisect reports the invalid-input error exactly when
f(a)·f(b) > 0, that is when the endpoint values are both nonzero and of the
same sign; in every other case (opposite signs or a zero endpoint value) it
returns a value without error.  In particular a zero endpoint value does not
fail: the source tests fA * fB > 0 and then returns a zero endpoint
directly. -/
theorem C7_bisect_error_iff_positive_product (f : ℝ → ℝ) (a b : ℝ)
    (maxIterations : Nat) (tolerance : ℝ) :
    (∃ msg, bisect f a b maxIterations tolerance = Except.error msg) ↔
      0 < f a * f b := by
  unfold bisect
  by_cases h : 0 < f a * f b
  · simp [h]
  · simp only [h, if_false]
    by_cases h0 : f a = 0
    · simp [h0]
    · by_cases h1 : f b = 0 <;> simp [h0, h1, h]

/-- C7 counterexample: with f the identity on [0, 1], f(a) = 0 and f(b) = 1
do not have opposite signs, yet bisect returns 0 without an error, contrary
to the claim that it fails whenever an endpoint value is zero. -/
theorem C7_cex_zero_endpoint_ok :
    (fun x : ℝ => x) 0 = 0 ∧
      bisect (fun x : ℝ => x) 0 1 100 (1e-10) = Except.ok 0 := by
  constructor
  · rfl
  · unfold bisect
    norm_num

/-! ## C10: disjointCluster leaves the circles unchanged, parent deleted -/

/-- A read-modify-write of one entry that changes only its parent pointer
preserves the parent-stripped store. -/
theorem map_strip_set_parent (l : List Circle) (i : Nat) (q : Option Nat) :
    (l.set i { l.getD i default with parent := q }).map strip = l.map strip := by
  induction l generalizing i with
  | nil => simp
  | cons hd tl ih =>
    cases i with
    | zero => simp [strip]
    | succ k =>
      simp only [List.set_cons_succ, List.map_cons, List.cons.injEq, true_and]
      simpa using ih k

/-- ufFind only rewrites parent pointers. -/
theorem ufFind_strip (fuel : Nat) (cs : List Circle) (i : Nat) :
    (ufFind cs i fuel).1.map strip = cs.map strip := by
  induction fuel generalizing cs i with
  | zero => rfl
  | succ n ih =>
    unfold ufFind
    dsimp only
    split
    · rfl
    · exact (map_strip_set_parent _ _ _).trans (ih cs _)

/-- ufUnion only rewrites parent pointers. -/
theorem ufUnion_strip (fuel : Nat) (cs : List Circle) (x y : Nat) :
    (ufUnion fuel cs x y).map strip = cs.map strip := by
  unfold ufUnion
  exact (map_strip_set_parent _ _ _).trans ((ufFind_strip _ _ _).trans (ufFind_strip _ _ _))

theorem map_strip_tagged (l : List (Nat × Circle)) :
    (l.map fun ic => { ic.2 with parent := some ic.1 }).map strip =
      l.map fun ic => strip ic.2 := by
  induction l with
  | nil => rfl
  | cons hd tl ih => simp only [List.map_cons, ih]; rfl

/-- A fold whose every step preserves the parent-stripped store preserves
it overall. -/
theorem foldl_strip_inv {β : Type} (f : List Circle → β → List Circle)
    (hf : ∀ cs b, (f cs b).map strip = cs.map strip) :
    ∀ (l : List β) (cs : List Circle), ((l.foldl f cs).map strip) = cs.map strip := by
  intro l
  induction l with
  | nil => intro cs; rfl
  | cons hd tl ih =>
    intro cs
    simp only [List.foldl_cons]
    rw [ih, hf]

/-- The same for a fold whose state carries the store in its first
component. -/
theorem foldl_strip_inv_fst {β γ : Type} (f : List Circle × γ → β → List Circle × γ)
    (hf : ∀ st b, ((f st b).1).map strip = st.1.map strip) :
    ∀ (l : List β) (st : List Circle × γ),
      (((l.foldl f st).1).map strip) = st.1.map strip := by
  intro l
  induction l with
  | nil => intro st; rfl
  | cons hd tl ih =>
    intro st
    simp only [List.foldl_cons]
    rw [ih, hf]

/-- C10: disjointCluster returns every input circle with its x, y, radius
and setid unchanged and the transient parent pointer deleted: the final
circle store is exactly the input with parent cleared on every circle. -/
theorem C10_disjointCluster_frame (circles : List Circle) :
    (disjointCluster circles).2 = circles.map fun c => { c with parent := none } := by
  have hinit : ((circles.enum.map fun ic => { ic.2 with parent := some ic.1 }).map
      strip) = circles.map strip := by
    rw [map_strip_tagged]
    have : (circles.enum.map fun ic => strip ic.2) =
        (circles.enum.map Prod.snd).map strip := by
      rw [List.map_map]; rfl
    rw [this, List.enum_map_snd]
  show (disjointCluster circles).2 = circles.map strip
  unfold disjointCluster
  dsimp only
  refine (foldl_strip_inv_fst _ ?_ _ _).trans ((foldl_strip_inv _ ?_ _ _).trans hinit)
  · intro st b
    dsimp only
    exact ufFind_strip _ _ _
  · intro cs b
    dsimp only
    split
    · exact ufUnion_strip _ _ _ _
    · rfl

/-! ## C3: scaleSolution fits the padded viewport -/

theorem foldl_min_le_init (ys : List ℝ) (acc : ℝ) : ys.foldl min acc ≤ acc := by
  induction ys generalizing acc with
  | nil => simp
  | cons y t ih => exact le_trans (ih (min acc y)) (min_le_left _ _)

theorem foldl_min_le_mem {ys : List ℝ} {x : ℝ} (hx : x ∈ ys) (acc : ℝ) :
    ys.foldl min acc ≤ x := by
  induction ys generalizing acc with
  | nil => cases hx
  | cons y t ih =>
    rcases List.mem_cons.mp hx with h | h
    · subst h
      exact le_trans (foldl_min_le_init t (min acc x)) (min_le_right _ _)
    · exact ih h _

theorem init_le_foldl_max (ys : List ℝ) (acc : ℝ) : acc ≤ ys.foldl max acc := by
  induction ys generalizing acc with
  | nil => simp
  | cons y t ih => exact le_trans (le_max_left _ _) (ih (max acc y))

theorem mem_le_foldl_max {ys : List ℝ} {x : ℝ} (hx : x ∈ ys) (acc : ℝ) :
    x ≤ ys.foldl max acc := by
  induction ys generalizing acc with
  | nil => cases hx
  | cons y t ih =>
    rcases List.mem_cons.mp hx with h | h
    · subst h
      exact le_trans (le_max_right _ _) (init_le_foldl_max t (max acc x))
    · exact ih h _

/-- listMin bounds every member from below. -/
theorem listMin_le {l : List ℝ} {x : ℝ} (hx : x ∈ l) : listMin l ≤ x := by
  cases l with
  | nil => cases hx
  | cons y t =>
    unfold listMin
    rcases List.mem_cons.mp hx with h | h
    · exact h ▸ foldl_min_le_init t y
    · exact foldl_min_le_mem h y

/-- listMax bounds every member from above. -/
theorem le_listMax {l : List ℝ} {x : ℝ} (hx : x ∈ l) : x ≤ listMax l := by
  cases l with
  | nil => cases hx
  | cons y t =>
    unfold listMax
    rcases List.mem_cons.mp hx with h | h
    · exact h ▸ init_le_foldl_max t y
    · exact mem_le_foldl_max h y

/-- C3: for a solution with a non-degenerate bounding box and a viewport
with width > 2·padding and height > 2·padding, scaleSolution applies one
uniform factor, min(widthScale, heightScale), to every radius, and every
scaled circle lies inside [padding, width-padding] × [padding,
height-padding]. -/
theorem C3_scaleSolution_fits (solution : Solution) (width height padding : ℝ)
    (hx : (getBoundingBox (solution.map Prod.snd)).xmin <
      (getBoundingBox (solution.map Prod.snd)).xmax)
    (hy : (getBoundingBox (solution.map Prod.snd)).ymin <
      (getBoundingBox (solution.map Prod.snd)).ymax)
    (hw : 2 * padding < width) (hh : 2 * padding < height) :
    ∃ s : ℝ,
      s = min ((height - 2 * padding) /
          ((getBoundingBox (solution.map Prod.snd)).ymax -
            (getBoundingBox (solution.map Prod.snd)).ymin))
        ((width - 2 * padding) /
          ((getBoundingBox (solution.map Prod.snd)).xmax -
            (getBoundingBox (solution.map Prod.snd)).xmin)) ∧
      (∀ q ∈ scaleSolution solution width height padding,
        ∃ p ∈ solution, q.1 = p.1 ∧ q.2.radius = s * p.2.radius) ∧
      ∀ q ∈ scaleSolution solution width height padding,
        padding ≤ q.2.x - q.2.radius ∧ q.2.x + q.2.radius ≤ width - padding ∧
        padding ≤ q.2.y - q.2.radius ∧ q.2.y + q.2.radius ≤ height - padding := by
  set b := getBoundingBox (solution.map Prod.snd) with hb
  set w := width - 2 * padding with hwdef
  set h := height - 2 * padding with hhdef
  set s := min (h / (b.ymax - b.ymin)) (w / (b.xmax - b.xmin)) with hs
  have hwpos : 0 < w := by simp [hwdef]; linarith
  have hhpos : 0 < h := by simp [hhdef]; linarith
  have hdx : 0 < b.xmax - b.xmin := by linarith
  have hdy : 0 < b.ymax - b.ymin := by linarith
  have hspos : 0 < s := lt_min (div_pos hhpos hdy) (div_pos hwpos hdx)
  have hsx : s * (b.xmax - b.xmin) ≤ w := by
    have h1 : s ≤ w / (b.xmax - b.xmin) := min_le_right _ _
    calc s * (b.xmax - b.xmin) ≤ w / (b.xmax - b.xmin) * (b.xmax - b.xmin) :=
          mul_le_mul_of_nonneg_right h1 (le_of_lt hdx)
      _ = w := div_mul_cancel₀ _ (ne_of_gt hdx)
  have hsy : s * (b.ymax - b.ymin) ≤ h := by
    have h1 : s ≤ h / (b.ymax - b.ymin) := min_le_left _ _
    calc s * (b.ymax - b.ymin) ≤ h / (b.ymax - b.ymin) * (b.ymax - b.ymin) :=
          mul_le_mul_of_nonneg_right h1 (le_of_lt hdy)
      _ = h := div_mul_cancel₀ _ (ne_of_gt hdy)
  refine ⟨s, rfl, ?_, ?_⟩
  · intro q hq
    unfold scaleSolution at hq
    rcases List.mem_map.mp hq with ⟨p, hp, hmk⟩
    exact ⟨p, hp, by rw [← hmk], by rw [← hmk]⟩
  · intro q hq
    unfold scaleSolution at hq
    rcases List.mem_map.mp hq with ⟨p, hp, hmk⟩
    have hxlo : b.xmin ≤ p.2.x - p.2.radius := by
      apply listMin_le
      exact List.mem_map.mpr ⟨p.2, List.mem_map.mpr ⟨p, hp, rfl⟩, rfl⟩
    have hxhi : p.2.x + p.2.radius ≤ b.xmax := by
      apply le_listMax
      exact List.mem_map.mpr ⟨p.2, List.mem_map.mpr ⟨p, hp, rfl⟩, rfl⟩
    have hylo : b.ymin ≤ p.2.y - p.2.radius := by
      apply listMin_le
      exact List.mem_map.mpr ⟨p.2, List.mem_map.mpr ⟨p, hp, rfl⟩, rfl⟩
    have hyhi : p.2.y + p.2.radius ≤ b.ymax := by
      apply le_listMax
      exact List.mem_map.mpr ⟨p.2, List.mem_map.mpr ⟨p, hp, rfl⟩, rfl⟩
    have hqx : q.2.x = padding + (w - (b.xmax - b.xmin) * s) / 2 + (p.2.x - b.xmin) * s := by
      rw [← hmk]
    have hqy : q.2.y = padding + (h - (b.ymax - b.ymin) * s) / 2 + (p.2.y - b.ymin) * s := by
      rw [← hmk]
    have hqr : q.2.radius = s * p.2.radius := by rw [← hmk]
    have e1 : 0 ≤ s * (p.2.x - p.2.radius - b.xmin) :=
      mul_nonneg (le_of_lt hspos) (by linarith)
    have e2 : s * (p.2.x + p.2.radius - b.xmin) ≤ s * (b.xmax - b.xmin) :=
      mul_le_mul_of_nonneg_left (by linarith) (le_of_lt hspos)
    have e3 : 0 ≤ s * (p.2.y - p.2.radius - b.ymin) :=
      mul_nonneg (le_of_lt hspos) (by linarith)
    have e4 : s * (p.2.y + p.2.radius - b.ymin) ≤ s * (b.ymax - b.ymin) :=
      mul_le_mul_of_nonneg_left (by linarith) (le_of_lt hspos)
    refine ⟨?_, ?_, ?_, ?_⟩
    · rw [hqx, hqr]; nlinarith
    · rw [hqx, hqr]; nlinarith
    · rw [hqy, hqr]; nlinarith
    · rw [hqy, hqr]; nlinarith

/-- C3 witness: a single unit circle at the origin in a 10 × 8 viewport with
padding 1 satisfies the hypotheses, so its scaled image fits the padded
viewport with the uniform factor. -/
theorem C3_scaleSolution_fits_witness :
    ((getBoundingBox (c3sol.map Prod.snd)).xmin <
        (getBoundingBox (c3sol.map Prod.snd)).xmax) ∧
    ((getBoundingBox (c3sol.map Prod.snd)).ymin <
        (getBoundingBox (c3sol.map Prod.snd)).ymax) ∧
    2 * (1 : ℝ) < 10 ∧ 2 * (1 : ℝ) < 8 ∧
    ∃ s : ℝ,
      s = min ((8 - 2 * 1) /
          ((getBoundingBox (c3sol.map Prod.snd)).ymax -
            (getBoundingBox (c3sol.map Prod.snd)).ymin))
        ((10 - 2 * 1) /
          ((getBoundingBox (c3sol.map Prod.snd)).xmax -
            (getBoundingBox (c3sol.map Prod.snd)).xmin)) ∧
      (∀ q ∈ scaleSolution c3sol 10 8 1,
        ∃ p ∈ c3sol, q.1 = p.1 ∧ q.2.radius = s * p.2.radius) ∧
      ∀ q ∈ scaleSolution c3sol 10 8 1,
        1 ≤ q.2.x - q.2.radius ∧ q.2.x + q.2.radius ≤ 10 - 1 ∧
        1 ≤ q.2.y - q.2.radius ∧ q.2.y + q.2.radius ≤ 8 - 1 := by
  have h1 : (getBoundingBox (c3sol.map Prod.snd)).xmin <
      (getBoundingBox (c3sol.map Prod.snd)).xmax := by
    norm_num [c3sol, getBoundingBox, listMin, listMax]
  have h2 : (getBoundingBox (c3sol.map Prod.snd)).ymin <
      (getBoundingBox (c3sol.map Prod.snd)).ymax := by
    norm_num [c3sol, getBoundingBox, listMin, listMax]
  exact ⟨h1, h2, by norm_num, by norm_num,
    C3_scaleSolution_fits c3sol 10 8 1 h1 h2 (by norm_num) (by norm_num)⟩

/-! ## C2: addMissingAreas -/

theorem pairsOf_cons {α : Type} (hd : α) (tl : List α) :
    pairsOf (hd :: tl) = (tl.map fun y => (hd, y)) ++ pairsOf tl := rfl

/-- Both components of a produced pair are members of the list. -/
theorem mem_of_mem_pairsOf {α : Type} {q : α × α} :
    ∀ {l : List α}, q ∈ pairsOf l → q.1 ∈ l ∧ q.2 ∈ l := by
  intro l
  induction l with
  | nil => intro h; cases h
  | cons hd tl ih =>
    intro h
    rcases List.mem_append.mp h with h | h
    · rcases List.mem_map.mp h with ⟨z, hz, rfl⟩
      exact ⟨List.mem_cons_self _ _, List.mem_cons_of_mem _ hz⟩
    · rcases ih h with ⟨h1, h2⟩
      exact ⟨List.mem_cons_of_mem _ h1, List.mem_cons_of_mem _ h2⟩

/-- On a duplicate-free list, a produced pair has distinct components. -/
theorem ne_of_mem_pairsOf {α : Type} {q : α × α} :
    ∀ {l : List α}, l.Nodup → q ∈ pairsOf l → q.1 ≠ q.2 := by
  intro l
  induction l with
  | nil => intro _ h; cases h
  | cons hd tl ih =>
    intro hnd h
    rcases List.mem_append.mp h with h | h
    · rcases List.mem_map.mp h with ⟨z, hz, rfl⟩
      dsimp only
      exact fun he => (List.nodup_cons.mp hnd).1 (he ▸ hz)
    · exact ih (List.nodup_cons.mp hnd).2 h

theorem filter_eqv_nil {y : String} {tl : List String} (hy : y ∉ tl) :
    (tl.filter fun z => decide (z = y)) = [] :=
  List.filter_eq_nil_iff.mpr fun a ha => by
    simp only [decide_eq_true_eq]
    exact fun he => hy (he ▸ ha)

theorem filter_eqv_one {y : String} :
    ∀ {tl : List String}, tl.Nodup → y ∈ tl →
      (tl.filter fun z => decide (z = y)).length = 1 := by
  intro tl
  induction tl with
  | nil => intro _ h; cases h
  | cons hd t ih =>
    intro hnd hy
    by_cases hh : hd = y
    · have hnotin : y ∉ t := by
        intro hmem
        exact (List.nodup_cons.mp hnd).1 (hh ▸ hmem)
      simp [List.filter_cons, hh, filter_eqv_nil hnotin]
    · rcases List.mem_cons.mp hy with h | h
      · exact absurd h.symm hh
      · simpa [List.filter_cons, hh] using ih (List.nodup_cons.mp hnd).2 h

/-- On a duplicate-free list each unordered pair of distinct members is
produced exactly once. -/
theorem pairsOf_pair_once {x y : String} :
    ∀ {l : List String}, l.Nodup → x ∈ l → y ∈ l → x ≠ y →
      ((pairsOf l).filter fun q => decide (q = (x, y) ∨ q = (y, x))).length = 1 := by
  intro l
  induction l with
  | nil => intro _ hx; cases hx
  | cons hd tl ih =>
    intro hnd hx hy hxy
    have hhd : hd ∉ tl := (List.nodup_cons.mp hnd).1
    have htl : tl.Nodup := (List.nodup_cons.mp hnd).2
    rw [pairsOf_cons, List.filter_append, List.length_append, List.filter_map,
      List.length_map]
    by_cases hcx : hd = x
    · subst hcx
      have hytl : y ∈ tl := by
        rcases List.mem_cons.mp hy with h | h
        · exact absurd h.symm hxy
        · exact h
      have hA : (tl.filter ((fun q => decide (q = (hd, y) ∨ q = (y, hd))) ∘
          fun z => (hd, z))).length = 1 := by
        have hcong : (tl.filter ((fun q => decide (q = (hd, y) ∨ q = (y, hd))) ∘
            fun z => (hd, z))) = tl.filter fun z => decide (z = y) := by
          refine List.filter_congr fun z hz => ?_
          simp only [Function.comp_apply]
          rw [decide_eq_decide]
          simp only [Prod.mk.injEq]
          constructor
          · rintro (⟨h1, h2⟩ | ⟨h1, h2⟩)
            · exact h2
            · exact absurd h1 hxy
          · rintro rfl
            simp
        rw [hcong]
        exact filter_eqv_one htl hytl
      have hB : ((pairsOf tl).filter fun q =>
          decide (q = (hd, y) ∨ q = (y, hd))).length = 0 := by
        rw [List.length_eq_zero]
        refine List.filter_eq_nil_iff.mpr fun q hq => ?_
        have hm := mem_of_mem_pairsOf hq
        simp only [decide_eq_true_eq]
        rintro (rfl | rfl)
        · exact hhd hm.1
        · exact hhd hm.2
      omega
    · by_cases hcy : hd = y
      · subst hcy
        have hxtl : x ∈ tl := by
          rcases List.mem_cons.mp hx with h | h
          · exact absurd h.symm hcx
          · exact h
        have hA : (tl.filter ((fun q => decide (q = (x, hd) ∨ q = (hd, x))) ∘
            fun z => (hd, z))).length = 1 := by
          have hcong : (tl.filter ((fun q => decide (q = (x, hd) ∨ q = (hd, x))) ∘
              fun z => (hd, z))) = tl.filter fun z => decide (z = x) := by
            refine List.filter_congr fun z hz => ?_
            simp only [Function.comp_apply]
            rw [decide_eq_decide]
            simp only [Prod.mk.injEq]
            constructor
            · rintro (⟨h1, h2⟩ | ⟨h1, h2⟩)
              · exact absurd h1 hcx
              · exact h2
            · rintro rfl
              simp
          rw [hcong]
          exact filter_eqv_one htl hxtl
        have hB : ((pairsOf tl).filter fun q =>
            decide (q = (x, hd) ∨ q = (hd, x))).length = 0 := by
          rw [List.length_eq_zero]
          refine List.filter_eq_nil_iff.mpr fun q hq => ?_
          have hm := mem_of_mem_pairsOf hq
          simp only [decide_eq_true_eq]
          rintro (rfl | rfl)
          · exact hhd hm.2
          · exact hhd hm.1
        omega
      · have hxtl : x ∈ tl := by
          rcases List.mem_cons.mp hx with h | h
          · exact absurd h.symm hcx
          · exact h
        have hytl : y ∈ tl := by
          rcases List.mem_cons.mp hy with h | h
          · exact absurd h.symm hcy
          · exact h
        have hA : (tl.filter ((fun q => decide (q = (x, y) ∨ q = (y, x))) ∘
            fun z => (hd, z))).length = 0 := by
          rw [List.length_eq_zero]
          refine List.filter_eq_nil_iff.mpr fun z hz => ?_
          simp only [Function.comp_apply, decide_eq_true_eq, Prod.mk.injEq]
          rintro (⟨h1, _⟩ | ⟨h1, _⟩)
          · exact hcx h1
          · exact hcy h1
        have hB := ih htl hxtl hytl hxy
        omega

/-- Splitting at the first comma is unambiguous for comma-free prefixes. -/
theorem comma_chars_inj : ∀ (xs us ys vs : List Char), ',' ∉ xs → ',' ∉ us →
    xs ++ ',' :: ys = us ++ ',' :: vs → xs = us ∧ ys = vs := by
  intro xs
  induction xs with
  | nil =>
    intro us ys vs hx hu h
    cases us with
    | nil => simpa using h
    | cons d us2 =>
      simp only [List.nil_append, List.cons_append, List.cons.injEq] at h
      have : ',' ∈ d :: us2 := by rw [← h.1]; exact List.mem_cons_self _ _
      exact absurd this hu
  | cons c xs2 ih =>
    intro us ys vs hx hu h
    cases us with
    | nil =>
      simp only [List.cons_append, List.nil_append, List.cons.injEq] at h
      have : ',' ∈ c :: xs2 := by rw [h.1]; exact List.mem_cons_self _ _
      exact absurd this hx
    | cons d us2 =>
      simp only [List.cons_append, List.cons.injEq] at h
      obtain ⟨h1, h2⟩ := h
      obtain ⟨ha, hb⟩ := ih us2 ys vs (fun hm => hx (List.mem_cons_of_mem _ hm))
        (fun hm => hu (List.mem_cons_of_mem _ hm)) h2
      exact ⟨by rw [h1, ha], hb⟩

/-- The comma-join key is injective on comma-free first components. -/
theorem comma_join_inj {x y u v : String} (hx : ',' ∉ x.data) (hu : ',' ∉ u.data)
    (h : x ++ "," ++ y = u ++ "," ++ v) : x = u ∧ y = v := by
  have hd := congrArg String.data h
  simp only [String.data_append] at hd
  rw [List.append_assoc, List.append_assoc] at hd
  simp only [List.singleton_append] at hd
  obtain ⟨h1, h2⟩ := comma_chars_inj x.data u.data y.data v.data hx hu hd
  exact ⟨String.ext h1, String.ext h2⟩

theorem mem_singleIds {areas : List Area} {x : String} :
    x ∈ singleIds areas ↔ ∃ a ∈ areas, a.sets = [x] := by
  unfold singleIds
  rw [List.mem_filterMap]
  constructor
  · rintro ⟨a, ha, hk⟩
    refine ⟨a, ha, ?_⟩
    rcases hs : a.sets with _ | ⟨u, _ | ⟨v, t⟩⟩ <;> rw [hs] at hk <;> simp at hk
    rw [hk]
  · rintro ⟨a, ha, hs⟩
    exact ⟨a, ha, by rw [hs]⟩

theorem mem_pairKeys {areas : List Area} {k : String} :
    k ∈ pairKeys areas ↔
      ∃ a ∈ areas, ∃ u v, a.sets = [u, v] ∧
        (k = u ++ "," ++ v ∨ k = v ++ "," ++ u) := by
  unfold pairKeys
  rw [List.mem_flatMap]
  constructor
  · rintro ⟨a, ha, hk⟩
    rcases hs : a.sets with _ | ⟨u, _ | ⟨v, _ | ⟨w, t⟩⟩⟩ <;> rw [hs] at hk <;> simp at hk
    rcases hk with hk | hk
    · exact ⟨a, ha, u, v, hs, Or.inl hk⟩
    · exact ⟨a, ha, u, v, hs, Or.inr hk⟩
  · rintro ⟨a, ha, u, v, hs, hor⟩
    refine ⟨a, ha, ?_⟩
    rw [hs]
    rcases hor with rfl | rfl
    · exact List.mem_cons_self _ _
    · exact List.mem_cons_of_mem _ (List.mem_cons_self _ _)

theorem length_filter_filterMap {α β : Type} (f : α → Option β) (p : β → Bool) :
    ∀ l : List α, ((l.filterMap f).filter p).length =
      (l.filter fun a => ((f a).map p).getD false).length := by
  intro l
  induction l with
  | nil => rfl
  | cons hd tl ih =>
    rw [List.filterMap_cons]
    cases hfd : f hd with
    | none => simp [List.filter_cons, hfd, ih]
    | some b =>
      cases hpb : p b <;> simp [List.filter_cons, hfd, hpb, ih]

/-- C2 (amended): on an input whose single-set ids are pairwise distinct and
whose set ids contain no comma (the source keys its seen-pairs map by the
comma-join of the two ids, which is ambiguous otherwise), addMissingAreas
returns the input unchanged followed by new entries only of the form
sets = [x, y], size = 0 and no weight, for distinct single-set ids x, y with
no 2-set entry over them in the input, and exactly one new entry per such
unordered pair. -/
theorem C2_addMissingAreas_characterization (areas : List Area)
    (hnd : (singleIds areas).Nodup)
    (hcf : ∀ a ∈ areas, ∀ s ∈ a.sets, ',' ∉ s.data) :
    ∃ extra : List Area,
      addMissingAreas areas = areas ++ extra ∧
      (∀ e ∈ extra, ∃ x y, e = { sets := [x, y], size := 0 } ∧ x ≠ y ∧
        x ∈ singleIds areas ∧ y ∈ singleIds areas ∧
        ∀ a ∈ areas, a.sets ≠ [x, y] ∧ a.sets ≠ [y, x]) ∧
      ∀ x y : String, x ≠ y → x ∈ singleIds areas → y ∈ singleIds areas →
        (∀ a ∈ areas, a.sets ≠ [x, y] ∧ a.sets ≠ [y, x]) →
        (extra.filter fun e =>
          decide (e.sets = [x, y] ∨ e.sets = [y, x])).length = 1 := by
  set sortedIds := List.insertionSort (fun a b : String => a ≤ b) (singleIds areas)
    with hsorted
  have hperm : sortedIds.Perm (singleIds areas) := List.perm_insertionSort _ _
  have hsnd : sortedIds.Nodup := hperm.nodup_iff.mpr hnd
  have hcfid : ∀ x ∈ singleIds areas, ',' ∉ x.data := by
    intro x hx
    rcases mem_singleIds.mp hx with ⟨a, ha, hs⟩
    exact hcf a ha x (by rw [hs]; exact List.mem_cons_self _ _)
  have hkeyfree : ∀ x y : String, x ∈ singleIds areas → y ∈ singleIds areas →
      (∀ a ∈ areas, a.sets ≠ [x, y] ∧ a.sets ≠ [y, x]) →
      x ++ "," ++ y ∉ pairKeys areas := by
    intro x y hx hy hmiss hk
    rcases mem_pairKeys.mp hk with ⟨a, ha, u, v, hs, hor⟩
    have hucf : ',' ∉ u.data := hcf a ha u (by rw [hs]; exact List.mem_cons_self _ _)
    have hvcf : ',' ∉ v.data := hcf a ha v
      (by rw [hs]; exact List.mem_cons_of_mem _ (List.mem_cons_self _ _))
    rcases hor with h | h
    · obtain ⟨h1, h2⟩ := comma_join_inj (hcfid x hx) hucf h
      exact (hmiss a ha).1 (by rw [hs, h1, h2])
    · obtain ⟨h1, h2⟩ := comma_join_inj (hcfid x hx) hvcf h
      exact (hmiss a ha).2 (by rw [hs, h1, h2])
  refine ⟨_, rfl, ?_, ?_⟩
  · intro e he
    rcases List.mem_filterMap.mp he with ⟨q, hq, hfe⟩
    by_cases hc : (pairKeys areas).contains (q.1 ++ "," ++ q.2)
    · rw [if_pos hc] at hfe
      cases hfe
    · rw [if_neg hc] at hfe
      have he2 : e = { sets := [q.1, q.2], size := 0 } := (Option.some.injEq _ _ ▸ hfe).symm
      have hq1 : q.1 ∈ singleIds areas := hperm.mem_iff.mp (mem_of_mem_pairsOf hq).1
      have hq2 : q.2 ∈ singleIds areas := hperm.mem_iff.mp (mem_of_mem_pairsOf hq).2
      refine ⟨q.1, q.2, he2, ne_of_mem_pairsOf hsnd hq, hq1, hq2, ?_⟩
      intro a ha
      constructor
      · intro habs
        exact hc (List.elem_iff.mpr (mem_pairKeys.mpr
          ⟨a, ha, q.1, q.2, habs, Or.inl rfl⟩))
      · intro habs
        exact hc (List.elem_iff.mpr (mem_pairKeys.mpr
          ⟨a, ha, q.2, q.1, habs, Or.inr rfl⟩))
  · intro x y hxy hx hy hmiss
    rw [length_filter_filterMap]
    have hpoint : ∀ q ∈ pairsOf sortedIds,
        (((if (pairKeys areas).contains (q.1 ++ "," ++ q.2) then none
          else some ({ sets := [q.1, q.2], size := 0 } : Area)).map fun e =>
            decide (e.sets = [x, y] ∨ e.sets = [y, x])).getD false) =
        decide (q = (x, y) ∨ q = (y, x)) := by
      intro q hq
      by_cases hc : (pairKeys areas).contains (q.1 ++ "," ++ q.2)
      · rw [if_pos hc]
        simp only [Option.map_none', Option.getD_none]
        symm
        rw [decide_eq_false_iff_not]
        rintro (rfl | rfl)
        · exact hkeyfree x y hx hy hmiss (List.elem_iff.mp hc)
        · exact hkeyfree y x hy hx
            (fun a ha => ⟨(hmiss a ha).2, (hmiss a ha).1⟩)
            (List.elem_iff.mp hc)
      · rw [if_neg hc]
        simp only [Option.map_some', Option.getD_some]
        rw [decide_eq_decide]
        constructor
        · rintro (h | h) <;> simp only [List.cons.injEq, and_true] at h
          · exact Or.inl (Prod.ext h.1 h.2)
          · exact Or.inr (Prod.ext h.1 h.2)
        · rintro (rfl | rfl)
          · exact Or.inl rfl
          · exact Or.inr rfl
    rw [List.filter_congr hpoint]
    exact pairsOf_pair_once hsnd (hperm.mem_iff.mpr hx) (hperm.mem_iff.mpr hy) hxy

/-- C2 counterexample: on an input whose single-set id "a" appears twice,
addMissingAreas appends an entry with the duplicated id pair [a, a] and
appends the pair [a, b] twice — not one entry per missing unordered pair of
single-set ids and nothing else, as the claim states for every input. -/
theorem C2_cex_duplicate_single_id :
    addMissingAreas c2inp = c2inp ++
      [{ sets := ["a", "a"], size := 0 }, { sets := ["a", "b"], size := 0 },
       { sets := ["a", "b"], size := 0 }] := by
  unfold addMissingAreas
  have h1 : singleIds c2inp = ["a", "a", "b"] := rfl
  have h2 : pairKeys c2inp = [] := rfl
  rw [h1, h2]
  have hab : ("a" : String) ≤ "b" := by rw [String.le_iff_toList_le]; decide
  have haa : ("a" : String) ≤ "a" := le_refl _
  have h3 : List.insertionSort (fun a b : String => a ≤ b) ["a", "a", "b"] =
      ["a", "a", "b"] := by
    simp [List.insertionSort, List.orderedInsert, hab, haa]
  rw [h3]
  rfl

/-- C2 witness: a concrete run of the amended characterization on the input
[a], [b] with no pair entry: the missing pair (a, b) is appended exactly
once. -/
theorem C2_characterization_witness :
    (singleIds [({ sets := ["a"], size := 1 } : Area), { sets := ["b"], size := 2 }]).Nodup ∧
    ∃ extra : List Area,
      addMissingAreas [({ sets := ["a"], size := 1 } : Area), { sets := ["b"], size := 2 }] =
        [({ sets := ["a"], size := 1 } : Area), { sets := ["b"], size := 2 }] ++ extra ∧
      (∀ e ∈ extra, ∃ x y, e = { sets := [x, y], size := 0 } ∧ x ≠ y ∧
        x ∈ singleIds [({ sets := ["a"], size := 1 } : Area), { sets := ["b"], size := 2 }] ∧
        y ∈ singleIds [({ sets := ["a"], size := 1 } : Area), { sets := ["b"], size := 2 }] ∧
        ∀ a ∈ [({ sets := ["a"], size := 1 } : Area), { sets := ["b"], size := 2 }],
          a.sets ≠ [x, y] ∧ a.sets ≠ [y, x]) ∧
      ∀ x y : String, x ≠ y →
        x ∈ singleIds [({ sets := ["a"], size := 1 } : Area), { sets := ["b"], size := 2 }] →
        y ∈ singleIds [({ sets := ["a"], size := 1 } : Area), { sets := ["b"], size := 2 }] →
        (∀ a ∈ [({ sets := ["a"], size := 1 } : Area), { sets := ["b"], size := 2 }],
          a.sets ≠ [x, y] ∧ a.sets ≠ [y, x]) →
        (extra.filter fun e =>
          decide (e.sets = [x, y] ∨ e.sets = [y, x])).length = 1 := by
  constructor
  · decide
  · exact C2_addMissingAreas_characterization _ (by decide)
      (by
        intro a ha s hs
        fin_cases ha <;> simp_all)

/-! ## C9: the fmin port loses its best vertex through scratch aliasing -/

/-- C9: the source assigns the scratch arrays reflected/contracted/expanded
into the simplex by reference (the original fmin.js copies them in), so a
later weightedSum write clobbers a simplex vertex that aliases a scratch
array.  On fBug with x0 = [1] and maxIterations = 2, the second iteration's
reflection step overwrites the best vertex (fx 1 at [0.9], an alias of the
reflected scratch) and fmin returns 5 > 2 = fBug [1], although Nelder-Mead
never discards its incumbent best vertex. -/
theorem C9_fmin_aliasing_loses_best :
    fBug [1] = 2 ∧ (fmin fBug [1] 2).f = 5 ∧ fBug [1] < (fmin fBug [1] 2).f := by
  have hb1 : fBug [1] = 2 := by norm_num [fBug]
  have hbig : fmin fBug [1] 2 = ⟨5, [0.7]⟩ := by
    norm_num [fmin, fminLoop, fminIter, sortSimplex, centroidCoords, shrinkStep,
      weightedSumL, vGet, vSet, fBug, List.insertionSort, List.orderedInsert,
      List.range_succ, List.getD, SMALL]
  refine ⟨hb1, by rw [hbig], ?_⟩
  rw [hb1, hbig]
  norm_num

/-! ## C8: disjointCluster clusters -/

theorem getD_set_if {α : Type} (l : List α) (i j : Nat) (a d : α) :
    (l.set i a).getD j d = if j = i ∧ i < l.length then a else l.getD j d := by
  rcases eq_or_ne i j with rfl | hne
  · by_cases h : i < l.length
    · simp [List.getD_eq_getElem?_getD, List.getElem?_set, h]
    · simp [List.getD_eq_getElem?_getD, List.getElem?_set, h,
        List.getElem?_eq_none_iff.mpr (le_of_not_lt h)]
  · rw [if_neg (fun hc => hne hc.1.symm)]
    simp [List.getD_eq_getElem?_getD, List.getElem?_set, hne]

/-- Parent function after a parent write. -/
theorem pf_set (cs : List Circle) (i q j : Nat) :
    pf (cs.set i { cs.getD i default with parent := some q }) j =
      if j = i ∧ i < cs.length then q else pf cs j := by
  unfold pf
  rw [getD_set_if]
  split
  · simp
  · rfl

/-- A RootedH root is a fixpoint. -/
theorem RootedH.root_self {p : Nat → Nat} {i r k : Nat} (h : RootedH p i r k) :
    p r = r := by
  induction h with
  | self i hi => exact hi
  | step i r k hne htail ih => exact ih

/-- RootedH from a fixpoint is trivial. -/
theorem RootedH.of_self {p : Nat → Nat} {i r k : Nat} (h : RootedH p i r k)
    (hi : p i = i) : r = i ∧ k = 0 := by
  cases h with
  | self => exact ⟨rfl, rfl⟩
  | step _ _ _ hne => exact absurd hi hne

/-- Root and step count are unique. -/
theorem RootedH.unique {p : Nat → Nat} {i r1 r2 k1 k2 : Nat}
    (h1 : RootedH p i r1 k1) (h2 : RootedH p i r2 k2) : r1 = r2 ∧ k1 = k2 := by
  induction h1 generalizing k2 with
  | self i hi =>
    obtain ⟨hr, hk⟩ := h2.of_self hi
    exact ⟨hr.symm, hk.symm⟩
  | step i r k hne htail ih =>
    cases h2 with
    | self _ hi => exact absurd hi hne
    | step _ _ k2a _ htail2 =>
      obtain ⟨hr, hk⟩ := ih htail2
      exact ⟨hr, by omega⟩

/-- The root is unique. -/
theorem rooted_unique {p : Nat → Nat} {i r1 r2 : Nat} (h1 : Rooted p i r1)
    (h2 : Rooted p i r2) : r1 = r2 := by
  obtain ⟨k1, h1⟩ := h1
  obtain ⟨k2, h2⟩ := h2
  exact (h1.unique h2).1

/-- From a fixpoint only the fixpoint is reachable. -/
theorem rooted_from_root {p : Nat → Nat} {r s : Nat} (hr : p r = r)
    (h : Rooted p r s) : s = r := by
  obtain ⟨k, h⟩ := h
  exact (h.of_self hr).1

/-- The suffix of a chain. -/
theorem RootedH.suffix {p : Nat → Nat} {i r k : Nat} (h : RootedH p i r k) :
    ∀ m, m ≤ k → RootedH p (p^[m] i) r (k - m) := by
  intro m
  induction m with
  | zero => intro _; simpa using h
  | succ m ih =>
    intro hm
    have hsub := ih (by omega)
    have hk : k - m = (k - (m + 1)) + 1 := by omega
    rw [hk] at hsub
    cases hsub with
    | step _ _ _ hne htail =>
      rw [Function.iterate_succ_apply']
      exact htail

/-- Along a chain the iterates are pairwise distinct. -/
theorem RootedH.iter_inj {p : Nat → Nat} {i r k : Nat} (h : RootedH p i r k)
    {m1 m2 : Nat} (h1 : m1 ≤ k) (h2 : m2 ≤ k) (he : p^[m1] i = p^[m2] i) :
    m1 = m2 := by
  have s1 := h.suffix m1 h1
  have s2 := h.suffix m2 h2
  rw [he] at s1
  have := s1.unique s2
  omega

/-- Iterates stay in range. -/
theorem iter_lt {p : Nat → Nat} {n i : Nat} (hclo : ∀ x, x < n → p x < n)
    (hi : i < n) : ∀ m, p^[m] i < n := by
  intro m
  induction m with
  | zero => simpa using hi
  | succ m ih => rw [Function.iterate_succ_apply']; exact hclo _ ih

/-- A chain within range n has fewer than n steps. -/
theorem RootedH.height_lt {p : Nat → Nat} {n i r k : Nat}
    (hclo : ∀ x, x < n → p x < n) (hi : i < n) (h : RootedH p i r k) : k < n := by
  have hinj : Function.Injective fun m : Fin (k + 1) =>
      (⟨p^[m.val] i, iter_lt hclo hi m.val⟩ : Fin n) := by
    intro m1 m2 hm
    have := h.iter_inj (Nat.lt_succ_iff.mp m1.isLt) (Nat.lt_succ_iff.mp m2.isLt)
      (by simpa using congrArg Fin.val hm)
    exact Fin.ext this
  have := Fintype.card_le_of_injective _ hinj
  simpa using this

/-- Every in-range index has a root under the invariant. -/
theorem rooted_exists {cs : List Circle} (h : UF cs) :
    ∀ i, i < cs.length → ∃ r k, RootedH (pf cs) i r k ∧ r < cs.length := by
  obtain ⟨hclo, rk, hrk⟩ := h
  have main : ∀ (m i : Nat), i < cs.length → rk i ≤ m →
      ∃ r k, RootedH (pf cs) i r k ∧ r < cs.length := by
    intro m
    induction m with
    | zero =>
      intro i hi hm
      by_cases hp : pf cs i = i
      · exact ⟨i, 0, RootedH.self i hp, hi⟩
      · exact absurd (hrk i hi hp) (by omega)
    | succ m ih =>
      intro i hi hm
      by_cases hp : pf cs i = i
      · exact ⟨i, 0, RootedH.self i hp, hi⟩
      · obtain ⟨r, k, hr, hrlt⟩ := ih (pf cs i) (hclo i hi)
          (by have := hrk i hi hp; omega)
        exact ⟨r, k + 1, RootedH.step i r k hp hr, hrlt⟩
  intro i hi
  exact main (rk i) i hi (le_refl _)

/-- The ranking strictly decreases from a node to its distinct root. -/
theorem rank_root_lt {cs : List Circle} {rk : Nat → Nat}
    (hclo : ∀ x, x < cs.length → pf cs x < cs.length)
    (hrk : ∀ x, x < cs.length → pf cs x ≠ x → rk (pf cs x) < rk x)
    {i r k : Nat} (h : RootedH (pf cs) i r k) :
    i < cs.length → i ≠ r → rk r < rk i := by
  induction h with
  | self j hj => intro _ hne; exact absurd rfl hne
  | step j r k hnej htail ih =>
    intro hj hne
    by_cases hpr : pf cs j = r
    · have hlt := hrk j hj hnej
      rw [hpr] at hlt
      exact hlt
    · exact lt_trans (ih (hclo j hj) hpr) (hrk j hj hnej)

/-- ufFind preserves the store length. -/
theorem ufFind_length (fuel : Nat) (cs : List Circle) (i : Nat) :
    (ufFind cs i fuel).1.length = cs.length := by
  have := congrArg List.length (ufFind_strip fuel cs i)
  simpa using this

/-- ufUnion preserves the store length. -/
theorem ufUnion_length (fuel : Nat) (cs : List Circle) (x y : Nat) :
    (ufUnion fuel cs x y).length = cs.length := by
  have := congrArg List.length (ufUnion_strip fuel cs x y)
  simpa using this

/-- The find specification: with enough fuel, find returns the root of i,
and every parent pointer of the result store is either unchanged or
rewritten to point at the root of its own node (path compression). -/
theorem ufFind_go : ∀ (fuel : Nat) (cs : List Circle) (i r k : Nat),
    RootedH (pf cs) i r k → k + 1 ≤ fuel →
    (ufFind cs i fuel).2 = r ∧
    ∀ j, pf ((ufFind cs i fuel).1) j = pf cs j ∨
      (pf ((ufFind cs i fuel).1) j = r ∧ Rooted (pf cs) j r ∧ pf cs j ≠ j) := by
  intro fuel
  induction fuel with
  | zero => intro cs i r k h hk; omega
  | succ n ih =>
    intro cs i r k h hk
    unfold ufFind
    dsimp only
    by_cases hp : ((cs.getD i default).parent).getD i = i
    · rw [if_pos hp]
      obtain ⟨hr, _⟩ := h.of_self hp
      exact ⟨hr.symm, fun j => Or.inl rfl⟩
    · rw [if_neg hp]
      have hstep : pf cs i ≠ i := hp
      rcases h with _ | ⟨_, _, k2, _, htail⟩
      · exact absurd ‹pf cs i = i› hstep
      · obtain ⟨hr1, hP1⟩ := ih cs (pf cs i) r k2 htail (by omega)
        dsimp only
        constructor
        · exact hr1
        · intro j
          rw [show ((cs.getD i default).parent).getD i = pf cs i from rfl]
          rw [pf_set, ufFind_length]
          by_cases hcase : j = i ∧ i < cs.length
          · rw [if_pos hcase]
            refine Or.inr ⟨hr1 ▸ rfl, ⟨k2 + 1, ?_⟩, hcase.1 ▸ hstep⟩
            rw [hcase.1]
            exact RootedH.step i r k2 hstep htail
          · rw [if_neg hcase]
            exact hP1 j

/-- Transfer of root facts across a state whose parents are unchanged or
compressed to the node's own root. -/
theorem rooted_transfer {p p' : Nat → Nat} {r : Nat}
    (hP2 : ∀ j, p' j = p j ∨ (p' j = r ∧ Rooted p j r ∧ p j ≠ j))
    (hroot : p r = r) : ∀ j s, Rooted p j s ↔ Rooted p' j s := by
  have hroots : ∀ j, p j = j → p' j = j := by
    intro j hj
    rcases hP2 j with h | ⟨_, _, hne⟩
    · rw [h, hj]
    · exact absurd hj hne
  have hrootp : p' r = r := hroots r hroot
  intro j s
  constructor
  · rintro ⟨k, h⟩
    induction h with
    | self i hi => exact ⟨0, RootedH.self i (hroots i hi)⟩
    | step i s k hne htail ihh =>
      rcases hP2 i with hsame | ⟨heq, hir, _⟩
      · obtain ⟨k2, h2⟩ := ihh
        exact ⟨k2 + 1, RootedH.step i s k2 (hsame ▸ hne)
          (by rw [hsame]; exact h2)⟩
      · have hs : s = r := by
          have h1 : Rooted p i s := ⟨k + 1, RootedH.step i s k hne htail⟩
          exact rooted_unique h1 hir
        subst hs
        have hins : i ≠ s := fun hcontra => hne (by rw [hcontra]; exact hroot)
        refine ⟨1, RootedH.step i s 0 ?_ ?_⟩
        · rw [heq]; exact fun hc => hins hc.symm
        · rw [heq]; exact RootedH.self s hrootp
  · rintro ⟨k, h⟩
    induction h with
    | self i hi =>
      rcases hP2 i with hsame | ⟨heq, hir, _⟩
      · exact ⟨0, RootedH.self i (hsame ▸ hi)⟩
      · have : i = r := by rw [← heq, hi]
        rw [this]
        rw [this] at hir
        exact ⟨0, RootedH.self r hroot⟩
    | step i s k hne htail ihh =>
      obtain ⟨k2, h2⟩ := ihh
      rcases hP2 i with hsame | ⟨heq, hir, hpne⟩
      · refine ⟨k2 + 1, RootedH.step i s k2 (by rw [← hsame]; exact hne) ?_⟩
        rw [← hsame]
        exact h2
      · have hrs : Rooted p r s := by
          refine ⟨k2, ?_⟩
          rw [← heq]
          exact h2
        have : s = r := rooted_from_root hroot hrs
        subst this
        exact hir

/-- Rooted only depends on the pointwise parent function. -/
theorem rooted_congr {p q : Nat → Nat} (hpq : ∀ v, p v = q v) {j s : Nat}
    (h : Rooted p j s) : Rooted q j s := by
  obtain ⟨k, h⟩ := h
  refine ⟨k, ?_⟩
  induction h with
  | self i hi => exact RootedH.self i (hpq i ▸ hi)
  | step i r k hne htail ih =>
    exact RootedH.step i r k (hpq i ▸ hne) (hpq i ▸ ih)

/-- Shifting along one parent step keeps the root. -/
theorem rooted_shift {p : Nat → Nat} {j s : Nat} (hne : p j ≠ j) :
    Rooted p (p j) s ↔ Rooted p j s := by
  constructor
  · rintro ⟨k, h⟩
    exact ⟨k + 1, RootedH.step j s k hne h⟩
  · rintro ⟨k, h⟩
    cases h with
    | self _ hj => exact absurd hj hne
    | step _ _ k2 _ htail => exact ⟨k2, htail⟩

/-- Linking the root xr under the root yr maps every root through
(if s = xr then yr else s). -/
theorem rooted_link {p q : Nat → Nat} {xr yr : Nat} (hxr : p xr = xr)
    (hyr : p yr = yr) (hq : ∀ v, q v = if v = xr then yr else p v) :
    ∀ j s, Rooted p j s → Rooted q j (if s = xr then yr else s) := by
  intro j s ⟨k, h⟩
  induction h with
  | self i hi =>
    by_cases hix : i = xr
    · rw [hix, if_pos rfl]
      by_cases hxy : xr = yr
      · rw [← hxy]
        exact ⟨0, RootedH.self xr (by rw [hq xr, if_pos rfl, ← hxy])⟩
      · refine ⟨1, RootedH.step xr yr 0 ?_ ?_⟩
        · rw [hq xr, if_pos rfl]
          exact fun hc => hxy hc.symm
        · rw [hq xr, if_pos rfl]
          exact RootedH.self yr
            (by rw [hq yr, if_neg (fun hc => hxy hc.symm), hyr])
    · rw [if_neg hix]
      exact ⟨0, RootedH.self i (by rw [hq i, if_neg hix, hi])⟩
  | step i r k hne htail ih =>
    have hix : i ≠ xr := fun hc => hne (by rw [hc, hxr])
    obtain ⟨k2, h2⟩ := ih
    refine ⟨k2 + 1, RootedH.step i _ k2 ?_ ?_⟩
    · rw [hq i, if_neg hix]
      exact hne
    · rw [hq i, if_neg hix]
      exact h2

/-- The full find contract at the fuel disjointCluster uses. -/
theorem ufFind_full {cs : List Circle} (hUF : UF cs) {i : Nat}
    (hi : i < cs.length) {fuel : Nat} (hfuel : cs.length + 1 ≤ fuel) :
    ∃ r, r < cs.length ∧ Rooted (pf cs) i r ∧
      (ufFind cs i fuel).2 = r ∧
      UF (ufFind cs i fuel).1 ∧
      ∀ j s, Rooted (pf cs) j s ↔ Rooted (pf ((ufFind cs i fuel).1)) j s := by
  obtain ⟨r, k, h, hrlt⟩ := rooted_exists hUF i hi
  have hklt : k < cs.length := h.height_lt hUF.1 hi
  obtain ⟨hr2, hP2⟩ := ufFind_go fuel cs i r k h (by omega)
  have hroot : pf cs r = r := h.root_self
  have hiff := rooted_transfer hP2 hroot
  refine ⟨r, hrlt, ⟨k, h⟩, hr2, ?_, hiff⟩
  obtain ⟨hclo, rk, hrk⟩ := hUF
  constructor
  · intro j hj
    rw [ufFind_length] at hj ⊢
    rcases hP2 j with hsame | ⟨heq, _, _⟩
    · rw [hsame]; exact hclo j hj
    · rw [heq]; exact hrlt
  · refine ⟨rk, ?_⟩
    intro j hj hne
    rw [ufFind_length] at hj
    rcases hP2 j with hsame | ⟨heq, hjr, hpne⟩
    · rw [hsame] at hne ⊢
      exact hrk j hj hne
    · rw [heq] at hne ⊢
      obtain ⟨k3, h3⟩ := hjr
      exact rank_root_lt hclo hrk h3 hj (fun hc => hne (hc ▸ rfl))

/-- The full union contract: the invariant is preserved, the two arguments
end up with one common root, and nodes that shared a root keep sharing
one. -/
theorem ufUnion_full {cs : List Circle} (hUF : UF cs) {x y : Nat}
    (hx : x < cs.length) (hy : y < cs.length) {fuel : Nat}
    (hfuel : cs.length + 1 ≤ fuel) :
    UF (ufUnion fuel cs x y) ∧
    (∃ t, Rooted (pf (ufUnion fuel cs x y)) x t ∧
      Rooted (pf (ufUnion fuel cs x y)) y t) ∧
    ∀ i j s, Rooted (pf cs) i s → Rooted (pf cs) j s →
      ∃ t, Rooted (pf (ufUnion fuel cs x y)) i t ∧
        Rooted (pf (ufUnion fuel cs x y)) j t := by
  obtain ⟨xr, hxrlt, hxroot, hxr2, hUF1, hiff1⟩ := ufFind_full hUF hx hfuel
  have hlen1 : (ufFind cs x fuel).1.length = cs.length := ufFind_length _ _ _
  have hy1 : y < (ufFind cs x fuel).1.length := by rw [hlen1]; exact hy
  have hfuel1 : (ufFind cs x fuel).1.length + 1 ≤ fuel := by
    rw [hlen1]; exact hfuel
  obtain ⟨yr, hyrlt, hyroot, hyr2, hUF2, hiff2⟩ := ufFind_full hUF1 hy1 hfuel1
  rw [hlen1] at hyrlt
  set cs1 := (ufFind cs x fuel).1 with hcs1
  set cs2 := (ufFind cs1 y fuel).1 with hcs2
  have hlen2 : cs2.length = cs.length := by
    rw [hcs2, ufFind_length, hlen1]
  have hlen3 : (ufUnion fuel cs x y).length = cs.length := ufUnion_length _ _ _ _
  have hxr_cs2 : Rooted (pf cs2) x xr := (hiff2 _ _).mp ((hiff1 _ _).mp hxroot)
  have hyr_cs2 : Rooted (pf cs2) y yr := (hiff2 _ _).mp hyroot
  have hrootx : pf cs2 xr = xr := by
    obtain ⟨k, h⟩ := hxr_cs2
    exact h.root_self
  have hrooty : pf cs2 yr = yr := by
    obtain ⟨k, h⟩ := hyr_cs2
    exact h.root_self
  have hcs3 : ufUnion fuel cs x y =
      cs2.set xr { cs2.getD xr default with parent := some yr } := by
    unfold ufUnion
    dsimp only
    rw [← hcs1, ← hcs2, hxr2, hyr2]
  have hpf3 : ∀ j, pf (ufUnion fuel cs x y) j =
      if j = xr then yr else pf cs2 j := by
    intro j
    rw [hcs3, pf_set]
    have hxl : xr < cs2.length := by rw [hlen2]; exact hxrlt
    by_cases hj : j = xr
    · rw [if_pos ⟨hj, hxl⟩, if_pos hj]
    · rw [if_neg (fun hc => hj hc.1), if_neg hj]
  have hlink := rooted_link hrootx hrooty hpf3
  refine ⟨⟨?_, ?_⟩, ⟨yr, ?_, ?_⟩, ?_⟩
  · intro j hj
    rw [hpf3]
    rw [hlen3] at hj ⊢
    by_cases hjx : j = xr
    · rw [if_pos hjx]
      exact hyrlt
    · rw [if_neg hjx]
      have := hUF2.1 j (by rw [hlen2]; exact hj)
      rw [hlen2] at this
      exact this
  · obtain ⟨hclo2, rk2, hrk2⟩ := hUF2
    refine ⟨fun v => if Rooted (pf cs2) v xr then rk2 v + (rk2 yr + 1)
      else rk2 v, ?_⟩
    intro j hj hne
    rw [hpf3] at hne ⊢
    by_cases hjx : j = xr
    · rw [if_pos hjx] at hne ⊢
      have hxy : xr ≠ yr := fun hc => hne (by rw [hjx, ← hc])
      have h1 : ¬ Rooted (pf cs2) yr xr := fun hc =>
        hxy (rooted_from_root hrooty hc)
      have h2 : Rooted (pf cs2) j xr := by
        rw [hjx]
        exact ⟨0, RootedH.self xr hrootx⟩
      simp only [if_neg h1, if_pos h2]
      omega
    · rw [if_neg hjx] at hne ⊢
      have hstep := hrk2 j (by rw [hlen2, ← hlen3]; exact hj) hne
      have hiffb := @rooted_shift (pf cs2) j xr hne
      by_cases hroo : Rooted (pf cs2) j xr
      · simp only [if_pos hroo, if_pos (hiffb.mpr hroo)]
        omega
      · simp only [if_neg hroo, if_neg (fun hc => hroo (hiffb.mp hc))]
        omega
  · have h := hlink x xr hxr_cs2
    rw [if_pos rfl] at h
    exact h
  · have h := hlink y yr hyr_cs2
    rw [ite_self] at h
    exact h
  · intro i j s hi hj
    have hi2 : Rooted (pf cs2) i s := (hiff2 _ _).mp ((hiff1 _ _).mp hi)
    have hj2 : Rooted (pf cs2) j s := (hiff2 _ _).mp ((hiff1 _ _).mp hj)
    exact ⟨if s = xr then yr else s, hlink i s hi2, hlink j s hj2⟩

/-! ## C8: the clusters disjointCluster computes -/

/-- Stores with equal parent-stripped views agree entrywise after strip. -/
theorem strip_getD {cs ds : List Circle} (h : cs.map strip = ds.map strip)
    (i : Nat) : strip (cs.getD i default) = strip (ds.getD i default) := by
  have hlen : cs.length = ds.length := by
    have := congrArg List.length h
    simpa using this
  by_cases hi : i < cs.length
  · have h1 : (cs.map strip).getD i default = strip (cs.getD i default) := by
      rw [List.getD_eq_getElem?_getD, List.getD_eq_getElem?_getD,
        List.getElem?_map, List.getElem?_eq_getElem hi]
      rfl
    have h2 : (ds.map strip).getD i default = strip (ds.getD i default) := by
      rw [List.getD_eq_getElem?_getD, List.getD_eq_getElem?_getD,
        List.getElem?_map, List.getElem?_eq_getElem (hlen ▸ hi)]
      rfl
    rw [← h1, ← h2, h]
  · rw [List.getD_eq_getElem?_getD, List.getD_eq_getElem?_getD,
      List.getElem?_eq_none_iff.mpr (le_of_not_lt hi),
      List.getElem?_eq_none_iff.mpr (by omega)]

/-- Stores with equal parent-stripped views agree on every geometric field
and the setid. -/
theorem strip_fields {cs ds : List Circle} (h : cs.map strip = ds.map strip)
    (i : Nat) :
    (cs.getD i default).x = (ds.getD i default).x ∧
    (cs.getD i default).y = (ds.getD i default).y ∧
    (cs.getD i default).radius = (ds.getD i default).radius ∧
    (cs.getD i default).setid = (ds.getD i default).setid := by
  have hs := strip_getD h i
  simp only [strip, Circle.mk.injEq, and_true] at hs
  exact ⟨hs.1, hs.2.1, hs.2.2.1, hs.2.2.2.1⟩

theorem strip_pt {cs ds : List Circle} (h : cs.map strip = ds.map strip)
    (i : Nat) : (cs.getD i default).pt = (ds.getD i default).pt := by
  obtain ⟨hx, hy, _, _⟩ := strip_fields h i
  unfold Circle.pt
  rw [hx, hy]

/-- The overlap test of the pair fold only reads fields the strip view
keeps, so it can be evaluated on the original circles. -/
theorem cond_eq_of_strip {cs circles : List Circle}
    (h : cs.map strip = circles.map strip) (a b : Nat) :
    (distance (cs.getD a default).pt (cs.getD b default).pt + 1e-10 <
        (cs.getD a default).radius + (cs.getD b default).radius) ↔
      (distance (circles.getD a default).pt (circles.getD b default).pt + 1e-10 <
        (circles.getD a default).radius + (circles.getD b default).radius) := by
  rw [strip_pt h a, strip_pt h b, (strip_fields h a).2.2.1,
    (strip_fields h b).2.2.1]

theorem distance_comm (p q : Point) : distance p q = distance q p := by
  unfold distance
  ring_nf

theorem overlapEdge_symm {circles : List Circle} {i j : Nat}
    (h : overlapEdge circles i j) : overlapEdge circles j i := by
  obtain ⟨hi, hj, hlt⟩ := h
  refine ⟨hj, hi, ?_⟩
  rw [distance_comm]
  linarith

/-- The initial tagging pass makes every circle its own root. -/
theorem pf_init (circles : List Circle) (i : Nat) :
    pf (circles.enum.map fun ic => { ic.2 with parent := some ic.1 }) i = i := by
  unfold pf
  by_cases hi : i < circles.length
  · rw [List.getD_eq_getElem?_getD, List.getElem?_map,
      List.getElem?_eq_getElem (by simpa using hi)]
    simp [List.getElem_enum]
  · rw [List.getD_eq_getElem?_getD,
      List.getElem?_eq_none_iff.mpr (by simpa using le_of_not_lt hi)]
    rfl

theorem UF_init (circles : List Circle) :
    UF (circles.enum.map fun ic => { ic.2 with parent := some ic.1 }) := by
  constructor
  · intro i hi
    rw [pf_init]
    exact hi
  · exact ⟨fun _ => 0, fun i _ hne => absurd (pf_init circles i) hne⟩

/-- The initial tagging pass keeps the stripped view of the input. -/
theorem map_strip_init (circles : List Circle) :
    (circles.enum.map fun ic => { ic.2 with parent := some ic.1 }).map strip =
      circles.map strip := by
  rw [map_strip_tagged]
  have h2 : (circles.enum.map fun ic => strip ic.2) =
      (circles.enum.map Prod.snd).map strip := by
    rw [List.map_map]
    rfl
  rw [h2, List.enum_map_snd]

/-- find at a root is the identity. -/
theorem ufFind_fix {cs : List Circle} {i : Nat} (h : pf cs i = i) {fuel : Nat}
    (hf : 0 < fuel) : ufFind cs i fuel = (cs, i) := by
  cases fuel with
  | zero => omega
  | succ n =>
    unfold ufFind
    dsimp only
    rw [if_pos (show ((cs.getD i default).parent).getD i = i from h)]

theorem map_getD_strip (l : List Circle) (i : Nat) :
    (l.map strip).getD i default = strip (l.getD i default) := by
  by_cases hi : i < l.length
  · rw [List.getD_eq_getElem?_getD, List.getD_eq_getElem?_getD,
      List.getElem?_map, List.getElem?_eq_getElem hi]
    rfl
  · rw [List.getD_eq_getElem?_getD, List.getD_eq_getElem?_getD,
      List.getElem?_eq_none_iff.mpr (by simpa using le_of_not_lt hi),
      List.getElem?_eq_none_iff.mpr (le_of_not_lt hi)]
    rfl

/-- Grouping under a fresh key appends a new singleton group. -/
theorem clUpsert_fresh : ∀ (acc : List (Option String × List Nat))
    (k : Option String) (i : Nat), (∀ p ∈ acc, p.1 ≠ k) →
    clUpsert acc k i = acc ++ [(k, [i])]
  | [], _, _, _ => rfl
  | (k0, l) :: t, k, i, h => by
    unfold clUpsert
    rw [if_neg (h (k0, l) (List.mem_cons_self _ _)),
      clUpsert_fresh t k i (fun p hp => h p (List.mem_cons_of_mem _ hp))]
    rfl

/-- Grouping under the unique present key extends that group. -/
theorem clUpsert_same (k : Option String) (m : List Nat) (i : Nat) :
    clUpsert [(k, m)] k i = [(k, m ++ [i])] := by
  unfold clUpsert
  rw [if_pos rfl]

theorem foldl_clUpsert_const (k : Option String) :
    ∀ (l : List Nat) (m : List Nat),
      l.foldl (fun a i => clUpsert a k i) [(k, m)] = [(k, m ++ l)] := by
  intro l
  induction l with
  | nil => intro m; simp
  | cons i t ih =>
    intro m
    rw [List.foldl_cons]
    rw [clUpsert_same, ih]
    simp

theorem foldl_clUpsert_const_nil (k : Option String) (l : List Nat)
    (h : l ≠ []) :
    l.foldl (fun a i => clUpsert a k i) [] = [(k, l)] := by
  cases l with
  | nil => exact absurd rfl h
  | cons i t =>
    rw [List.foldl_cons]
    rw [show clUpsert [] k i = [(k, [i])] from rfl, foldl_clUpsert_const]
    simp

theorem mem_pairsOf_append_single {α : Type} (l : List α) (x : α)
    (q : α × α) :
    q ∈ pairsOf (l ++ [x]) ↔ q ∈ pairsOf l ∨ (q.1 ∈ l ∧ q.2 = x) := by
  obtain ⟨q1, q2⟩ := q
  induction l with
  | nil => simp [pairsOf, Prod.ext_iff]
  | cons a t ih =>
    simp only [List.cons_append, pairsOf, List.mem_append, List.mem_map,
      List.mem_cons, List.mem_singleton, List.not_mem_nil, List.append_eq,
      or_false, ih, Prod.mk.injEq]
    constructor
    · rintro (⟨y, hy | rfl, rfl, rfl⟩ | hp | hp)
      · exact Or.inl (Or.inl ⟨y, hy, rfl, rfl⟩)
      · exact Or.inr ⟨Or.inl rfl, rfl⟩
      · exact Or.inl (Or.inr hp)
      · exact Or.inr ⟨Or.inr hp.1, hp.2⟩
    · rintro ((⟨y, hy, rfl, rfl⟩ | hp) | ⟨rfl | h1, rfl⟩)
      · exact Or.inl ⟨y, Or.inl hy, rfl, rfl⟩
      · exact Or.inr (Or.inl hp)
      · exact Or.inl ⟨_, Or.inr rfl, rfl, rfl⟩
      · exact Or.inr (Or.inr ⟨h1, rfl⟩)

/-- The pair list of disjointCluster: exactly the ordered index pairs. -/
theorem mem_pairsOf_range (n i j : Nat) :
    (i, j) ∈ pairsOf (List.range n) ↔ i < j ∧ j < n := by
  induction n with
  | zero => simp [pairsOf]
  | succ n ih =>
    rw [List.range_succ, mem_pairsOf_append_single]
    simp only [ih, List.mem_range]
    omega

theorem range_map_getD {β : Type} (l : List Circle) (g : Circle → β) :
    (List.range l.length).map (fun i => g (l.getD i default)) = l.map g := by
  apply List.ext_getElem
  · simp
  · intro i h1 h2
    simp only [List.getElem_map, List.getElem_range]
    rw [List.getD_eq_getElem?_getD,
      List.getElem?_eq_getElem (by simpa using h2)]
    rfl

theorem range_map_final (circles : List Circle) :
    (List.range circles.length).map
        (fun i => (circles.map strip).getD i default) =
      circles.map strip := by
  apply List.ext_getElem
  · simp
  · intro i h1 h2
    simp only [List.getElem_map, List.getElem_range]
    rw [List.getD_eq_getElem?_getD, List.getElem?_eq_getElem h2]
    simp

theorem range_map_final_singl (circles : List Circle) :
    (List.range circles.length).map
        (fun i => [(circles.map strip).getD i default]) =
      circles.map fun c => [strip c] := by
  apply List.ext_getElem
  · simp
  · intro i h1 h2
    simp only [List.getElem_map, List.getElem_range]
    have hi : i < (circles.map strip).length := by simpa using h2
    rw [List.getD_eq_getElem?_getD, List.getElem?_eq_getElem hi]
    simp only [Option.getD_some, List.getElem_map]

/-- The cluster component of disjointCluster, written with the named step
functions. -/
theorem disjointCluster_fst (circles : List Circle) :
    (disjointCluster circles).1 =
      ((List.range circles.length).foldl (grpStep (circles.length + 1))
          ((pairsOf (List.range circles.length)).foldl
            (dcStep (circles.length + 1))
            (circles.enum.map fun ic => { ic.2 with parent := some ic.1 }),
            [])).2.map
        fun p => p.2.map fun i =>
          ((((List.range circles.length).foldl (grpStep (circles.length + 1))
            ((pairsOf (List.range circles.length)).foldl
              (dcStep (circles.length + 1))
              (circles.enum.map fun ic => { ic.2 with parent := some ic.1 }),
              [])).1.map strip).getD i default) := rfl

/-- If no processed pair overlaps, the pair fold of disjointCluster leaves
the store untouched. -/
theorem pairsFold_noop (circles : List Circle) (fuel : Nat) :
    ∀ (qs : List (Nat × Nat)) (cs : List Circle),
      cs.map strip = circles.map strip →
      (∀ q ∈ qs, ¬ (distance (circles.getD q.1 default).pt
          (circles.getD q.2 default).pt + 1e-10 <
          (circles.getD q.1 default).radius +
          (circles.getD q.2 default).radius)) →
      qs.foldl (dcStep fuel) cs = cs := by
  intro qs
  induction qs with
  | nil => intro cs _ _; rfl
  | cons q t ih =>
    intro cs h1 hno
    rw [List.foldl_cons]
    have hstep : dcStep fuel cs q = cs := by
      unfold dcStep
      dsimp only
      rw [if_neg (fun hc => hno q (List.mem_cons_self q t)
        ((cond_eq_of_strip h1 q.1 q.2).mp hc))]
    rw [hstep]
    exact ih cs h1 (fun q2 h => hno q2 (List.mem_cons_of_mem _ h))

/-- The pair fold of disjointCluster: the stripped view and the union-find
invariant are preserved, root-sharing is never destroyed, and every
overlapping processed pair ends up sharing a root. -/
theorem pairsFold_spec (circles : List Circle) (fuel : Nat)
    (hfuel : circles.length + 1 ≤ fuel) :
    ∀ (qs : List (Nat × Nat)) (cs : List Circle),
      (∀ q ∈ qs, q.1 < circles.length ∧ q.2 < circles.length) →
      cs.map strip = circles.map strip → UF cs →
      (qs.foldl (dcStep fuel) cs).map strip = circles.map strip ∧
      UF (qs.foldl (dcStep fuel) cs) ∧
      (∀ i j, sameRoot cs i j → sameRoot (qs.foldl (dcStep fuel) cs) i j) ∧
      ∀ q ∈ qs, overlapEdge circles q.1 q.2 →
        sameRoot (qs.foldl (dcStep fuel) cs) q.1 q.2 := by
  intro qs
  induction qs with
  | nil =>
    intro cs _ h1 h2
    exact ⟨h1, h2, fun i j h => h, fun q hq => absurd hq (List.not_mem_nil q)⟩
  | cons q t ih =>
    intro cs hb h1 h2
    rw [List.foldl_cons]
    have hq := hb q (List.mem_cons_self q t)
    have hbt : ∀ q2 ∈ t, q2.1 < circles.length ∧ q2.2 < circles.length :=
      fun q2 h => hb q2 (List.mem_cons_of_mem _ h)
    have hlen : cs.length = circles.length := by
      have := congrArg List.length h1
      simpa using this
    by_cases hc : distance (cs.getD q.1 default).pt (cs.getD q.2 default).pt
        + 1e-10 < (cs.getD q.1 default).radius + (cs.getD q.2 default).radius
    · have hde : dcStep fuel cs q = ufUnion fuel cs q.2 q.1 := by
        unfold dcStep
        dsimp only
        rw [if_pos hc]
      obtain ⟨hUF2, ⟨t0, ht2, ht1⟩, hpres⟩ :=
        @ufUnion_full cs h2 q.2 q.1 (by rw [hlen]; exact hq.2)
          (by rw [hlen]; exact hq.1) fuel (by rw [hlen]; exact hfuel)
      obtain ⟨ih1, ih2, ih3, ih4⟩ := ih (ufUnion fuel cs q.2 q.1) hbt
        ((ufUnion_strip _ _ _ _).trans h1) hUF2
      rw [hde]
      refine ⟨ih1, ih2, ?_, ?_⟩
      · intro i j hij
        obtain ⟨s, hi2, hj2⟩ := hij
        exact ih3 i j (hpres i j s hi2 hj2)
      · intro q2 hq2 hov
        rcases List.mem_cons.mp hq2 with rfl | hmem
        · exact ih3 q2.1 q2.2 ⟨t0, ht1, ht2⟩
        · exact ih4 q2 hmem hov
    · have hde : dcStep fuel cs q = cs := by
        unfold dcStep
        dsimp only
        rw [if_neg hc]
      rw [hde]
      obtain ⟨ih1, ih2, ih3, ih4⟩ := ih cs hbt h1 h2
      refine ⟨ih1, ih2, ih3, ?_⟩
      intro q2 hq2 hov
      rcases List.mem_cons.mp hq2 with rfl | hmem
      · exact absurd ((cond_eq_of_strip h1 q2.1 q2.2).mpr hov.2.2) hc
      · exact ih4 q2 hmem hov

theorem sameRoot_symm {cs : List Circle} {i j : Nat} (h : sameRoot cs i j) :
    sameRoot cs j i := by
  obtain ⟨t, hi, hj⟩ := h
  exact ⟨t, hj, hi⟩

theorem sameRoot_trans {cs : List Circle} {i j k : Nat}
    (h1 : sameRoot cs i j) (h2 : sameRoot cs j k) : sameRoot cs i k := by
  obtain ⟨t1, hi, hj⟩ := h1
  obtain ⟨t2, hj2, hk⟩ := h2
  rw [rooted_unique hj hj2] at hi
  exact ⟨t2, hi, hk⟩

/-- Once all overlapping ordered pairs share roots, every pair connected in
the overlap graph shares a root. -/
theorem oreach_sameRoot {circles cs1 : List Circle} (hUF : UF cs1)
    (hlen : cs1.length = circles.length)
    (hedge : ∀ a b, a < b → overlapEdge circles a b → sameRoot cs1 a b) :
    ∀ i j, OReach circles i j → sameRoot cs1 i j := by
  intro i j h
  induction h with
  | refl hi =>
    obtain ⟨r, k, hr, _⟩ := rooted_exists hUF i (by rw [hlen]; exact hi)
    exact ⟨r, ⟨k, hr⟩, ⟨k, hr⟩⟩
  | tail j k hij he ih =>
    refine sameRoot_trans ih ?_
    have hjk : ∀ a b, overlapEdge circles a b → sameRoot cs1 a b := by
      intro a b hov
      rcases Nat.lt_trichotomy a b with hab | rfl | hba
      · exact hedge a b hab hov
      · obtain ⟨r, k2, hr, _⟩ := rooted_exists hUF a (by rw [hlen]; exact hov.1)
        exact ⟨r, ⟨k2, hr⟩, ⟨k2, hr⟩⟩
      · exact sameRoot_symm (hedge b a hba (overlapEdge_symm hov))
    rcases he with he | he
    · exact hjk j k he
    · exact sameRoot_symm (hjk k j he)

/-- The grouping fold on a store where every circle is its own root: each
circle is found immediately and grouped under its own setid; with pairwise
distinct setids every group is a fresh singleton. -/
theorem groupFold_id (fuel : Nat) (hf : 0 < fuel) {cs : List Circle}
    (hpf : ∀ i, pf cs i = i) :
    ∀ (l : List Nat) (acc : List (Option String × List Nat)),
      (∀ p ∈ acc, ∀ i ∈ l, p.1 ≠ (cs.getD i default).setid) →
      List.Pairwise (fun i j => (cs.getD i default).setid ≠
        (cs.getD j default).setid) l →
      l.foldl (grpStep fuel) (cs, acc) =
        (cs, acc ++ l.map fun i => ((cs.getD i default).setid, [i])) := by
  intro l
  induction l with
  | nil => intro acc _ _; simp
  | cons i t ih =>
    intro acc hacc hpw
    rw [List.foldl_cons]
    have hstep : grpStep fuel (cs, acc) i =
        (cs, acc ++ [((cs.getD i default).setid, [i])]) := by
      unfold grpStep
      dsimp only
      rw [ufFind_fix (hpf i) hf]
      rw [clUpsert_fresh acc _ i
        (fun p hp => hacc p hp i (List.mem_cons_self i t))]
    have hacc2 : ∀ p ∈ acc ++ [((cs.getD i default).setid, [i])],
        ∀ i2 ∈ t, p.1 ≠ (cs.getD i2 default).setid := by
      intro p hp i2 hi2
      rcases List.mem_append.mp hp with hp | hp
      · exact hacc p hp i2 (List.mem_cons_of_mem _ hi2)
      · rw [List.mem_singleton.mp hp]
        exact (List.pairwise_cons.mp hpw).1 i2 hi2
    rw [hstep, ih _ hacc2 (List.pairwise_cons.mp hpw).2]
    simp

/-- The grouping fold on a store whose circles all share the root R: every
circle is grouped under the setid of circle R. -/
theorem groupFold_const (circles : List Circle) {fuel : Nat} {R : Nat}
    (hfuel : circles.length + 1 ≤ fuel) :
    ∀ (l : List Nat) (cs : List Circle)
      (acc : List (Option String × List Nat)),
      cs.map strip = circles.map strip → UF cs →
      (∀ v, v < circles.length → Rooted (pf cs) v R) →
      (∀ i ∈ l, i < circles.length) →
      (l.foldl (grpStep fuel) (cs, acc)).1.map strip = circles.map strip ∧
      (l.foldl (grpStep fuel) (cs, acc)).2 =
        l.foldl (fun a i =>
          clUpsert a ((circles.getD R default).setid) i) acc := by
  intro l
  induction l with
  | nil => intro cs acc h1 _ _ _; exact ⟨h1, rfl⟩
  | cons i t ih =>
    intro cs acc h1 h2 hroots hbnd
    have hlen : cs.length = circles.length := by
      have := congrArg List.length h1
      simpa using this
    have hi : i < cs.length := by
      rw [hlen]
      exact hbnd i (List.mem_cons_self i t)
    have hfuel2 : cs.length + 1 ≤ fuel := by
      rw [hlen]
      exact hfuel
    obtain ⟨r, hrlt, hroot, hr2, hUF2, hiff⟩ := ufFind_full h2 hi hfuel2
    have hrR : r = R :=
      rooted_unique hroot (hroots i (by rw [← hlen]; exact hi))
    have hstrip2 : (ufFind cs i fuel).1.map strip = circles.map strip :=
      (ufFind_strip _ _ _).trans h1
    have hkey : ((ufFind cs i fuel).1.getD (ufFind cs i fuel).2
        default).setid = (circles.getD R default).setid := by
      rw [hr2, hrR]
      exact (strip_fields hstrip2 R).2.2.2
    have hstep : grpStep fuel (cs, acc) i =
        ((ufFind cs i fuel).1,
          clUpsert acc ((circles.getD R default).setid) i) := by
      unfold grpStep
      dsimp only
      rw [hkey]
    rw [List.foldl_cons, hstep, List.foldl_cons]
    exact ih (ufFind cs i fuel).1 _ hstrip2 hUF2
      (fun v hv => (hiff v R).mp (hroots v hv))
      (fun i2 h => hbnd i2 (List.mem_cons_of_mem _ h))

/-- Pairwise-distinct setids, read through getD over the index range. -/
theorem setid_pairwise_range {circles : List Circle}
    (hids : List.Pairwise (fun a b => a ≠ b) (circles.map Circle.setid)) :
    List.Pairwise (fun i j => (circles.getD i default).setid ≠
      (circles.getD j default).setid) (List.range circles.length) := by
  rw [List.pairwise_iff_getElem] at hids ⊢
  intro a b ha hb hab
  have ha2 : a < circles.length := by simpa using ha
  have hb2 : b < circles.length := by simpa using hb
  have h := hids a b (by simpa using ha2) (by simpa using hb2) hab
  simp only [List.getElem_map] at h
  simp only [List.getElem_range]
  intro heq
  apply h
  rw [List.getD_eq_getElem?_getD, List.getD_eq_getElem?_getD,
    List.getElem?_eq_getElem ha2, List.getElem?_eq_getElem hb2] at heq
  exact heq

/-- C8: for circles with pairwise-distinct setids, disjointCluster returns
one singleton cluster per circle when no two circles overlap, and exactly
one cluster holding every circle when the overlap graph is connected (each
returned circle is the input circle with its transient parent pointer
deleted). -/
theorem C8_disjointCluster_clusters (circles : List Circle)
    (hids : List.Pairwise (fun a b => a ≠ b) (circles.map Circle.setid)) :
    ((∀ i j, i ≠ j → ¬ overlapEdge circles i j) →
      (disjointCluster circles).1 = circles.map fun c => [strip c]) ∧
    ((circles ≠ [] ∧ ∀ i j, i < circles.length → j < circles.length →
        OReach circles i j) →
      (disjointCluster circles).1 = [circles.map strip]) := by
  constructor
  · intro hno
    rw [disjointCluster_fst]
    have hnoop : (pairsOf (List.range circles.length)).foldl
        (dcStep (circles.length + 1))
        (circles.enum.map fun ic => { ic.2 with parent := some ic.1 }) =
        circles.enum.map fun ic => { ic.2 with parent := some ic.1 } := by
      refine pairsFold_noop circles (circles.length + 1) _ _
        (map_strip_init circles) ?_
      intro q hq hlt
      have hm := (mem_pairsOf_range circles.length q.1 q.2).mp
        (by simpa using hq)
      exact hno q.1 q.2 (Nat.ne_of_lt hm.1)
        ⟨lt_trans hm.1 hm.2, hm.2, hlt⟩
    rw [hnoop]
    have hsetid0 : ∀ i, ((circles.enum.map fun ic : Nat × Circle =>
        { ic.2 with parent := some ic.1 }).getD i default).setid =
        (circles.getD i default).setid :=
      fun i => (strip_fields (map_strip_init circles) i).2.2.2
    have hpw0 : List.Pairwise (fun i j => ((circles.enum.map
        fun ic : Nat × Circle =>
        { ic.2 with parent := some ic.1 }).getD i default).setid ≠
        ((circles.enum.map fun ic : Nat × Circle =>
          { ic.2 with parent := some ic.1 }).getD j default).setid)
        (List.range circles.length) := by
      refine (setid_pairwise_range hids).imp ?_
      intro a b h
      rw [hsetid0 a, hsetid0 b]
      exact h
    rw [groupFold_id (circles.length + 1) (Nat.succ_pos _) (pf_init circles)
      (List.range circles.length) []
      (fun p hp => absurd hp (List.not_mem_nil p)) hpw0]
    dsimp only [List.nil_append]
    simp only [map_strip_init circles, List.map_map]
    simp only [Function.comp_def, List.map_cons, List.map_nil]
    exact range_map_final_singl circles
  · rintro ⟨hne, hconn⟩
    rw [disjointCluster_fst]
    have hb : ∀ q ∈ pairsOf (List.range circles.length),
        q.1 < circles.length ∧ q.2 < circles.length := by
      intro q hq
      have hm := (mem_pairsOf_range circles.length q.1 q.2).mp
        (by simpa using hq)
      exact ⟨lt_trans hm.1 hm.2, hm.2⟩
    obtain ⟨hstrip1, hUF1, hkeep, hmerged⟩ :=
      pairsFold_spec circles (circles.length + 1) (le_refl _)
        (pairsOf (List.range circles.length))
        (circles.enum.map fun ic => { ic.2 with parent := some ic.1 })
        hb (map_strip_init circles) (UF_init circles)
    set cs1 := (pairsOf (List.range circles.length)).foldl
      (dcStep (circles.length + 1))
      (circles.enum.map fun ic => { ic.2 with parent := some ic.1 })
      with hcs1
    have hlen1 : cs1.length = circles.length := by
      have := congrArg List.length hstrip1
      simpa using this
    have hedge : ∀ a b, a < b → overlapEdge circles a b →
        sameRoot cs1 a b := by
      intro a b hab hov
      exact hmerged (a, b) ((mem_pairsOf_range _ a b).mpr ⟨hab, hov.2.1⟩) hov
    have hall := oreach_sameRoot hUF1 hlen1 hedge
    have hn : 0 < circles.length := List.length_pos.mpr hne
    obtain ⟨R, kR, hR, hRlt⟩ := rooted_exists hUF1 0 (by rw [hlen1]; exact hn)
    have hroots : ∀ v, v < circles.length → Rooted (pf cs1) v R := by
      intro v hv
      obtain ⟨t, h0, hvt⟩ := hall 0 v (hconn 0 v hn hv)
      have ht : t = R := rooted_unique h0 ⟨kR, hR⟩
      rw [ht] at hvt
      exact hvt
    obtain ⟨hstripG, haccG⟩ := groupFold_const circles (le_refl _)
      (List.range circles.length) cs1 [] hstrip1 hUF1 hroots
      (fun i h => List.mem_range.mp h)
    rw [haccG, foldl_clUpsert_const_nil _ _
      (by simp only [ne_eq, List.range_eq_nil]; omega)]
    simp only [hstripG]
    simp only [List.map_cons, List.map_nil]
    rw [range_map_final]

/-- C8 witness: two disjoint unit circles with distinct setids yield one
singleton cluster per circle. -/
theorem C8_clusters_witness :
    List.Pairwise (fun a b => a ≠ b) (c8inp.map Circle.setid) ∧
    (∀ i j, i ≠ j → ¬ overlapEdge c8inp i j) ∧
    (disjointCluster c8inp).1 = c8inp.map fun c => [strip c] := by
  have hids : List.Pairwise (fun a b => a ≠ b) (c8inp.map Circle.setid) := by
    decide
  have hno : ∀ i j, i ≠ j → ¬ overlapEdge c8inp i j := by
    intro i j hij hov
    obtain ⟨hi, hj, hlt⟩ := hov
    have hi2 : i < 2 := hi
    have hj2 : j < 2 := hj
    have h100 : ((0:ℝ) - 10) * ((0:ℝ) - 10) + ((0:ℝ) - 0) * ((0:ℝ) - 0) =
        10 ^ 2 := by norm_num
    have h100b : ((10:ℝ) - 0) * ((10:ℝ) - 0) + ((0:ℝ) - 0) * ((0:ℝ) - 0) =
        10 ^ 2 := by norm_num
    interval_cases i <;> interval_cases j
    · exact hij rfl
    · have hd : distance (c8inp.getD 0 default).pt
          (c8inp.getD 1 default).pt = 10 := by
        show Real.sqrt (((0:ℝ) - 10) * ((0:ℝ) - 10) +
          ((0:ℝ) - 0) * ((0:ℝ) - 0)) = 10
        rw [h100]
        exact Real.sqrt_sq (by norm_num)
      rw [hd] at hlt
      have hlt2 : (10:ℝ) + 1e-10 < 1 + 1 := hlt
      norm_num at hlt2
    · have hd : distance (c8inp.getD 1 default).pt
          (c8inp.getD 0 default).pt = 10 := by
        show Real.sqrt (((10:ℝ) - 0) * ((10:ℝ) - 0) +
          ((0:ℝ) - 0) * ((0:ℝ) - 0)) = 10
        rw [h100b]
        exact Real.sqrt_sq (by norm_num)
      rw [hd] at hlt
      have hlt2 : (10:ℝ) + 1e-10 < 1 + 1 := hlt
      norm_num at hlt2
    · exact hij rfl
  exact ⟨hids, hno, (C8_disjointCluster_clusters c8inp hids).1 hno⟩

/-! ## C5: circleOverlap is non-increasing in the center distance -/

theorem atan2_of_pos_x {y x : ℝ} (hx : 0 < x) :
    atan2 y x = Real.arctan (y / x) := by
  unfold atan2
  rw [if_pos hx]

/-- circleIntegral in closed arcsin form on [-r, r]. -/
theorem circleIntegral_arcsin {r x : ℝ} (hr : 0 < r) (hx : |x| ≤ r) :
    circleIntegral r x =
      x * Real.sqrt (r * r - x * x) + r * r * Real.arcsin (x / r) := by
  by_cases hlt : |x| < r
  · obtain ⟨hxa, hxb⟩ := abs_lt.mp hlt
    have hpos : 0 < r * r - x * x := by nlinarith
    have hs : 0 < Real.sqrt (r * r - x * x) := Real.sqrt_pos.mpr hpos
    unfold circleIntegral
    rw [atan2_of_pos_x hs]
    have hmem : x / r ∈ Set.Ioo (-(1:ℝ)) 1 := by
      constructor
      · rw [neg_lt, ← neg_div]
        rw [div_lt_one hr]
        linarith
      · rw [div_lt_one hr]
        exact hxb
    rw [Real.arcsin_eq_arctan hmem]
    have hsq : Real.sqrt (1 - (x / r) ^ 2) = Real.sqrt (r * r - x * x) / r := by
      rw [show (1:ℝ) - (x / r) ^ 2 = (r * r - x * x) / (r * r) by
        field_simp; ring]
      rw [Real.sqrt_div hpos.le, Real.sqrt_mul_self hr.le]
    rw [hsq]
    have harg : x / r / (Real.sqrt (r * r - x * x) / r) =
        x / Real.sqrt (r * r - x * x) := by
      field_simp
    rw [harg]
  · have heq : |x| = r := le_antisymm hx (not_lt.mp hlt)
    rcases (abs_eq hr.le).mp heq with hxr | hxr
    · rw [hxr]
      unfold circleIntegral
      rw [show r * r - r * r = (0:ℝ) by ring, Real.sqrt_zero]
      have ha : atan2 r 0 = Real.pi / 2 := by
        unfold atan2
        rw [if_neg (lt_irrefl 0), if_neg (lt_irrefl 0), if_pos hr]
      rw [ha, div_self (ne_of_gt hr), Real.arcsin_one]
    · rw [hxr]
      unfold circleIntegral
      rw [show r * r - -r * -r = (0:ℝ) by ring, Real.sqrt_zero]
      have ha : atan2 (-r) 0 = -(Real.pi / 2) := by
        unfold atan2
        rw [if_neg (lt_irrefl 0), if_neg (lt_irrefl 0),
          if_neg (show ¬ (0:ℝ) < -r by linarith),
          if_pos (show -r < (0:ℝ) by linarith)]
      rw [ha, show -r / r = (-1:ℝ) by field_simp, Real.arcsin_neg_one]

/-- circleArea equals the closed segment form on [0, 2r]. -/
theorem circleArea_seg {r w : ℝ} (hr : 0 < r) (h0 : 0 ≤ w) (h2 : w ≤ 2 * r) :
    circleArea r w = segArea r w := by
  unfold circleArea segArea
  rw [circleIntegral_arcsin hr (abs_le.mpr ⟨by linarith, by linarith⟩),
    circleIntegral_arcsin hr (by rw [abs_neg, abs_of_pos hr])]
  rw [show r * r - -r * -r = (0:ℝ) by ring, Real.sqrt_zero,
    show -r / r = (-1:ℝ) by field_simp, Real.arcsin_neg_one]
  ring

theorem segArea_zero {r : ℝ} (hr : 0 < r) : segArea r 0 = 0 := by
  unfold segArea
  rw [show r * r - (0 - r) * (0 - r) = (0:ℝ) by ring, Real.sqrt_zero,
    show (0 - r) / r = (-1:ℝ) by field_simp, Real.arcsin_neg_one]
  ring

theorem segArea_two {r : ℝ} (hr : 0 < r) :
    segArea r (2 * r) = Real.pi * r * r := by
  unfold segArea
  rw [show r * r - (2 * r - r) * (2 * r - r) = (0:ℝ) by ring, Real.sqrt_zero,
    show (2 * r - r) / r = (1:ℝ) by field_simp; ring, Real.arcsin_one]
  ring

theorem segArea_self (r : ℝ) :
    segArea r r = r * r * (Real.pi / 2) := by
  unfold segArea
  rw [show (r - r) / r = (0:ℝ) by simp, Real.arcsin_zero]
  ring

theorem continuous_segArea (r : ℝ) : Continuous (segArea r) := by
  have c1 : Continuous fun w : ℝ => w - r := continuous_id.sub continuous_const
  have c3 : Continuous fun w : ℝ =>
      Real.sqrt (r * r - (w - r) * (w - r)) :=
    Real.continuous_sqrt.comp (continuous_const.sub (c1.mul c1))
  have c4 : Continuous fun w : ℝ => Real.arcsin ((w - r) / r) :=
    Real.continuous_arcsin.comp (c1.div_const r)
  exact ((c1.mul c3).add (continuous_const.mul c4)).add continuous_const

/-- The derivative of the segment area: the chord length. -/
theorem hasDerivAt_segArea {r w : ℝ} (hr : 0 < r) (h0 : 0 < w)
    (h2 : w < 2 * r) :
    HasDerivAt (segArea r) (2 * Real.sqrt (r * r - (w - r) * (w - r))) w := by
  have hu : 0 < r * r - (w - r) * (w - r) := by nlinarith
  have hs : 0 < Real.sqrt (r * r - (w - r) * (w - r)) := Real.sqrt_pos.mpr hu
  have husq : Real.sqrt (r * r - (w - r) * (w - r)) *
      Real.sqrt (r * r - (w - r) * (w - r)) = r * r - (w - r) * (w - r) :=
    Real.mul_self_sqrt hu.le
  have h1 : HasDerivAt (fun t : ℝ => t - r) 1 w := (hasDerivAt_id w).sub_const r
  have hin : HasDerivAt (fun t : ℝ => r * r - (t - r) * (t - r))
      (-(2 * (w - r))) w := by
    have hm := h1.mul h1
    have hc := (hasDerivAt_const w (r * r)).sub hm
    convert hc using 1
    ring
  have hsqrt : HasDerivAt (fun t : ℝ =>
      Real.sqrt (r * r - (t - r) * (t - r)))
      (1 / (2 * Real.sqrt (r * r - (w - r) * (w - r))) * -(2 * (w - r))) w :=
    (Real.hasDerivAt_sqrt (ne_of_gt hu)).comp w hin
  have hterm1 : HasDerivAt (fun t : ℝ =>
      (t - r) * Real.sqrt (r * r - (t - r) * (t - r)))
      (1 * Real.sqrt (r * r - (w - r) * (w - r)) +
        (w - r) * (1 / (2 * Real.sqrt (r * r - (w - r) * (w - r))) *
          -(2 * (w - r)))) w := h1.mul hsqrt
  have hx1 : (w - r) / r ≠ -1 := by
    intro hc
    rw [div_eq_iff (ne_of_gt hr)] at hc
    nlinarith
  have hx2 : (w - r) / r ≠ 1 := by
    intro hc
    rw [div_eq_iff (ne_of_gt hr)] at hc
    nlinarith
  have hdiv : HasDerivAt (fun t : ℝ => (t - r) / r) (1 / r) w := h1.div_const r
  have harc : HasDerivAt (fun t : ℝ => Real.arcsin ((t - r) / r))
      (1 / Real.sqrt (1 - ((w - r) / r) ^ 2) * (1 / r)) w :=
    (Real.hasDerivAt_arcsin hx1 hx2).comp w hdiv
  have htotal := (hterm1.add (harc.const_mul (r * r))).add_const
    (r * r * (Real.pi / 2))
  have hform : Real.sqrt (1 - ((w - r) / r) ^ 2) =
      Real.sqrt (r * r - (w - r) * (w - r)) / r := by
    rw [show (1:ℝ) - ((w - r) / r) ^ 2 =
      (r * r - (w - r) * (w - r)) / (r * r) by field_simp; ring]
    rw [Real.sqrt_div hu.le, Real.sqrt_mul_self hr.le]
  have hval : 1 * Real.sqrt (r * r - (w - r) * (w - r)) +
      (w - r) * (1 / (2 * Real.sqrt (r * r - (w - r) * (w - r))) *
        -(2 * (w - r))) +
      r * r * (1 / Real.sqrt (1 - ((w - r) / r) ^ 2) * (1 / r)) =
      2 * Real.sqrt (r * r - (w - r) * (w - r)) := by
    rw [hform]
    field_simp
    linear_combination (-2 * r * Real.sqrt (r * r - (w - r) * (w - r))) * husq
  have hfinal : HasDerivAt (fun t : ℝ =>
      (t - r) * Real.sqrt (r * r - (t - r) * (t - r)) +
        r * r * Real.arcsin ((t - r) / r) + r * r * (Real.pi / 2))
      (2 * Real.sqrt (r * r - (w - r) * (w - r))) w := by
    convert htotal using 1
    exact hval.symm
  exact hfinal

/-- The segment area is monotone in the width on [0, 2r]. -/
theorem segArea_monotoneOn {r : ℝ} (hr : 0 < r) :
    MonotoneOn (segArea r) (Set.Icc 0 (2 * r)) := by
  apply monotoneOn_of_deriv_nonneg (convex_Icc _ _)
    (continuous_segArea r).continuousOn
  · intro x hx
    rw [interior_Icc] at hx
    exact (hasDerivAt_segArea hr hx.1 hx.2).differentiableAt.differentiableWithinAt
  · intro x hx
    rw [interior_Icc] at hx
    rw [(hasDerivAt_segArea hr hx.1 hx.2).deriv]
    positivity

theorem segArea_nonneg {r w : ℝ} (hr : 0 < r) (h0 : 0 ≤ w) (h2 : w ≤ 2 * r) :
    0 ≤ segArea r w := by
  have h := segArea_monotoneOn hr (Set.mem_Icc.mpr ⟨le_refl 0, by linarith⟩)
    (Set.mem_Icc.mpr ⟨h0, h2⟩) h0
  rw [segArea_zero hr] at h
  exact h

/-- The width the lens branch feeds circleArea stays in [0, 2a]. -/
theorem wexpr_mem {a b d : ℝ} (ha : 0 < a) (hb : 0 < b) (hd : 0 < d)
    (hlo : |a - b| ≤ d) (hhi : d ≤ a + b) :
    0 ≤ a - (d * d - b * b + a * a) / (2 * d) ∧
    a - (d * d - b * b + a * a) / (2 * d) ≤ 2 * a := by
  obtain ⟨h1, h2⟩ := abs_le.mp hlo
  have h2d : (0:ℝ) < 2 * d := by linarith
  constructor
  · have h : (d * d - b * b + a * a) / (2 * d) ≤ a := by
      rw [div_le_iff h2d]
      nlinarith
    linarith
  · have h : -a ≤ (d * d - b * b + a * a) / (2 * d) := by
      rw [le_div_iff h2d]
      nlinarith
    linarith

/-- Strict version on the open lens region. -/
theorem wexpr_mem_strict {a b d : ℝ} (ha : 0 < a) (hb : 0 < b) (hd : 0 < d)
    (hlo : |a - b| < d) (hhi : d < a + b) :
    0 < a - (d * d - b * b + a * a) / (2 * d) ∧
    a - (d * d - b * b + a * a) / (2 * d) < 2 * a := by
  obtain ⟨h1, h2⟩ := abs_lt.mp hlo
  have h2d : (0:ℝ) < 2 * d := by linarith
  constructor
  · have h : (d * d - b * b + a * a) / (2 * d) < a := by
      rw [div_lt_iff h2d]
      nlinarith
    linarith
  · have h : -a < (d * d - b * b + a * a) / (2 * d) := by
      rw [lt_div_iff h2d]
      nlinarith
    linarith

/-- Continuity of the lens-branch width in d (at d = 0 only when the radii
agree, where the expression degenerates to a polynomial). -/
theorem wexpr_continuousOn {a b : ℝ} {s : Set ℝ}
    (h : a = b ∨ ∀ d ∈ s, d ≠ 0) :
    ContinuousOn (fun d => a - (d * d - b * b + a * a) / (2 * d)) s := by
  rcases h with rfl | h
  · have hfe : (fun d : ℝ => a - (d * d - a * a + a * a) / (2 * d)) =
        fun d => a - d / 2 := by
      funext d
      by_cases hd : d = 0
      · rw [hd]
        norm_num
      · field_simp
        ring
    rw [hfe]
    exact (continuous_const.sub (continuous_id.div_const 2)).continuousOn
  · refine continuousOn_const.sub (ContinuousOn.div ?_ ?_ ?_)
    · exact (((continuous_id.mul continuous_id).sub continuous_const).add
        continuous_const).continuousOn
    · exact (continuous_const.mul continuous_id).continuousOn
    · intro d hd
      simpa using mul_ne_zero two_ne_zero (h d hd)

/-- Derivative of the lens-branch width away from d = 0. -/
theorem wexpr_hasDerivAt {a b d : ℝ} (hd : d ≠ 0) :
    HasDerivAt (fun d => a - (d * d - b * b + a * a) / (2 * d))
      (-((d * d + b * b - a * a) / (2 * (d * d)))) d := by
  have hnum : HasDerivAt (fun d : ℝ => d * d - b * b + a * a) (2 * d) d := by
    have hm := (hasDerivAt_id d).mul (hasDerivAt_id d)
    have hc := (hm.sub_const (b * b)).add_const (a * a)
    convert hc using 1
    simp only [id_eq]
    ring
  have hden : HasDerivAt (fun d : ℝ => 2 * d) 2 d := by
    simpa using (hasDerivAt_id d).const_mul (2:ℝ)
  have hdiv := hnum.div hden (by simpa using mul_ne_zero two_ne_zero hd)
  have h := (hasDerivAt_const d a).sub hdiv
  convert h using 1
  field_simp
  ring

/-- On the lens interval the overlap branch equals its closed seg form. -/
theorem ovMid_eq_seg {r1 r2 : ℝ} (hr1 : 0 < r1) (hr2 : 0 < r2) :
    ∀ d ∈ Set.Icc (|r1 - r2|) (r1 + r2), ovMid r1 r2 d =
      segArea r1 (r1 - (d * d - r2 * r2 + r1 * r1) / (2 * d)) +
      segArea r2 (r2 - (d * d - r1 * r1 + r2 * r2) / (2 * d)) := by
  intro d hd
  obtain ⟨hdlo, hdhi⟩ := hd
  by_cases hd0 : d = 0
  · subst hd0
    have hab : r1 = r2 := by
      have h0 : |r1 - r2| = 0 := le_antisymm hdlo (abs_nonneg _)
      have := abs_eq_zero.mp h0
      linarith
    rw [hab]
    unfold ovMid
    norm_num
    rw [circleArea_seg hr2 hr2.le (by linarith)]
  · have hdpos : 0 < d :=
      lt_of_le_of_ne (le_trans (abs_nonneg _) hdlo) (Ne.symm hd0)
    obtain ⟨hw10, hw12⟩ := wexpr_mem hr1 hr2 hdpos hdlo hdhi
    obtain ⟨hw20, hw22⟩ := wexpr_mem hr2 hr1 hdpos
      (by rw [abs_sub_comm]; exact hdlo) (by linarith)
    unfold ovMid
    rw [circleArea_seg hr1 hw10 hw12, circleArea_seg hr2 hw20 hw22]

/-- The lens branch is non-increasing on the lens interval. -/
theorem ovMid_antitoneOn {r1 r2 : ℝ} (hr1 : 0 < r1) (hr2 : 0 < r2) :
    AntitoneOn (ovMid r1 r2) (Set.Icc (|r1 - r2|) (r1 + r2)) := by
  have hOr1 : r1 = r2 ∨ ∀ d ∈ Set.Icc (|r1 - r2|) (r1 + r2), d ≠ 0 := by
    by_cases hrr : r1 = r2
    · exact Or.inl hrr
    · refine Or.inr fun d hd => ?_
      have h1 : 0 < |r1 - r2| := abs_pos.mpr (sub_ne_zero.mpr hrr)
      exact ne_of_gt (lt_of_lt_of_le h1 hd.1)
  have hOr2 : r2 = r1 ∨ ∀ d ∈ Set.Icc (|r1 - r2|) (r1 + r2), d ≠ 0 := by
    rcases hOr1 with h | h
    · exact Or.inl h.symm
    · exact Or.inr h
  have hanti : AntitoneOn (fun d =>
      segArea r1 (r1 - (d * d - r2 * r2 + r1 * r1) / (2 * d)) +
      segArea r2 (r2 - (d * d - r1 * r1 + r2 * r2) / (2 * d)))
      (Set.Icc (|r1 - r2|) (r1 + r2)) := by
    apply antitoneOn_of_deriv_nonpos (convex_Icc _ _)
    · exact ((continuous_segArea r1).comp_continuousOn
        (wexpr_continuousOn hOr1)).add
        ((continuous_segArea r2).comp_continuousOn (wexpr_continuousOn hOr2))
    · intro x hx
      rw [interior_Icc] at hx
      obtain ⟨hxa, hxb⟩ := hx
      have hx0 : 0 < x := lt_of_le_of_lt (abs_nonneg _) hxa
      obtain ⟨hw1a, hw1b⟩ := wexpr_mem_strict hr1 hr2 hx0 hxa hxb
      obtain ⟨hw2a, hw2b⟩ := wexpr_mem_strict hr2 hr1 hx0
        (by rw [abs_sub_comm]; exact hxa) (by linarith)
      exact (((hasDerivAt_segArea hr1 hw1a hw1b).comp x
        (wexpr_hasDerivAt (ne_of_gt hx0))).add
        ((hasDerivAt_segArea hr2 hw2a hw2b).comp x
          (wexpr_hasDerivAt (ne_of_gt hx0)))).differentiableAt.differentiableWithinAt
    · intro x hx
      rw [interior_Icc] at hx
      obtain ⟨hxa, hxb⟩ := hx
      have hx0 : 0 < x := lt_of_le_of_lt (abs_nonneg _) hxa
      have hxne : x * x ≠ 0 := by positivity
      obtain ⟨hw1a, hw1b⟩ := wexpr_mem_strict hr1 hr2 hx0 hxa hxb
      obtain ⟨hw2a, hw2b⟩ := wexpr_mem_strict hr2 hr1 hx0
        (by rw [abs_sub_comm]; exact hxa) (by linarith)
      have hD2 : HasDerivAt (fun d =>
          segArea r1 (r1 - (d * d - r2 * r2 + r1 * r1) / (2 * d)) +
          segArea r2 (r2 - (d * d - r1 * r1 + r2 * r2) / (2 * d)))
          (2 * Real.sqrt (r1 * r1 -
            (r1 - (x * x - r2 * r2 + r1 * r1) / (2 * x) - r1) *
              (r1 - (x * x - r2 * r2 + r1 * r1) / (2 * x) - r1)) *
            -((x * x + r2 * r2 - r1 * r1) / (2 * (x * x))) +
          2 * Real.sqrt (r2 * r2 -
            (r2 - (x * x - r1 * r1 + r2 * r2) / (2 * x) - r2) *
              (r2 - (x * x - r1 * r1 + r2 * r2) / (2 * x) - r2)) *
            -((x * x + r1 * r1 - r2 * r2) / (2 * (x * x)))) x :=
        ((hasDerivAt_segArea hr1 hw1a hw1b).comp x
          (wexpr_hasDerivAt (ne_of_gt hx0))).add
          ((hasDerivAt_segArea hr2 hw2a hw2b).comp x
            (wexpr_hasDerivAt (ne_of_gt hx0)))
      rw [hD2.deriv]
      have hkey : r1 * r1 -
          (r1 - (x * x - r2 * r2 + r1 * r1) / (2 * x) - r1) *
            (r1 - (x * x - r2 * r2 + r1 * r1) / (2 * x) - r1) =
          r2 * r2 -
          (r2 - (x * x - r1 * r1 + r2 * r2) / (2 * x) - r2) *
            (r2 - (x * x - r1 * r1 + r2 * r2) / (2 * x) - r2) := by
        field_simp
        ring
      rw [hkey]
      have hSn : 0 ≤ Real.sqrt (r2 * r2 -
          (r2 - (x * x - r1 * r1 + r2 * r2) / (2 * x) - r2) *
            (r2 - (x * x - r1 * r1 + r2 * r2) / (2 * x) - r2)) :=
        Real.sqrt_nonneg _
      have hsum : (x * x + r2 * r2 - r1 * r1) / (2 * (x * x)) +
          (x * x + r1 * r1 - r2 * r2) / (2 * (x * x)) = 1 := by
        field_simp
        ring
      set S := Real.sqrt (r2 * r2 -
          (r2 - (x * x - r1 * r1 + r2 * r2) / (2 * x) - r2) *
            (r2 - (x * x - r1 * r1 + r2 * r2) / (2 * x) - r2)) with hS
      have hcomb : 2 * S * -((x * x + r2 * r2 - r1 * r1) / (2 * (x * x))) +
          2 * S * -((x * x + r1 * r1 - r2 * r2) / (2 * (x * x))) =
          -(2 * S) * ((x * x + r2 * r2 - r1 * r1) / (2 * (x * x)) +
            (x * x + r1 * r1 - r2 * r2) / (2 * (x * x))) := by
        ring
      rw [hcomb, hsum]
      nlinarith [hSn]
  intro d1 h1 d2 h2 h12
  rw [ovMid_eq_seg hr1 hr2 d1 h1, ovMid_eq_seg hr1 hr2 d2 h2]
  exact hanti h1 h2 h12

/-- At the inner seam the lens branch already equals the full small-circle
area. -/
theorem ovMid_seam_lo {r1 r2 : ℝ} (hr1 : 0 < r1) (hr2 : 0 < r2) :
    ovMid r1 r2 (|r1 - r2|) = Real.pi * min r1 r2 * min r1 r2 := by
  by_cases hrr : r1 = r2
  · rw [hrr, sub_self, abs_zero]
    unfold ovMid
    norm_num
    rw [circleArea_seg hr2 hr2.le (by linarith), segArea_self]
    ring
  · rcases lt_or_gt_of_ne hrr with h | h
    · rw [abs_of_neg (show r1 - r2 < 0 by linarith), neg_sub]
      have hdne : r2 - r1 ≠ 0 := ne_of_gt (by linarith)
      unfold ovMid
      have hw1 : r1 - ((r2 - r1) * (r2 - r1) - r2 * r2 + r1 * r1) /
          (2 * (r2 - r1)) = 2 * r1 := by
        field_simp
        ring
      have hw2 : r2 - ((r2 - r1) * (r2 - r1) - r1 * r1 + r2 * r2) /
          (2 * (r2 - r1)) = 0 := by
        field_simp
        ring
      rw [hw1, hw2, circleArea_seg hr1 (by linarith) (le_refl _),
        circleArea_seg hr2 (le_refl _) (by linarith),
        segArea_two hr1, segArea_zero hr2, min_eq_left h.le]
      ring
    · rw [abs_of_pos (show 0 < r1 - r2 by linarith)]
      have hdne : r1 - r2 ≠ 0 := ne_of_gt (by linarith)
      unfold ovMid
      have hw1 : r1 - ((r1 - r2) * (r1 - r2) - r2 * r2 + r1 * r1) /
          (2 * (r1 - r2)) = 0 := by
        field_simp
        ring
      have hw2 : r2 - ((r1 - r2) * (r1 - r2) - r1 * r1 + r2 * r2) /
          (2 * (r1 - r2)) = 2 * r2 := by
        field_simp
        ring
      rw [hw1, hw2, circleArea_seg hr1 (le_refl _) (by linarith),
        circleArea_seg hr2 (by linarith) (le_refl _),
        segArea_zero hr1, segArea_two hr2, min_eq_right h.le]
      ring

theorem circleOverlap_nonneg {r1 r2 d : ℝ} (hr1 : 0 < r1) (hr2 : 0 < r2) :
    0 ≤ circleOverlap r1 r2 d := by
  unfold circleOverlap
  by_cases hA : r1 + r2 ≤ d
  · rw [if_pos hA]
  · rw [if_neg hA]
    by_cases hB : d ≤ |r1 - r2|
    · rw [if_pos hB]
      positivity
    · rw [if_neg hB]
      have hBlt := not_le.mp hB
      have hAlt := not_le.mp hA
      have hd0 : 0 < d := lt_of_le_of_lt (abs_nonneg _) hBlt
      obtain ⟨hw10, hw12⟩ := wexpr_mem hr1 hr2 hd0 hBlt.le hAlt.le
      obtain ⟨hw20, hw22⟩ := wexpr_mem hr2 hr1 hd0
        (by rw [abs_sub_comm]; exact hBlt.le) (by linarith)
      rw [circleArea_seg hr1 hw10 hw12, circleArea_seg hr2 hw20 hw22]
      exact add_nonneg (segArea_nonneg hr1 hw10 hw12)
        (segArea_nonneg hr2 hw20 hw22)

/-- C5: for positive radii, circleOverlap(r1, r2, d) is non-increasing in
the center distance d on [0, infinity). -/
theorem C5_circleOverlap_antitone (r1 r2 d1 d2 : ℝ) (hr1 : 0 < r1)
    (hr2 : 0 < r2) (hd1 : 0 ≤ d1) (h12 : d1 ≤ d2) :
    circleOverlap r1 r2 d2 ≤ circleOverlap r1 r2 d1 := by
  have hlohi : |r1 - r2| < r1 + r2 := abs_lt.mpr ⟨by linarith, by linarith⟩
  by_cases hA : r1 + r2 ≤ d2
  · have h2 : circleOverlap r1 r2 d2 = 0 := by
      unfold circleOverlap
      rw [if_pos hA]
    rw [h2]
    exact circleOverlap_nonneg hr1 hr2
  · have hAlt := not_le.mp hA
    by_cases hB : d2 ≤ |r1 - r2|
    · have h2 : circleOverlap r1 r2 d2 = Real.pi * min r1 r2 * min r1 r2 := by
        unfold circleOverlap
        rw [if_neg hA, if_pos hB]
      have h1 : circleOverlap r1 r2 d1 = Real.pi * min r1 r2 * min r1 r2 := by
        unfold circleOverlap
        rw [if_neg (not_le.mpr (by linarith)), if_pos (le_trans h12 hB)]
      rw [h1, h2]
    · have hBlt := not_le.mp hB
      have h2 : circleOverlap r1 r2 d2 = ovMid r1 r2 d2 := by
        unfold circleOverlap ovMid
        rw [if_neg hA, if_neg hB]
      by_cases hC : d1 ≤ |r1 - r2|
      · have h1 : circleOverlap r1 r2 d1 = Real.pi * min r1 r2 * min r1 r2 := by
          unfold circleOverlap
          rw [if_neg (not_le.mpr (by linarith)), if_pos hC]
        rw [h1, h2, ← ovMid_seam_lo hr1 hr2]
        exact ovMid_antitoneOn hr1 hr2
          (Set.mem_Icc.mpr ⟨le_refl _, hlohi.le⟩)
          (Set.mem_Icc.mpr ⟨hBlt.le, hAlt.le⟩) hBlt.le
      · have hClt := not_le.mp hC
        have h1 : circleOverlap r1 r2 d1 = ovMid r1 r2 d1 := by
          unfold circleOverlap ovMid
          rw [if_neg (not_le.mpr (by linarith)), if_neg hC]
        rw [h1, h2]
        exact ovMid_antitoneOn hr1 hr2
          (Set.mem_Icc.mpr ⟨hClt.le, by linarith⟩)
          (Set.mem_Icc.mpr ⟨hBlt.le, hAlt.le⟩) h12

/-- C5 witness: unit radii, distances 0 and 3. -/
theorem C5_antitone_witness :
    (0:ℝ) < 1 ∧ (0:ℝ) ≤ 0 ∧ (0:ℝ) ≤ 3 ∧
    circleOverlap 1 1 3 ≤ circleOverlap 1 1 0 :=
  ⟨by norm_num, le_refl 0, by norm_num,
    C5_circleOverlap_antitone 1 1 0 3 (by norm_num) (by norm_num)
      (le_refl 0) (by norm_num)⟩

/-! ## C6: the round trip through distanceFromIntersectArea -/

/-- At the outer seam the lens branch vanishes. -/
theorem ovMid_seam_hi {r1 r2 : ℝ} (hr1 : 0 < r1) (hr2 : 0 < r2) :
    ovMid r1 r2 (r1 + r2) = 0 := by
  have hdne : r1 + r2 ≠ 0 := ne_of_gt (by linarith)
  unfold ovMid
  have hw1 : r1 - ((r1 + r2) * (r1 + r2) - r2 * r2 + r1 * r1) /
      (2 * (r1 + r2)) = 0 := by
    field_simp
    ring
  have hw2 : r2 - ((r1 + r2) * (r1 + r2) - r1 * r1 + r2 * r2) /
      (2 * (r1 + r2)) = 0 := by
    field_simp
    ring
  rw [hw1, hw2, circleArea_seg hr1 (le_refl _) (by linarith),
    circleArea_seg hr2 (le_refl _) (by linarith),
    segArea_zero hr1, segArea_zero hr2]
  norm_num

/-- The lens branch is strictly decreasing on the lens interval. -/
theorem ovMid_strictAntiOn {r1 r2 : ℝ} (hr1 : 0 < r1) (hr2 : 0 < r2) :
    StrictAntiOn (ovMid r1 r2) (Set.Icc (|r1 - r2|) (r1 + r2)) := by
  have hOr1 : r1 = r2 ∨ ∀ d ∈ Set.Icc (|r1 - r2|) (r1 + r2), d ≠ 0 := by
    by_cases hrr : r1 = r2
    · exact Or.inl hrr
    · refine Or.inr fun d hd => ?_
      have h1 : 0 < |r1 - r2| := abs_pos.mpr (sub_ne_zero.mpr hrr)
      exact ne_of_gt (lt_of_lt_of_le h1 hd.1)
  have hOr2 : r2 = r1 ∨ ∀ d ∈ Set.Icc (|r1 - r2|) (r1 + r2), d ≠ 0 := by
    rcases hOr1 with h | h
    · exact Or.inl h.symm
    · exact Or.inr h
  have hanti : StrictAntiOn (fun d =>
      segArea r1 (r1 - (d * d - r2 * r2 + r1 * r1) / (2 * d)) +
      segArea r2 (r2 - (d * d - r1 * r1 + r2 * r2) / (2 * d)))
      (Set.Icc (|r1 - r2|) (r1 + r2)) := by
    apply strictAntiOn_of_deriv_neg (convex_Icc _ _)
    · exact ((continuous_segArea r1).comp_continuousOn
        (wexpr_continuousOn hOr1)).add
        ((continuous_segArea r2).comp_continuousOn (wexpr_continuousOn hOr2))
    · intro x hx
      rw [interior_Icc] at hx
      obtain ⟨hxa, hxb⟩ := hx
      have hx0 : 0 < x := lt_of_le_of_lt (abs_nonneg _) hxa
      have hxne : x * x ≠ 0 := by positivity
      obtain ⟨hw1a, hw1b⟩ := wexpr_mem_strict hr1 hr2 hx0 hxa hxb
      obtain ⟨hw2a, hw2b⟩ := wexpr_mem_strict hr2 hr1 hx0
        (by rw [abs_sub_comm]; exact hxa) (by linarith)
      have hD2 : HasDerivAt (fun d =>
          segArea r1 (r1 - (d * d - r2 * r2 + r1 * r1) / (2 * d)) +
          segArea r2 (r2 - (d * d - r1 * r1 + r2 * r2) / (2 * d)))
          (2 * Real.sqrt (r1 * r1 -
            (r1 - (x * x - r2 * r2 + r1 * r1) / (2 * x) - r1) *
              (r1 - (x * x - r2 * r2 + r1 * r1) / (2 * x) - r1)) *
            -((x * x + r2 * r2 - r1 * r1) / (2 * (x * x))) +
          2 * Real.sqrt (r2 * r2 -
            (r2 - (x * x - r1 * r1 + r2 * r2) / (2 * x) - r2) *
              (r2 - (x * x - r1 * r1 + r2 * r2) / (2 * x) - r2)) *
            -((x * x + r1 * r1 - r2 * r2) / (2 * (x * x)))) x :=
        ((hasDerivAt_segArea hr1 hw1a hw1b).comp x
          (wexpr_hasDerivAt (ne_of_gt hx0))).add
          ((hasDerivAt_segArea hr2 hw2a hw2b).comp x
            (wexpr_hasDerivAt (ne_of_gt hx0)))
      rw [hD2.deriv]
      have hkey : r1 * r1 -
          (r1 - (x * x - r2 * r2 + r1 * r1) / (2 * x) - r1) *
            (r1 - (x * x - r2 * r2 + r1 * r1) / (2 * x) - r1) =
          r2 * r2 -
          (r2 - (x * x - r1 * r1 + r2 * r2) / (2 * x) - r2) *
            (r2 - (x * x - r1 * r1 + r2 * r2) / (2 * x) - r2) := by
        field_simp
        ring
      rw [hkey]
      have hA2 : 0 < r2 * r2 -
          (r2 - (x * x - r1 * r1 + r2 * r2) / (2 * x) - r2) *
            (r2 - (x * x - r1 * r1 + r2 * r2) / (2 * x) - r2) := by
        nlinarith [hw2a, hw2b]
      have hSpos : 0 < Real.sqrt (r2 * r2 -
          (r2 - (x * x - r1 * r1 + r2 * r2) / (2 * x) - r2) *
            (r2 - (x * x - r1 * r1 + r2 * r2) / (2 * x) - r2)) :=
        Real.sqrt_pos.mpr hA2
      have hsum : (x * x + r2 * r2 - r1 * r1) / (2 * (x * x)) +
          (x * x + r1 * r1 - r2 * r2) / (2 * (x * x)) = 1 := by
        field_simp
        ring
      set S := Real.sqrt (r2 * r2 -
          (r2 - (x * x - r1 * r1 + r2 * r2) / (2 * x) - r2) *
            (r2 - (x * x - r1 * r1 + r2 * r2) / (2 * x) - r2)) with hS
      have hcomb : 2 * S * -((x * x + r2 * r2 - r1 * r1) / (2 * (x * x))) +
          2 * S * -((x * x + r1 * r1 - r2 * r2) / (2 * (x * x))) =
          -(2 * S) * ((x * x + r2 * r2 - r1 * r1) / (2 * (x * x)) +
            (x * x + r1 * r1 - r2 * r2) / (2 * (x * x))) := by
        ring
      rw [hcomb, hsum]
      nlinarith [hSpos]
  intro d1 h1 d2 h2 h12
  rw [ovMid_eq_seg hr1 hr2 d1 h1, ovMid_eq_seg hr1 hr2 d2 h2]
  exact hanti h1 h2 h12

/-- circleOverlap on the contained zone. -/
theorem circleOverlap_zone1 {r1 r2 d : ℝ} (h1 : d ≤ |r1 - r2|)
    (h2 : |r1 - r2| < r1 + r2) :
    circleOverlap r1 r2 d = Real.pi * min r1 r2 * min r1 r2 := by
  unfold circleOverlap
  rw [if_neg (not_le.mpr (by linarith)), if_pos h1]

/-- circleOverlap on the lens zone. -/
theorem circleOverlap_lens {r1 r2 d : ℝ} (h1 : |r1 - r2| < d)
    (h2 : d < r1 + r2) :
    circleOverlap r1 r2 d = ovMid r1 r2 d := by
  unfold circleOverlap ovMid
  rw [if_neg (not_le.mpr h2), if_neg (not_le.mpr h1)]

theorem circleOverlap_far {r1 r2 d : ℝ} (h : r1 + r2 ≤ d) :
    circleOverlap r1 r2 d = 0 := by
  unfold circleOverlap
  rw [if_pos h]

/-- circleOverlap agrees with the lens branch on the closed lens
interval. -/
theorem circleOverlap_eqOn_ovMid {r1 r2 : ℝ} (hr1 : 0 < r1) (hr2 : 0 < r2) :
    ∀ x ∈ Set.Icc (|r1 - r2|) (r1 + r2),
      circleOverlap r1 r2 x = ovMid r1 r2 x := by
  intro x hx
  have hlh : |r1 - r2| < r1 + r2 := abs_lt.mpr ⟨by linarith, by linarith⟩
  rcases eq_or_lt_of_le hx.1 with heq | hgt
  · rw [← heq, circleOverlap_zone1 (le_refl _) hlh, ovMid_seam_lo hr1 hr2]
  · rcases eq_or_lt_of_le hx.2 with heq2 | hlt2
    · rw [heq2, circleOverlap_far (le_refl _), ovMid_seam_hi hr1 hr2]
    · exact circleOverlap_lens hgt hlt2

/-- circleOverlap is strictly decreasing on the lens interval. -/
theorem circleOverlap_strictAntiOn {r1 r2 : ℝ} (hr1 : 0 < r1)
    (hr2 : 0 < r2) :
    StrictAntiOn (circleOverlap r1 r2) (Set.Icc (|r1 - r2|) (r1 + r2)) := by
  intro x hx y hy hxy
  rw [circleOverlap_eqOn_ovMid hr1 hr2 x hx,
    circleOverlap_eqOn_ovMid hr1 hr2 y hy]
  exact ovMid_strictAntiOn hr1 hr2 hx hy hxy

/-- The bisection loop of the source converges onto the unique sign change
of f, up to the remaining interval width or the tolerance. -/
theorem bisectLoop_close {f : ℝ → ℝ} {fA tol d b : ℝ} (hfA : 0 < fA)
    (htol : 0 < tol)
    (hle : ∀ x, 0 ≤ x → x ≤ b → 0 ≤ f x → x ≤ d)
    (hge : ∀ x, 0 ≤ x → x ≤ b → f x ≤ 0 → d ≤ x) :
    ∀ (fuel : Nat) (a delta : ℝ), 0 ≤ a → 0 ≤ delta → a + delta ≤ b →
      0 ≤ f a → f (a + delta) ≤ 0 →
      |bisectLoop f fA tol fuel a delta - d| ≤ max (delta / 2 ^ fuel) tol := by
  intro fuel
  induction fuel with
  | zero =>
    intro a delta ha hdelta hab hfa hfad
    have h1 : a ≤ d := hle a ha (by linarith) hfa
    have h2 : d ≤ a + delta := hge (a + delta) (by linarith) hab hfad
    have h3 : |a + delta - d| ≤ delta := abs_le.mpr ⟨by linarith, by linarith⟩
    calc |bisectLoop f fA tol 0 a delta - d| = |a + delta - d| := rfl
      _ ≤ delta := h3
      _ ≤ max (delta / 2 ^ 0) tol := by
          rw [pow_zero, div_one]
          exact le_max_left _ _
  | succ n ih =>
    intro a delta ha hdelta hab hfa hfad
    have h1 : a ≤ d := hle a ha (by linarith) hfa
    have h2 : d ≤ a + delta := hge (a + delta) (by linarith) hab hfad
    unfold bisectLoop
    dsimp only
    by_cases hret : |delta / 2| < tol ∨ f (a + delta / 2) = 0
    · rw [if_pos hret]
      rcases hret with htol2 | hf0
      · have habs : |a + delta / 2 - d| ≤ delta / 2 :=
          abs_le.mpr ⟨by linarith, by linarith⟩
        exact le_max_of_le_right
          (le_trans habs (le_trans (le_abs_self _) htol2.le))
      · have hm1 : a + delta / 2 ≤ d :=
          hle _ (by linarith) (by linarith) (le_of_eq hf0.symm)
        have hm2 : d ≤ a + delta / 2 :=
          hge _ (by linarith) (by linarith) (le_of_eq hf0)
        have hz : a + delta / 2 - d = 0 := by linarith
        rw [hz, abs_zero]
        exact le_max_of_le_right htol.le
    · rw [if_neg hret]
      by_cases hmid : 0 ≤ f (a + delta / 2) * fA
      · rw [if_pos hmid]
        have hfmid : 0 ≤ f (a + delta / 2) := by
          by_contra hneg
          push_neg at hneg
          nlinarith
        have hrec := ih (a + delta / 2) (delta / 2) (by linarith)
          (by linarith) (by linarith) hfmid
          (by rw [show a + delta / 2 + delta / 2 = a + delta by ring]
              exact hfad)
        refine le_trans hrec ?_
        rw [show delta / 2 / 2 ^ n = delta / 2 ^ (n + 1) by
          rw [pow_succ]; ring]
      · rw [if_neg hmid]
        have hfmid : f (a + delta / 2) ≤ 0 := by
          nlinarith [not_le.mp hmid]
        have hrec := ih a (delta / 2) ha (by linarith) (by linarith)
          hfa hfmid
        refine le_trans hrec ?_
        rw [show delta / 2 / 2 ^ n = delta / 2 ^ (n + 1) by
          rw [pow_succ]; ring]

/-- C6 (amended): when the guard does not fire — the overlap area is more
than SMALL away from the full small-circle area — and the radii are not
astronomically large, the bisection inverse recovers the distance to within
1e-6. -/
theorem C6_roundtrip_conditional (r1 r2 d : ℝ) (hr1 : 0 < r1) (hr2 : 0 < r2)
    (hlo : |r1 - r2| ≤ d) (hhi : d ≤ r1 + r2)
    (hguard : circleOverlap r1 r2 d + SMALL <
      min r1 r2 * min r1 r2 * Real.pi)
    (hsize : r1 + r2 ≤ 1e24) :
    ∃ y, distanceFromIntersectArea r1 r2 (circleOverlap r1 r2 d) =
      Except.ok y ∧ |y - d| ≤ 1e-6 := by
  have hSMALL : (0:ℝ) < SMALL := by
    unfold SMALL
    norm_num
  have hlh : |r1 - r2| < r1 + r2 := abs_lt.mpr ⟨by linarith, by linarith⟩
  have hguard2 : circleOverlap r1 r2 d + SMALL <
      Real.pi * min r1 r2 * min r1 r2 := by
    have hco : min r1 r2 * min r1 r2 * Real.pi =
        Real.pi * min r1 r2 * min r1 r2 := by ring
    linarith [hguard, hco.ge, hco.le]
  have hmemd : d ∈ Set.Icc (|r1 - r2|) (r1 + r2) := ⟨hlo, hhi⟩
  have hO0 : circleOverlap r1 r2 0 = Real.pi * min r1 r2 * min r1 r2 :=
    circleOverlap_zone1 (abs_nonneg _) hlh
  have hOd_nonneg : 0 ≤ circleOverlap r1 r2 d := circleOverlap_nonneg hr1 hr2
  have hfA : 0 < circleOverlap r1 r2 0 - circleOverlap r1 r2 d := by
    rw [hO0]
    linarith
  have hfB : circleOverlap r1 r2 (r1 + r2) - circleOverlap r1 r2 d ≤ 0 := by
    rw [circleOverlap_far (le_refl _)]
    linarith
  have hle : ∀ x, 0 ≤ x → x ≤ r1 + r2 →
      0 ≤ circleOverlap r1 r2 x - circleOverlap r1 r2 d → x ≤ d := by
    intro x hx0 hxb hfx
    by_contra hxd
    push_neg at hxd
    have hxm : x ∈ Set.Icc (|r1 - r2|) (r1 + r2) := ⟨by linarith, hxb⟩
    have := circleOverlap_strictAntiOn hr1 hr2 hmemd hxm hxd
    linarith
  have hge : ∀ x, 0 ≤ x → x ≤ r1 + r2 →
      circleOverlap r1 r2 x - circleOverlap r1 r2 d ≤ 0 → d ≤ x := by
    intro x hx0 hxb hfx
    by_contra hxd
    push_neg at hxd
    rcases le_or_lt x (|r1 - r2|) with hxlo | hxlo
    · have hOx := circleOverlap_zone1 hxlo hlh
      rw [hOx] at hfx
      linarith
    · have hxm : x ∈ Set.Icc (|r1 - r2|) (r1 + r2) := ⟨hxlo.le, by linarith⟩
      have := circleOverlap_strictAntiOn hr1 hr2 hxm hmemd hxd
      linarith
  unfold distanceFromIntersectArea
  rw [if_neg (not_le.mpr hguard)]
  unfold bisect
  dsimp only
  have hprod : (circleOverlap r1 r2 0 - circleOverlap r1 r2 d) *
      (circleOverlap r1 r2 (r1 + r2) - circleOverlap r1 r2 d) ≤ 0 :=
    mul_nonpos_iff.mpr (Or.inl ⟨hfA.le, hfB⟩)
  rw [if_neg (not_lt.mpr hprod), if_neg (ne_of_gt hfA)]
  by_cases hB0 : circleOverlap r1 r2 (r1 + r2) - circleOverlap r1 r2 d = 0
  · rw [if_pos hB0]
    refine ⟨r1 + r2, rfl, ?_⟩
    have hOhi : circleOverlap r1 r2 (r1 + r2) = 0 :=
      circleOverlap_far (le_refl _)
    have hOd0 : circleOverlap r1 r2 d = 0 := by
      rw [hOhi] at hB0
      linarith
    have hd_eq : d = r1 + r2 := by
      by_contra hne
      have hdlt : d < r1 + r2 := lt_of_le_of_ne hhi hne
      have hstrict := circleOverlap_strictAntiOn hr1 hr2 hmemd
        ⟨hlh.le, le_refl _⟩ hdlt
      rw [hOd0, hOhi] at hstrict
      exact lt_irrefl 0 hstrict
    rw [hd_eq]
    norm_num
  · rw [if_neg hB0]
    refine ⟨_, rfl, ?_⟩
    have happ := @bisectLoop_close
      (fun x => circleOverlap r1 r2 x - circleOverlap r1 r2 d)
      (circleOverlap r1 r2 0 - circleOverlap r1 r2 d) (1e-10) d (r1 + r2)
      hfA (by norm_num) hle hge 100 0 (r1 + r2 - 0) (le_refl 0)
      (by linarith) (by linarith) hfA.le
      (by rw [show (0:ℝ) + (r1 + r2 - 0) = r1 + r2 by ring]
          exact hfB)
    refine le_trans happ (max_le ?_ (by norm_num))
    have h2pow : (0:ℝ) < 2 ^ (100:Nat) := by positivity
    rw [div_le_iff h2pow]
    have hbig : (1e24:ℝ) ≤ 1e-6 * 2 ^ (100:Nat) := by norm_num
    linarith

/-- C6 counterexample: two circles of radius 1e-6 at distance 2e-6 (tangent,
inside the claimed interval).  The overlap is 0, the SMALL guard fires, and
the function returns |r1 - r2| = 0, which is 2e-6 > 1e-6 away from d. -/
theorem C6_cex_tiny_circles :
    |(1e-6:ℝ) - 1e-6| ≤ 2e-6 ∧ (2e-6:ℝ) ≤ 1e-6 + 1e-6 ∧
    distanceFromIntersectArea 1e-6 1e-6 (circleOverlap 1e-6 1e-6 2e-6) =
      Except.ok 0 ∧ ¬ (|(0:ℝ) - 2e-6| ≤ 1e-6) := by
  refine ⟨by norm_num, by norm_num, ?_, by rw [abs_le]; norm_num⟩
  have hov : circleOverlap 1e-6 1e-6 2e-6 = 0 :=
    circleOverlap_far (by norm_num)
  rw [hov]
  unfold distanceFromIntersectArea
  have hcond : min (1e-6:ℝ) 1e-6 * min (1e-6:ℝ) 1e-6 * Real.pi ≤
      0 + SMALL := by
    rw [min_self]
    unfold SMALL
    nlinarith [Real.pi_le_four, Real.pi_pos]
  rw [if_pos hcond]
  norm_num

/-- C6 witness for the amended round-trip: unit circles at distance 1. -/
theorem C6_roundtrip_witness :
    (0:ℝ) < 1 ∧ |(1:ℝ) - 1| ≤ 1 ∧ (1:ℝ) ≤ 1 + 1 ∧
    (circleOverlap 1 1 1 + SMALL < min 1 1 * min 1 1 * Real.pi) ∧
    ((1:ℝ) + 1 ≤ 1e24) ∧
    ∃ y, distanceFromIntersectArea 1 1 (circleOverlap 1 1 1) =
      Except.ok y ∧ |y - 1| ≤ 1e-6 := by
  have hguard : circleOverlap 1 1 1 + SMALL <
      min 1 1 * min 1 1 * Real.pi := by
    have h1 : circleOverlap 1 1 1 = ovMid 1 1 1 :=
      circleOverlap_lens (by norm_num) (by norm_num)
    have hhalf : (1:ℝ) - (1 * 1 - 1 * 1 + 1 * 1) / (2 * 1) = 1 / 2 := by
      norm_num
    have hseg := circleArea_seg (show (0:ℝ) < 1 by norm_num)
      (show (0:ℝ) ≤ 1 / 2 by norm_num) (show (1:ℝ) / 2 ≤ 2 * 1 by norm_num)
    have h2 : ovMid 1 1 1 = 2 * segArea 1 (1 / 2) := by
      unfold ovMid
      rw [hhalf, hseg]
      ring
    have hsq : (4/5:ℝ) ≤ Real.sqrt (1 * 1 - (1 / 2 - 1) * (1 / 2 - 1)) := by
      rw [show (1:ℝ) * 1 - (1 / 2 - 1) * (1 / 2 - 1) = 3 / 4 by norm_num,
        show (4/5:ℝ) = Real.sqrt ((4 / 5) ^ 2) from
          (Real.sqrt_sq (by norm_num)).symm]
      apply Real.sqrt_le_sqrt
      norm_num
    have harc : Real.arcsin ((1 / 2 - 1) / 1) ≤ 0 :=
      Real.arcsin_nonpos.mpr (by norm_num)
    have hb : segArea 1 (1 / 2) ≤ -(2 / 5) + 1 * 1 * (Real.pi / 2) := by
      unfold segArea
      nlinarith [hsq, harc]
    rw [h1, h2, min_self]
    unfold SMALL
    nlinarith [hb, Real.pi_pos]
  exact ⟨by norm_num, by norm_num, by norm_num, hguard, by norm_num,
    C6_roundtrip_conditional 1 1 1 (by norm_num) (by norm_num)
      (by norm_num) (by norm_num) hguard (by norm_num)⟩

/-! ## C4: intersectionArea is not permutation invariant -/

/-- The defining property of atan2: it recovers the angle of a point on a
circle of radius r (JS argument order: atan2 y x). -/
theorem atan2_sin_cos {y x r : ℝ} (hr : 0 < r)
    (h : y * y + x * x = r * r) :
    r * Real.sin (atan2 y x) = y ∧ r * Real.cos (atan2 y x) = x := by
  unfold atan2
  by_cases hx : 0 < x
  · rw [if_pos hx]
    have hxne : x ≠ 0 := ne_of_gt hx
    have hs : Real.sqrt (1 + (y / x) ^ 2) = r / x := by
      rw [show (1:ℝ) + (y / x) ^ 2 = (r / x) ^ 2 by
        field_simp
        linear_combination h]
      exact Real.sqrt_sq (by positivity)
    rw [Real.sin_arctan, Real.cos_arctan, hs]
    constructor
    · field_simp
    · field_simp
  · rw [if_neg hx]
    by_cases hx2 : x < 0
    · rw [if_pos hx2]
      have hxne : x ≠ 0 := ne_of_lt hx2
      have hs : Real.sqrt (1 + (y / x) ^ 2) = r / (-x) := by
        rw [show (1:ℝ) + (y / x) ^ 2 = (r / (-x)) ^ 2 by
          field_simp
          linear_combination h]
        exact Real.sqrt_sq (div_nonneg hr.le (by linarith))
      by_cases hy : 0 ≤ y
      · rw [if_pos hy, Real.sin_add_pi, Real.cos_add_pi,
          Real.sin_arctan, Real.cos_arctan, hs]
        constructor
        · field_simp
          ring
        · field_simp
      · rw [if_neg hy, Real.sin_sub_pi, Real.cos_sub_pi,
          Real.sin_arctan, Real.cos_arctan, hs]
        constructor
        · field_simp
          ring
        · field_simp
    · have hx0 : x = 0 := le_antisymm (not_lt.mp hx) (not_lt.mp hx2)
      rw [if_neg hx2]
      subst hx0
      by_cases hy : 0 < y
      · rw [if_pos hy, Real.sin_pi_div_two, Real.cos_pi_div_two]
        have hyr : y = r := by nlinarith
        constructor
        · rw [hyr]; ring
        · ring
      · by_cases hy2 : y < 0
        · rw [if_neg hy, if_pos hy2, Real.sin_neg, Real.cos_neg,
            Real.sin_pi_div_two, Real.cos_pi_div_two]
          have hyr : y = -r := by nlinarith
          constructor
          · rw [hyr]; ring
          · ring
        · exfalso
          have hy0 : y = 0 := le_antisymm (not_lt.mp hy) (not_lt.mp hy2)
          rw [hy0] at h
          nlinarith

theorem atan2_nn : atan2 (3:ℝ) (-4) = Real.pi - Real.arctan (3 / 4) := by
  unfold atan2
  rw [if_neg (by norm_num), if_pos (by norm_num : (-4:ℝ) < 0),
    if_pos (by norm_num : (0:ℝ) ≤ 3),
    show (3:ℝ) / (-4) = -(3 / 4) by norm_num, Real.arctan_neg]
  ring

theorem atan2_pn : atan2 (-3:ℝ) 4 = -Real.arctan (3 / 4) := by
  unfold atan2
  rw [if_pos (by norm_num : (0:ℝ) < 4),
    show (-3:ℝ) / 4 = -(3 / 4) by norm_num, Real.arctan_neg]

theorem atan2_nnn : atan2 (-3:ℝ) (-4) = Real.arctan (3 / 4) - Real.pi := by
  unfold atan2
  rw [if_neg (by norm_num), if_pos (by norm_num : (-4:ℝ) < 0),
    if_neg (by norm_num : ¬ (0:ℝ) ≤ -3),
    show (-3:ℝ) / (-4) = 3 / 4 by norm_num]

theorem atan2_pp : atan2 (3:ℝ) 4 = Real.arctan (3 / 4) := by
  unfold atan2
  rw [if_pos (by norm_num : (0:ℝ) < 4)]

theorem atan2_zp : atan2 (0:ℝ) 4 = 0 := by
  unfold atan2
  rw [if_pos (by norm_num : (0:ℝ) < 4)]
  norm_num [Real.arctan_zero]

theorem atan2_zn : atan2 (0:ℝ) (-4) = Real.pi := by
  unfold atan2
  rw [if_neg (by norm_num), if_pos (by norm_num : (-4:ℝ) < 0),
    if_pos (le_refl (0:ℝ))]
  norm_num [Real.arctan_zero]

theorem sin_arctan34 : Real.sin (Real.arctan (3 / 4)) = 3 / 5 := by
  rw [Real.sin_arctan,
    show (1:ℝ) + (3 / 4) ^ 2 = (5 / 4) ^ 2 by norm_num,
    Real.sqrt_sq (by norm_num)]
  norm_num

theorem cos_arctan34 : Real.cos (Real.arctan (3 / 4)) = 4 / 5 := by
  rw [Real.cos_arctan,
    show (1:ℝ) + (3 / 4) ^ 2 = (5 / 4) ^ 2 by norm_num,
    Real.sqrt_sq (by norm_num)]
  norm_num

theorem circleArea_zero (r : ℝ) : circleArea r 0 = 0 := by
  unfold circleArea
  rw [zero_sub]
  exact sub_self _

/-- Complementary segments of one circle tile the whole disc. -/
theorem circleArea_compl {r w : ℝ} (hr : 0 < r) (h0 : 0 ≤ w)
    (h2 : w ≤ 2 * r) :
    circleArea r w + circleArea r (2 * r - w) = Real.pi * r * r := by
  rw [circleArea_seg hr h0 h2, circleArea_seg hr (by linarith) (by linarith)]
  unfold segArea
  rw [show r * r - (2 * r - w - r) * (2 * r - w - r) =
      r * r - (w - r) * (w - r) by ring,
    show (2 * r - w - r) / r = -((w - r) / r) by ring,
    Real.arcsin_neg]
  ring

/-- A generic distance evaluation. -/
theorem dist_eval {x1 y1 x2 y2 v : ℝ}
    (h : (x1 - x2) * (x1 - x2) + (y1 - y2) * (y1 - y2) = v ^ 2)
    (hv : 0 ≤ v) : distance ⟨x1, y1⟩ ⟨x2, y2⟩ = v := by
  unfold distance
  dsimp only
  rw [h]
  exact Real.sqrt_sq hv

/-- Generic evaluation of circleCircleIntersection on properly
intersecting circles. -/
theorem ccI_eval (c1 c2 : Circle) (dv a h : ℝ)
    (hd : distance c1.pt c2.pt = dv)
    (hcond : ¬ (c1.radius + c2.radius ≤ dv ∨ dv ≤ |c1.radius - c2.radius|))
    (ha : (c1.radius * c1.radius - c2.radius * c2.radius + dv * dv) /
      (2 * dv) = a)
    (hh : Real.sqrt (c1.radius * c1.radius - a * a) = h) :
    circleCircleIntersection c1 c2 =
      [⟨c1.x + a * (c2.x - c1.x) / dv + -(c2.y - c1.y) * h / dv,
        c1.y + a * (c2.y - c1.y) / dv - -(c2.x - c1.x) * h / dv⟩,
       ⟨c1.x + a * (c2.x - c1.x) / dv - -(c2.y - c1.y) * h / dv,
        c1.y + a * (c2.y - c1.y) / dv + -(c2.x - c1.x) * h / dv⟩] := by
  unfold circleCircleIntersection
  dsimp only
  rw [hd, ha, hh, if_neg hcond]

/-- chooseArc when only the first tagged parent is shared. -/
theorem chooseArc_first (circles : List Circle) (p1 p2 : IPoint) (i j : Nat)
    (hpi : p1.parentIndex = [i, j])
    (h1 : p2.parentIndex.contains i = true)
    (h2 : p2.parentIndex.contains j = false) :
    chooseArc circles p1 p2 = some (arcOf (circles.getD i default) p1 p2) := by
  unfold chooseArc
  rw [hpi, List.foldl_cons, List.foldl_cons, List.foldl_nil]
  dsimp only
  rw [h1, h2]
  rw [if_pos (show (true = true) from rfl),
    if_neg (show ¬ (false = true) by simp)]
  rfl

/-- chooseArc when only the second tagged parent is shared. -/
theorem chooseArc_second (circles : List Circle) (p1 p2 : IPoint) (i j : Nat)
    (hpi : p1.parentIndex = [i, j])
    (h1 : p2.parentIndex.contains i = false)
    (h2 : p2.parentIndex.contains j = true) :
    chooseArc circles p1 p2 = some (arcOf (circles.getD j default) p1 p2) := by
  unfold chooseArc
  rw [hpi, List.foldl_cons, List.foldl_cons, List.foldl_nil]
  dsimp only
  rw [h1, h2]
  rw [if_neg (show ¬ (false = true) by simp),
    if_pos (show (true = true) from rfl)]
  rfl

theorem arcOf_circle (c : Circle) (p1 p2 : IPoint) :
    (arcOf c p1 p2).circle = c := rfl

/-- The degenerate arc of a repeated boundary point on its own circle has
width 0. -/
theorem arcOf_width_degenerate {c : Circle} {px py : ℝ} {l1 l2 : List Nat}
    {an1 an2 : ℝ} (hr : 0 < c.radius)
    (hon : (px - c.x) * (px - c.x) + (py - c.y) * (py - c.y) =
      c.radius * c.radius) :
    (arcOf c ⟨px, py, l1, an1⟩ ⟨px, py, l2, an2⟩).width = 0 := by
  unfold arcOf
  dsimp only
  rw [sub_self, if_neg (lt_irrefl (0:ℝ)), zero_div, sub_zero]
  obtain ⟨hs, hc⟩ := atan2_sin_cos hr hon
  rw [hs, hc]
  unfold distance
  dsimp only
  rw [show ((px + px) / 2 - (c.x + (px - c.x))) *
      ((px + px) / 2 - (c.x + (px - c.x))) +
      ((py + py) / 2 - (c.y + (py - c.y))) *
      ((py + py) / 2 - (c.y + (py - c.y))) = (0:ℝ) by ring,
    Real.sqrt_zero]

theorem c4_w_B_minor : (arcOf c4B c4q01 c4p12).width = 2 := by
  unfold arcOf c4B c4q01 c4p12
  dsimp only
  rw [show (3:ℝ) - 6 = -3 by norm_num, show (-4:ℝ) - 0 = -4 by norm_num,
    show (4:ℝ) - 0 = 4 by norm_num, atan2_nnn, atan2_pn]
  have ht2 := Real.arctan_lt_pi_div_two (3 / 4)
  rw [show -Real.arctan (3 / 4) - (Real.arctan (3 / 4) - Real.pi) =
    Real.pi - 2 * Real.arctan (3 / 4) by ring]
  rw [if_neg (show ¬ (Real.pi - 2 * Real.arctan (3 / 4) < 0) by
    push_neg
    linarith)]
  rw [show -Real.arctan (3 / 4) -
    (Real.pi - 2 * Real.arctan (3 / 4)) / 2 = -(Real.pi / 2) by ring]
  rw [Real.sin_neg, Real.cos_neg, Real.sin_pi_div_two, Real.cos_pi_div_two]
  rw [show (6:ℝ) + 5 * -1 = 1 by norm_num, show (0:ℝ) + 5 * 0 = 0 by norm_num,
    show ((3:ℝ) + 3) / 2 = 3 by norm_num,
    show ((-4:ℝ) + 4) / 2 = 0 by norm_num]
  exact dist_eval (by norm_num) (by norm_num)

theorem c4_w_B_major : (arcOf c4B c4p01 c4q12).width = 8 := by
  unfold arcOf c4B c4p01 c4q12
  dsimp only
  rw [show (3:ℝ) - 6 = -3 by norm_num, show (4:ℝ) - 0 = 4 by norm_num,
    show (-4:ℝ) - 0 = -4 by norm_num, atan2_pn, atan2_nnn]
  have ht1 : 0 < Real.arctan (3 / 4) := by
    have h := Real.arctan_strictMono (show (0:ℝ) < 3 / 4 by norm_num)
    rwa [Real.arctan_zero] at h
  have ht2 := Real.arctan_lt_pi_div_two (3 / 4)
  rw [show Real.arctan (3 / 4) - Real.pi - -Real.arctan (3 / 4) =
    2 * Real.arctan (3 / 4) - Real.pi by ring]
  rw [if_pos (show 2 * Real.arctan (3 / 4) - Real.pi < 0 by linarith)]
  rw [show Real.arctan (3 / 4) - Real.pi -
    (2 * Real.arctan (3 / 4) - Real.pi + 2 * Real.pi) / 2 =
    -(Real.pi / 2 + Real.pi) by ring]
  rw [Real.sin_neg, Real.cos_neg, Real.sin_add_pi, Real.cos_add_pi,
    Real.sin_pi_div_two, Real.cos_pi_div_two]
  rw [show (6:ℝ) + 5 * - -1 = 11 by norm_num,
    show (0:ℝ) + 5 * -0 = 0 by norm_num,
    show ((3:ℝ) + 3) / 2 = 3 by norm_num,
    show ((4:ℝ) + -4) / 2 = 0 by norm_num]
  exact dist_eval (by norm_num) (by norm_num)

theorem c4_w_C_left : (arcOf c4C c4q01 c4p12).width = 4 := by
  unfold arcOf c4C c4q01 c4p12
  dsimp only
  rw [show (3:ℝ) - 3 = 0 by norm_num, show (-4:ℝ) - 0 = -4 by norm_num,
    show (4:ℝ) - 0 = 4 by norm_num, atan2_zn, atan2_zp]
  have hpi := Real.pi_pos
  rw [if_pos (show (0:ℝ) - Real.pi < 0 by linarith)]
  rw [show (0:ℝ) - (0 - Real.pi + 2 * Real.pi) / 2 = -(Real.pi / 2) by ring]
  rw [Real.sin_neg, Real.cos_neg, Real.sin_pi_div_two, Real.cos_pi_div_two]
  rw [show (3:ℝ) + 4 * -1 = -1 by norm_num, show (0:ℝ) + 4 * 0 = 0 by norm_num,
    show ((3:ℝ) + 3) / 2 = 3 by norm_num,
    show ((-4:ℝ) + 4) / 2 = 0 by norm_num]
  exact dist_eval (by norm_num) (by norm_num)

theorem c4_w_C_right : (arcOf c4C c4p01 c4q12).width = 4 := by
  unfold arcOf c4C c4p01 c4q12
  dsimp only
  rw [show (3:ℝ) - 3 = 0 by norm_num, show (4:ℝ) - 0 = 4 by norm_num,
    show (-4:ℝ) - 0 = -4 by norm_num, atan2_zp, atan2_zn]
  have hpi := Real.pi_pos
  rw [if_neg (show ¬ (Real.pi - 0 < 0) by push_neg; linarith)]
  rw [show Real.pi - (Real.pi - 0) / 2 = Real.pi / 2 by ring]
  rw [Real.sin_pi_div_two, Real.cos_pi_div_two]
  rw [show (3:ℝ) + 4 * 1 = 7 by norm_num, show (0:ℝ) + 4 * 0 = 0 by norm_num,
    show ((3:ℝ) + 3) / 2 = 3 by norm_num,
    show ((4:ℝ) + -4) / 2 = 0 by norm_num]
  exact dist_eval (by norm_num) (by norm_num)

theorem c4_wd_A_q : (arcOf c4A c4q02 c4q01).width = 0 :=
  arcOf_width_degenerate (by norm_num [c4A]) (by norm_num [c4A])

theorem c4_wd_A_p : (arcOf c4A c4p02 c4p01).width = 0 :=
  arcOf_width_degenerate (by norm_num [c4A]) (by norm_num [c4A])

theorem c4_wd_C_q : (arcOf c4C c4q12 c4q02).width = 0 :=
  arcOf_width_degenerate (by norm_num [c4C]) (by norm_num [c4C])

theorem c4_wd_C_p : (arcOf c4C c4p12 c4p02).width = 0 :=
  arcOf_width_degenerate (by norm_num [c4C]) (by norm_num [c4C])

theorem c4_wd_B_q : (arcOf c4B c4q12 c4q02).width = 0 :=
  arcOf_width_degenerate (by norm_num [c4B]) (by norm_num [c4B])

theorem c4_wd_B_p : (arcOf c4B c4p12 c4p02).width = 0 :=
  arcOf_width_degenerate (by norm_num [c4B]) (by norm_num [c4B])

theorem c4_dAB : distance c4A.pt c4B.pt = 6 := by
  show distance ⟨0, 0⟩ ⟨6, 0⟩ = 6
  exact dist_eval (by norm_num) (by norm_num)

theorem c4_dAC : distance c4A.pt c4C.pt = 3 := by
  show distance ⟨0, 0⟩ ⟨3, 0⟩ = 3
  exact dist_eval (by norm_num) (by norm_num)

theorem c4_dBC : distance c4B.pt c4C.pt = 3 := by
  show distance ⟨6, 0⟩ ⟨3, 0⟩ = 3
  exact dist_eval (by norm_num) (by norm_num)

theorem c4_dCB : distance c4C.pt c4B.pt = 3 := by
  show distance ⟨3, 0⟩ ⟨6, 0⟩ = 3
  exact dist_eval (by norm_num) (by norm_num)

theorem c4_ccAB : circleCircleIntersection c4A c4B =
    [⟨3, 4⟩, ⟨3, -4⟩] := by
  rw [ccI_eval c4A c4B 6 3 4 c4_dAB
    (show ¬ ((5:ℝ) + 5 ≤ 6 ∨ (6:ℝ) ≤ |(5:ℝ) - 5|) by norm_num)
    (show ((5:ℝ) * 5 - 5 * 5 + 6 * 6) / (2 * 6) = 3 by norm_num)
    (show Real.sqrt ((5:ℝ) * 5 - 3 * 3) = 4 by
      rw [show (5:ℝ) * 5 - 3 * 3 = 4 ^ 2 by norm_num]
      exact Real.sqrt_sq (by norm_num))]
  norm_num [c4A, c4B]

theorem c4_ccAC : circleCircleIntersection c4A c4C =
    [⟨3, 4⟩, ⟨3, -4⟩] := by
  rw [ccI_eval c4A c4C 3 3 4 c4_dAC
    (show ¬ ((5:ℝ) + 4 ≤ 3 ∨ (3:ℝ) ≤ |(5:ℝ) - 4|) by norm_num)
    (show ((5:ℝ) * 5 - 4 * 4 + 3 * 3) / (2 * 3) = 3 by norm_num)
    (show Real.sqrt ((5:ℝ) * 5 - 3 * 3) = 4 by
      rw [show (5:ℝ) * 5 - 3 * 3 = 4 ^ 2 by norm_num]
      exact Real.sqrt_sq (by norm_num))]
  norm_num [c4A, c4C]

theorem c4_ccBC : circleCircleIntersection c4B c4C =
    [⟨3, -4⟩, ⟨3, 4⟩] := by
  rw [ccI_eval c4B c4C 3 3 4 c4_dBC
    (show ¬ ((5:ℝ) + 4 ≤ 3 ∨ (3:ℝ) ≤ |(5:ℝ) - 4|) by norm_num)
    (show ((5:ℝ) * 5 - 4 * 4 + 3 * 3) / (2 * 3) = 3 by norm_num)
    (show Real.sqrt ((5:ℝ) * 5 - 3 * 3) = 4 by
      rw [show (5:ℝ) * 5 - 3 * 3 = 4 ^ 2 by norm_num]
      exact Real.sqrt_sq (by norm_num))]
  norm_num [c4B, c4C]

theorem c4_ccCB : circleCircleIntersection c4C c4B =
    [⟨3, 4⟩, ⟨3, -4⟩] := by
  rw [ccI_eval c4C c4B 3 0 4 c4_dCB
    (show ¬ ((4:ℝ) + 5 ≤ 3 ∨ (3:ℝ) ≤ |(4:ℝ) - 5|) by norm_num)
    (show ((4:ℝ) * 4 - 5 * 5 + 3 * 3) / (2 * 3) = 0 by norm_num)
    (show Real.sqrt ((4:ℝ) * 4 - 0 * 0) = 4 by
      rw [show (4:ℝ) * 4 - 0 * 0 = 4 ^ 2 by norm_num]
      exact Real.sqrt_sq (by norm_num))]
  norm_num [c4C, c4B]


theorem c4_gip1 : getIntersectionPoints [c4A, c4B, c4C] =
    [⟨3, 4, [0, 1], 0⟩, ⟨3, -4, [0, 1], 0⟩, ⟨3, 4, [0, 2], 0⟩,
     ⟨3, -4, [0, 2], 0⟩, ⟨3, -4, [1, 2], 0⟩, ⟨3, 4, [1, 2], 0⟩] := by
  unfold getIntersectionPoints
  simp only [show ([c4A, c4B, c4C] : List Circle).length = 3 from rfl,
    show List.range 3 = [0, 1, 2] from rfl,
    List.flatMap_cons, List.flatMap_nil,
    show (([0, 1, 2] : List Nat).filter fun j => 0 < j) = [1, 2] from rfl,
    show (([0, 1, 2] : List Nat).filter fun j => 1 < j) = [2] from rfl,
    show (([0, 1, 2] : List Nat).filter fun j => 2 < j) = ([] : List Nat) from rfl,
    show ([c4A, c4B, c4C] : List Circle).getD 0 default = c4A from rfl,
    show ([c4A, c4B, c4C] : List Circle).getD 1 default = c4B from rfl,
    show ([c4A, c4B, c4C] : List Circle).getD 2 default = c4C from rfl,
    c4_ccAB, c4_ccAC, c4_ccBC, List.map_cons, List.map_nil,
    List.append_nil, List.nil_append, List.cons_append]

theorem c4_gip2 : getIntersectionPoints [c4A, c4C, c4B] =
    [⟨3, 4, [0, 1], 0⟩, ⟨3, -4, [0, 1], 0⟩, ⟨3, 4, [0, 2], 0⟩,
     ⟨3, -4, [0, 2], 0⟩, ⟨3, 4, [1, 2], 0⟩, ⟨3, -4, [1, 2], 0⟩] := by
  unfold getIntersectionPoints
  simp only [show ([c4A, c4C, c4B] : List Circle).length = 3 from rfl,
    show List.range 3 = [0, 1, 2] from rfl,
    List.flatMap_cons, List.flatMap_nil,
    show (([0, 1, 2] : List Nat).filter fun j => 0 < j) = [1, 2] from rfl,
    show (([0, 1, 2] : List Nat).filter fun j => 1 < j) = [2] from rfl,
    show (([0, 1, 2] : List Nat).filter fun j => 2 < j) = ([] : List Nat) from rfl,
    show ([c4A, c4C, c4B] : List Circle).getD 0 default = c4A from rfl,
    show ([c4A, c4C, c4B] : List Circle).getD 1 default = c4C from rfl,
    show ([c4A, c4C, c4B] : List Circle).getD 2 default = c4B from rfl,
    c4_ccAC, c4_ccAB, c4_ccCB, List.map_cons, List.map_nil,
    List.append_nil, List.nil_append, List.cons_append]

theorem c4_contP1 : containedInCircles ⟨3, 4⟩ [c4A, c4B, c4C] := by
  have dA : distance ⟨3, 4⟩ (⟨0, 0⟩ : Point) = 5 :=
    dist_eval (by norm_num) (by norm_num)
  have dB : distance ⟨3, 4⟩ (⟨6, 0⟩ : Point) = 5 :=
    dist_eval (by norm_num) (by norm_num)
  have dC : distance ⟨3, 4⟩ (⟨3, 0⟩ : Point) = 4 :=
    dist_eval (by norm_num) (by norm_num)
  intro c hc
  simp only [List.mem_cons, List.not_mem_nil, or_false] at hc
  rcases hc with h | h | h <;> subst h
  · exact le_trans (le_of_eq (show distance ⟨3, 4⟩ c4A.pt = 5 from dA))
      (by norm_num [SMALL, c4A])
  · exact le_trans (le_of_eq (show distance ⟨3, 4⟩ c4B.pt = 5 from dB))
      (by norm_num [SMALL, c4B])
  · exact le_trans (le_of_eq (show distance ⟨3, 4⟩ c4C.pt = 4 from dC))
      (by norm_num [SMALL, c4C])

theorem c4_contQ1 : containedInCircles ⟨3, -4⟩ [c4A, c4B, c4C] := by
  have dA : distance ⟨3, -4⟩ (⟨0, 0⟩ : Point) = 5 :=
    dist_eval (by norm_num) (by norm_num)
  have dB : distance ⟨3, -4⟩ (⟨6, 0⟩ : Point) = 5 :=
    dist_eval (by norm_num) (by norm_num)
  have dC : distance ⟨3, -4⟩ (⟨3, 0⟩ : Point) = 4 :=
    dist_eval (by norm_num) (by norm_num)
  intro c hc
  simp only [List.mem_cons, List.not_mem_nil, or_false] at hc
  rcases hc with h | h | h <;> subst h
  · exact le_trans (le_of_eq (show distance ⟨3, -4⟩ c4A.pt = 5 from dA))
      (by norm_num [SMALL, c4A])
  · exact le_trans (le_of_eq (show distance ⟨3, -4⟩ c4B.pt = 5 from dB))
      (by norm_num [SMALL, c4B])
  · exact le_trans (le_of_eq (show distance ⟨3, -4⟩ c4C.pt = 4 from dC))
      (by norm_num [SMALL, c4C])

theorem c4_contP2 : containedInCircles ⟨3, 4⟩ [c4A, c4C, c4B] := by
  intro c hc
  have := c4_contP1 c
  simp only [List.mem_cons, List.not_mem_nil, or_false] at hc this
  tauto

theorem c4_contQ2 : containedInCircles ⟨3, -4⟩ [c4A, c4C, c4B] := by
  intro c hc
  have := c4_contQ1 c
  simp only [List.mem_cons, List.not_mem_nil, or_false] at hc this
  tauto

theorem c4_sort1 : List.insertionSort (fun a b : IPoint => b.angle ≤ a.angle)
    [c4p01, c4q01, c4p02, c4q02, c4q12, c4p12] =
    [c4q01, c4q02, c4q12, c4p01, c4p02, c4p12] := by
  have h1 : ((0:ℝ) ≤ Real.pi) = True := eq_true (le_of_lt Real.pi_pos)
  have h2 : (Real.pi ≤ Real.pi) = True := eq_true le_rfl
  have h3 : (Real.pi ≤ (0:ℝ)) = False := eq_false (not_le.mpr Real.pi_pos)
  have h4 : (((0:ℝ)) ≤ (0:ℝ)) = True := eq_true le_rfl
  simp only [List.insertionSort, List.orderedInsert,
    c4p01, c4q01, c4p02, c4q02, c4q12, c4p12, h1, h2, h3, h4,
    if_true, if_false]

theorem c4_sort2 : List.insertionSort (fun a b : IPoint => b.angle ≤ a.angle)
    [c4p01, c4q01, c4p02, c4q02, c4p12, c4q12] =
    [c4q01, c4q02, c4q12, c4p01, c4p02, c4p12] := by
  have h1 : ((0:ℝ) ≤ Real.pi) = True := eq_true (le_of_lt Real.pi_pos)
  have h2 : (Real.pi ≤ Real.pi) = True := eq_true le_rfl
  have h3 : (Real.pi ≤ (0:ℝ)) = False := eq_false (not_le.mpr Real.pi_pos)
  have h4 : (((0:ℝ)) ≤ (0:ℝ)) = True := eq_true le_rfl
  simp only [List.insertionSort, List.orderedInsert,
    c4p01, c4q01, c4p02, c4q02, c4q12, c4p12, h1, h2, h3, h4,
    if_true, if_false]


theorem c4_eval1 : intersectionArea [c4A, c4B, c4C] =
    circleArea 5 2 + circleArea 5 8 := by
  have hfilter : ([⟨3, 4, [0, 1], 0⟩, ⟨3, -4, [0, 1], 0⟩, ⟨3, 4, [0, 2], 0⟩,
      ⟨3, -4, [0, 2], 0⟩, ⟨3, -4, [1, 2], 0⟩, ⟨3, 4, [1, 2], 0⟩] : List IPoint).filter
      (fun p => decide (containedInCircles p.pt [c4A, c4B, c4C])) =
      [⟨3, 4, [0, 1], 0⟩, ⟨3, -4, [0, 1], 0⟩, ⟨3, 4, [0, 2], 0⟩,
       ⟨3, -4, [0, 2], 0⟩, ⟨3, -4, [1, 2], 0⟩, ⟨3, 4, [1, 2], 0⟩] := by
    rw [List.filter_eq_self]
    intro a ha
    fin_cases ha
    · exact decide_eq_true c4_contP1
    · exact decide_eq_true c4_contQ1
    · exact decide_eq_true c4_contP1
    · exact decide_eq_true c4_contQ1
    · exact decide_eq_true c4_contQ1
    · exact decide_eq_true c4_contP1
  have hcenter : getCenter [⟨3, 4, [0, 1], 0⟩, ⟨3, -4, [0, 1], 0⟩, ⟨3, 4, [0, 2], 0⟩,
      ⟨3, -4, [0, 2], 0⟩, ⟨3, -4, [1, 2], 0⟩, ⟨3, 4, [1, 2], 0⟩] = ⟨3, 0⟩ := by
    unfold getCenter
    simp only [List.map_cons, List.map_nil, List.sum_cons, List.sum_nil,
      List.length_cons, List.length_nil]
    norm_num
  have htag : ([⟨3, 4, [0, 1], 0⟩, ⟨3, -4, [0, 1], 0⟩, ⟨3, 4, [0, 2], 0⟩,
      ⟨3, -4, [0, 2], 0⟩, ⟨3, -4, [1, 2], 0⟩, ⟨3, 4, [1, 2], 0⟩] : List IPoint).map
      (fun p => ⟨p.x, p.y, p.parentIndex, atan2 (p.x - 3) (p.y - 0)⟩) =
      [c4p01, c4q01, c4p02, c4q02, c4q12, c4p12] := by
    simp only [List.map_cons, List.map_nil]
    norm_num [c4p01, c4q01, c4p02, c4q02, c4q12, c4p12, atan2_zp, atan2_zn]
  have e1 : chooseArc [c4A, c4B, c4C] c4q01 c4p12 = some (arcOf c4B c4q01 c4p12) :=
    chooseArc_second _ _ _ 0 1 rfl rfl rfl
  have e2 : chooseArc [c4A, c4B, c4C] c4q02 c4q01 = some (arcOf c4A c4q02 c4q01) :=
    chooseArc_first _ _ _ 0 2 rfl rfl rfl
  have e3 : chooseArc [c4A, c4B, c4C] c4q12 c4q02 = some (arcOf c4C c4q12 c4q02) :=
    chooseArc_second _ _ _ 1 2 rfl rfl rfl
  have e4 : chooseArc [c4A, c4B, c4C] c4p01 c4q12 = some (arcOf c4B c4p01 c4q12) :=
    chooseArc_second _ _ _ 0 1 rfl rfl rfl
  have e5 : chooseArc [c4A, c4B, c4C] c4p02 c4p01 = some (arcOf c4A c4p02 c4p01) :=
    chooseArc_first _ _ _ 0 2 rfl rfl rfl
  have e6 : chooseArc [c4A, c4B, c4C] c4p12 c4p02 = some (arcOf c4C c4p12 c4p02) :=
    chooseArc_second _ _ _ 1 2 rfl rfl rfl
  unfold intersectionArea
  simp only [c4_gip1, hfilter]
  rw [if_pos (show 1 < ([⟨3, 4, [0, 1], 0⟩, ⟨3, -4, [0, 1], 0⟩, ⟨3, 4, [0, 2], 0⟩,
      ⟨3, -4, [0, 2], 0⟩, ⟨3, -4, [1, 2], 0⟩, ⟨3, 4, [1, 2], 0⟩] : List IPoint).length
      by norm_num)]
  simp only [hcenter, htag, c4_sort1]
  simp only [show walkPairs [c4q01, c4q02, c4q12, c4p01, c4p02, c4p12] =
    [(c4q01, c4p12), (c4q02, c4q01), (c4q12, c4q02), (c4p01, c4q12),
     (c4p02, c4p01), (c4p12, c4p02)] from rfl]
  simp only [List.filterMap_cons, List.filterMap_nil, e1, e2, e3, e4, e5, e6,
    List.map_cons, List.map_nil, List.sum_cons, List.sum_nil, arcOf_circle,
    show c4q01.x = (3:ℝ) from rfl, show c4q01.y = (-4:ℝ) from rfl,
    show c4q02.x = (3:ℝ) from rfl, show c4q02.y = (-4:ℝ) from rfl,
    show c4q12.x = (3:ℝ) from rfl, show c4q12.y = (-4:ℝ) from rfl,
    show c4p01.x = (3:ℝ) from rfl, show c4p01.y = (4:ℝ) from rfl,
    show c4p02.x = (3:ℝ) from rfl, show c4p02.y = (4:ℝ) from rfl,
    show c4p12.x = (3:ℝ) from rfl, show c4p12.y = (4:ℝ) from rfl,
    show c4A.radius = (5:ℝ) from rfl, show c4B.radius = (5:ℝ) from rfl,
    show c4C.radius = (4:ℝ) from rfl,
    c4_w_B_minor, c4_wd_A_q, c4_wd_C_q, c4_w_B_major, c4_wd_A_p, c4_wd_C_p,
    circleArea_zero]
  norm_num


theorem c4_eval2 : intersectionArea [c4A, c4C, c4B] =
    circleArea 4 4 + circleArea 4 4 := by
  have hfilter : ([⟨3, 4, [0, 1], 0⟩, ⟨3, -4, [0, 1], 0⟩, ⟨3, 4, [0, 2], 0⟩,
      ⟨3, -4, [0, 2], 0⟩, ⟨3, 4, [1, 2], 0⟩, ⟨3, -4, [1, 2], 0⟩] : List IPoint).filter
      (fun p => decide (containedInCircles p.pt [c4A, c4C, c4B])) =
      [⟨3, 4, [0, 1], 0⟩, ⟨3, -4, [0, 1], 0⟩, ⟨3, 4, [0, 2], 0⟩,
       ⟨3, -4, [0, 2], 0⟩, ⟨3, 4, [1, 2], 0⟩, ⟨3, -4, [1, 2], 0⟩] := by
    rw [List.filter_eq_self]
    intro a ha
    fin_cases ha
    · exact decide_eq_true c4_contP2
    · exact decide_eq_true c4_contQ2
    · exact decide_eq_true c4_contP2
    · exact decide_eq_true c4_contQ2
    · exact decide_eq_true c4_contP2
    · exact decide_eq_true c4_contQ2
  have hcenter : getCenter [⟨3, 4, [0, 1], 0⟩, ⟨3, -4, [0, 1], 0⟩, ⟨3, 4, [0, 2], 0⟩,
      ⟨3, -4, [0, 2], 0⟩, ⟨3, 4, [1, 2], 0⟩, ⟨3, -4, [1, 2], 0⟩] = ⟨3, 0⟩ := by
    unfold getCenter
    simp only [List.map_cons, List.map_nil, List.sum_cons, List.sum_nil,
      List.length_cons, List.length_nil]
    norm_num
  have htag : ([⟨3, 4, [0, 1], 0⟩, ⟨3, -4, [0, 1], 0⟩, ⟨3, 4, [0, 2], 0⟩,
      ⟨3, -4, [0, 2], 0⟩, ⟨3, 4, [1, 2], 0⟩, ⟨3, -4, [1, 2], 0⟩] : List IPoint).map
      (fun p => ⟨p.x, p.y, p.parentIndex, atan2 (p.x - 3) (p.y - 0)⟩) =
      [c4p01, c4q01, c4p02, c4q02, c4p12, c4q12] := by
    simp only [List.map_cons, List.map_nil]
    norm_num [c4p01, c4q01, c4p02, c4q02, c4q12, c4p12, atan2_zp, atan2_zn]
  have f1 : chooseArc [c4A, c4C, c4B] c4q01 c4p12 = some (arcOf c4C c4q01 c4p12) :=
    chooseArc_second _ _ _ 0 1 rfl rfl rfl
  have f2 : chooseArc [c4A, c4C, c4B] c4q02 c4q01 = some (arcOf c4A c4q02 c4q01) :=
    chooseArc_first _ _ _ 0 2 rfl rfl rfl
  have f3 : chooseArc [c4A, c4C, c4B] c4q12 c4q02 = some (arcOf c4B c4q12 c4q02) :=
    chooseArc_second _ _ _ 1 2 rfl rfl rfl
  have f4 : chooseArc [c4A, c4C, c4B] c4p01 c4q12 = some (arcOf c4C c4p01 c4q12) :=
    chooseArc_second _ _ _ 0 1 rfl rfl rfl
  have f5 : chooseArc [c4A, c4C, c4B] c4p02 c4p01 = some (arcOf c4A c4p02 c4p01) :=
    chooseArc_first _ _ _ 0 2 rfl rfl rfl
  have f6 : chooseArc [c4A, c4C, c4B] c4p12 c4p02 = some (arcOf c4B c4p12 c4p02) :=
    chooseArc_second _ _ _ 1 2 rfl rfl rfl
  unfold intersectionArea
  simp only [c4_gip2, hfilter]
  rw [if_pos (show 1 < ([⟨3, 4, [0, 1], 0⟩, ⟨3, -4, [0, 1], 0⟩, ⟨3, 4, [0, 2], 0⟩,
      ⟨3, -4, [0, 2], 0⟩, ⟨3, 4, [1, 2], 0⟩, ⟨3, -4, [1, 2], 0⟩] : List IPoint).length
      by norm_num)]
  simp only [hcenter, htag, c4_sort2]
  simp only [show walkPairs [c4q01, c4q02, c4q12, c4p01, c4p02, c4p12] =
    [(c4q01, c4p12), (c4q02, c4q01), (c4q12, c4q02), (c4p01, c4q12),
     (c4p02, c4p01), (c4p12, c4p02)] from rfl]
  simp only [List.filterMap_cons, List.filterMap_nil, f1, f2, f3, f4, f5, f6,
    List.map_cons, List.map_nil, List.sum_cons, List.sum_nil, arcOf_circle,
    show c4q01.x = (3:ℝ) from rfl, show c4q01.y = (-4:ℝ) from rfl,
    show c4q02.x = (3:ℝ) from rfl, show c4q02.y = (-4:ℝ) from rfl,
    show c4q12.x = (3:ℝ) from rfl, show c4q12.y = (-4:ℝ) from rfl,
    show c4p01.x = (3:ℝ) from rfl, show c4p01.y = (4:ℝ) from rfl,
    show c4p02.x = (3:ℝ) from rfl, show c4p02.y = (4:ℝ) from rfl,
    show c4p12.x = (3:ℝ) from rfl, show c4p12.y = (4:ℝ) from rfl,
    show c4A.radius = (5:ℝ) from rfl, show c4C.radius = (4:ℝ) from rfl,
    show c4B.radius = (5:ℝ) from rfl,
    c4_w_C_left, c4_wd_A_q, c4_wd_B_q, c4_w_C_right, c4_wd_A_p, c4_wd_B_p,
    circleArea_zero]
  norm_num

/-- C4: the claim that intersectionArea is invariant under permutation of the
input circle list is refuted.  The three circles A(0,0,r=5), B(6,0,r=5),
C(3,0,r=4) all pass through the two points (3,4) and (3,-4); on the order
[A,B,C] the arc decomposition picks the two circle-B segments (total area
25*pi), while on the permuted order [A,C,B] it picks the two circle-C
segments (total area 16*pi): the angle sort breaks ties by input position and
the arc choice takes the first circle of minimal width, so the returned area
changes under the permutation. -/
theorem C4_intersectionArea_not_perm_invariant :
    ([c4A, c4C, c4B] : List Circle).Perm [c4A, c4B, c4C] ∧
    intersectionArea [c4A, c4C, c4B] ≠ intersectionArea [c4A, c4B, c4C] := by
  constructor
  · exact List.Perm.cons c4A (List.Perm.swap c4B c4C [])
  · rw [c4_eval1, c4_eval2]
    have h5 : circleArea 5 2 + circleArea 5 8 = Real.pi * 5 * 5 := by
      have h := circleArea_compl (show (0:ℝ) < 5 by norm_num)
        (show (0:ℝ) ≤ 2 by norm_num) (show (2:ℝ) ≤ 2 * 5 by norm_num)
      rw [show (2:ℝ) * 5 - 2 = 8 by norm_num] at h
      exact h
    have h4 : circleArea 4 4 + circleArea 4 4 = Real.pi * 4 * 4 := by
      have h := circleArea_compl (show (0:ℝ) < 4 by norm_num)
        (show (0:ℝ) ≤ 4 by norm_num) (show (4:ℝ) ≤ 2 * 4 by norm_num)
      rw [show (2:ℝ) * 4 - 4 = 4 by norm_num] at h
      exact h
    rw [h4, h5]
    have hpi := Real.pi_pos
    intro hc
    nlinarith


theorem aLookup_aUpsert {α : Type} (l : List (String × α)) (k : String)
    (v : α) (k' : String) :
    aLookup (aUpsert l k v) k' = if k' = k then some v else aLookup l k' := by
  induction l with
  | nil =>
    by_cases h : k' = k
    · subst h
      simp [aLookup, aUpsert]
    · simp [aLookup, aUpsert, h, Ne.symm h]
  | cons hd tl ih =>
    obtain ⟨k0, v0⟩ := hd
    by_cases h0 : k0 = k
    · subst h0
      by_cases h : k' = k0
      · subst h
        simp [aLookup, aUpsert]
      · simp [aLookup, aUpsert, h, Ne.symm h]
    · by_cases h : k' = k0
      · subst h
        simp [aLookup, aUpsert, h0, Ne.symm h0]
      · simp only [aLookup, aUpsert, if_neg h0] at ih ⊢
        simp [List.find?_cons, Ne.symm h, h] at ih ⊢
        exact ih
theorem updateXY_rad (cs : Solution) (k : String) (px py : ℝ) (k' : String) :
    ((aLookup (updateXY cs k px py) k').getD default).radius =
    ((aLookup cs k').getD default).radius := by
  unfold updateXY
  rw [aLookup_aUpsert]
  by_cases h : k' = k
  · rw [if_pos h, h]
    cases hl : aLookup cs k <;> simp [hl]
  · rw [if_neg h]

theorem foldl_updateXY_rad (pos : List ℝ) (L : List (Nat × String))
    (cs : Solution) (k : String) :
    ((aLookup (L.foldl (fun cs si =>
        updateXY cs si.2 (pos.getD (2 * si.1) 0) (pos.getD (2 * si.1 + 1) 0))
      cs) k).getD default).radius = ((aLookup cs k).getD default).radius := by
  induction L generalizing cs with
  | nil => rfl
  | cons hd tl ih =>
    rw [List.foldl_cons, ih]
    exact updateXY_rad cs hd.2 _ _ k

theorem foldlM_rad_frame {β : Type}
    (f : Solution × List String → β → Except String (Solution × List String))
    (hf : ∀ st b out, f st b = Except.ok out →
      ∀ k, ((aLookup out.1 k).getD default).radius =
        ((aLookup st.1 k).getD default).radius)
    (l : List β) : ∀ st out, l.foldlM f st = Except.ok out →
      ∀ k, ((aLookup out.1 k).getD default).radius =
        ((aLookup st.1 k).getD default).radius := by
  induction l with
  | nil =>
    intro st out h k
    simp only [List.foldlM_nil] at h
    cases h
    rfl
  | cons b t ih =>
    intro st out h k
    rw [List.foldlM_cons] at h
    cases hx : f st b with
    | error e =>
      rw [hx] at h
      exact Except.noConfusion (show Except.error e = Except.ok out from h)
    | ok st2 =>
      rw [hx] at h
      have h2 : List.foldlM f st2 t = Except.ok out := h
      rw [ih st2 out h2 k]
      exact hf st b st2 hx k


theorem except_error_ne_ok {α : Type} {e : String} {a : α}
    (h : (Except.error e : Except String α) = Except.ok a) : False :=
  Except.noConfusion h

theorem except_bind_ok {α β : Type} {x : Except String α} {g : α → Except String β}
    {out : β} (h : (x >>= g) = Except.ok out) :
    ∃ a, x = Except.ok a ∧ g a = Except.ok out := by
  cases x with
  | error e =>
    have hf : False :=
      except_error_ne_ok (show Except.error e = Except.ok out from h)
    exact hf.elim
  | ok a => exact ⟨a, rfl, h⟩

theorem except_pure_ok {α : Type} {a out : α}
    (h : (pure a : Except String α) = Except.ok out) : a = out := by
  cases show Except.ok a = Except.ok out from h
  rfl

theorem glStep_rad_frame (areas : List Area)
    (so : List (String × List OverlapRec)) (st : Solution × List String)
    (mo : String × ℝ) (out : Solution × List String)
    (h : glStep areas so st mo = Except.ok out) (k : String) :
    ((aLookup out.1 k).getD default).radius =
    ((aLookup st.1 k).getD default).radius := by
  unfold glStep at h
  simp only [] at h
  split at h
  · exact (except_error_ne_ok h).elim
  · obtain ⟨points, hp, h2⟩ := except_bind_ok h
    have h3 := except_pure_ok h2
    rw [← h3]
    exact updateXY_rad st.1 mo.1 _ _ k

theorem glInit_frame (s : String) : ∀ (L : List Area)
    (st : Solution × List (String × List OverlapRec)), s ∉ singleIds L →
    aLookup (L.foldl glInitStep st).1 s = aLookup st.1 s := by
  intro L
  induction L with
  | nil => intro st _; rfl
  | cons b rest ih =>
    intro st hns
    rw [List.foldl_cons]
    rcases hb : b.sets with _ | ⟨x, _ | ⟨y, ys⟩⟩
    · have hni : s ∉ singleIds rest := by
        simpa [singleIds, List.filterMap_cons, hb] using hns
      rw [ih (glInitStep st b) hni]
      unfold glInitStep
      rw [hb]
    · have hsi : singleIds (b :: rest) = x :: singleIds rest := by
        simp [singleIds, List.filterMap_cons, hb]
      rw [hsi] at hns
      have hsx : s ≠ x := by
        intro hsx
        exact hns (by rw [hsx]; exact List.mem_cons_self x (singleIds rest))
      have hni : s ∉ singleIds rest := by
        intro hmem
        exact hns (List.mem_cons_of_mem x hmem)
      rw [ih (glInitStep st b) hni]
      unfold glInitStep
      rw [hb]
      dsimp only
      rw [aLookup_aUpsert, if_neg hsx]
    · have hni : s ∉ singleIds rest := by
        simpa [singleIds, List.filterMap_cons, hb] using hns
      rw [ih (glInitStep st b) hni]
      unfold glInitStep
      rw [hb]

theorem glInit_lookup (a : Area) (s : String) (hs : a.sets = [s]) :
    ∀ (L : List Area) (st : Solution × List (String × List OverlapRec)),
    a ∈ L → (singleIds L).Pairwise (fun u v => u ≠ v) →
    ((aLookup (L.foldl glInitStep st).1 s).getD default).radius =
      Real.sqrt (a.size / Real.pi) := by
  intro L
  induction L with
  | nil => intro st ha _; exact absurd ha (List.not_mem_nil a)
  | cons b rest ih =>
    intro st ha hpw
    rw [List.foldl_cons]
    rcases List.mem_cons.mp ha with rfl | ha2
    · have hsi : singleIds (a :: rest) = s :: singleIds rest := by
        simp [singleIds, List.filterMap_cons, hs]
      rw [hsi] at hpw
      have hni : s ∉ singleIds rest := by
        intro hmem
        exact (List.pairwise_cons.mp hpw).1 s hmem rfl
      rw [glInit_frame s rest (glInitStep st a) hni]
      unfold glInitStep
      rw [hs]
      dsimp only
      rw [aLookup_aUpsert, if_pos rfl]
      rfl
    · refine ih (glInitStep st b) ha2 ?_
      rcases hb : b.sets with _ | ⟨x, _ | ⟨y, ys⟩⟩
      · simpa [singleIds, List.filterMap_cons, hb] using hpw
      · have hsi : singleIds (b :: rest) = x :: singleIds rest := by
          simp [singleIds, List.filterMap_cons, hb]
        rw [hsi] at hpw
        exact hpw.of_cons
      · simpa [singleIds, List.filterMap_cons, hb] using hpw

theorem greedyLayout_ok_form (areas : List Area) (sol : Solution)
    (hok : greedyLayout areas = Except.ok sol) :
    ∃ (first : String × ℝ) (rest : List (String × ℝ))
      (stv : Solution × List String),
      rest.foldlM (glStep areas ((areas.filter fun a => a.sets.length = 2).foldl
          (glOverlapStep (areas.foldl glInitStep ([], [])).1)
          (areas.foldl glInitStep ([], [])).2))
        (updateXY (areas.foldl glInitStep ([], [])).1 first.1 0 0, [first.1]) =
        Except.ok stv ∧
      sol = stv.1 := by
  unfold greedyLayout at hok
  simp only [] at hok
  cases hmo : List.insertionSort (fun a b : String × ℝ => b.2 ≤ a.2)
      ((((areas.filter fun a => a.sets.length = 2).foldl
          (glOverlapStep (areas.foldl glInitStep ([], [])).1)
          (areas.foldl glInitStep ([], [])).2)).map
        fun p => (p.1, (p.2.map fun o => o.size * o.weight).sum)) with
  | nil =>
    rw [hmo] at hok
    have hf : False :=
      except_error_ne_ok (show Except.error "TypeError" = Except.ok sol from hok)
    exact hf.elim
  | cons first rest =>
    rw [hmo] at hok
    obtain ⟨stv, h1, h2⟩ := except_bind_ok hok
    have h3 := except_pure_ok h2
    exact ⟨first, rest, stv, h1, h3.symm⟩

theorem greedyLayout_rad (areas : List Area) (sol : Solution) (a : Area)
    (s : String) (ha : a ∈ areas) (hs : a.sets = [s])
    (hpw : (singleIds areas).Pairwise (fun u v => u ≠ v))
    (hok : greedyLayout areas = Except.ok sol) :
    ((aLookup sol s).getD default).radius = Real.sqrt (a.size / Real.pi) := by
  obtain ⟨first, rest, stv, h1, h2⟩ := greedyLayout_ok_form areas sol hok
  rw [h2]
  rw [foldlM_rad_frame _ (fun st b out hsb k => glStep_rad_frame areas _ st b out hsb k)
    rest _ stv h1 s]
  have hup := updateXY_rad (areas.foldl glInitStep ([], [])).1 first.1 0 0 s
  rw [hup]
  exact glInit_lookup a s hs areas ([], []) ha hpw


theorem mds_build_frame (pos : List ℝ) (nrm : ℝ) (s : String) :
    ∀ (L : List Area) (n : Nat) (st : Solution),
    (∀ b ∈ L, b.sets.getD 0 "" ≠ s) →
    aLookup ((List.enumFrom n L).foldl (mdsBuild pos nrm) st) s =
      aLookup st s := by
  intro L
  induction L with
  | nil => intro n st _; rfl
  | cons b rest ih =>
    intro n st hk
    rw [List.enumFrom_cons, List.foldl_cons]
    rw [ih (n + 1) _ fun c hc => hk c (List.mem_cons_of_mem b hc)]
    unfold mdsBuild
    rw [aLookup_aUpsert,
      if_neg fun h => hk b (List.mem_cons_self b rest) h.symm]

theorem mds_build_lookup (pos : List ℝ) (nrm : ℝ) (a : Area) (s : String)
    (hs : a.sets = [s]) :
    ∀ (L : List Area) (n : Nat) (st : Solution), a ∈ L →
    ((L.map fun b => b.sets.getD 0 "").Pairwise (fun u v => u ≠ v)) →
    ((aLookup ((List.enumFrom n L).foldl (mdsBuild pos nrm) st) s).getD
      default).radius = Real.sqrt (a.size / Real.pi) := by
  intro L
  induction L with
  | nil => intro n st ha _; exact absurd ha (List.not_mem_nil a)
  | cons b rest ih =>
    intro n st ha hpw
    rw [List.enumFrom_cons, List.foldl_cons]
    rw [List.map_cons, List.pairwise_cons] at hpw
    rcases List.mem_cons.mp ha with rfl | ha2
    · have hkey : a.sets.getD 0 "" = s := by rw [hs]; rfl
      have hfr : ∀ c ∈ rest, c.sets.getD 0 "" ≠ s := by
        intro c hc he
        exact hpw.1 (c.sets.getD 0 "") (List.mem_map_of_mem _ hc)
          (by rw [hkey, he])
      rw [mds_build_frame pos nrm s rest (n + 1) _ hfr]
      unfold mdsBuild
      rw [hkey, aLookup_aUpsert, if_pos rfl]
      rfl
    · exact ih (n + 1) _ ha2 hpw.2

theorem mdsCollect_fst : ∀ (L : List Area) (st : List Area × List (String × Nat)),
    (L.foldl mdsCollect st).1 = st.1 ++ L.filter fun b => b.sets.length = 1 := by
  intro L
  induction L with
  | nil => intro st; simp
  | cons b rest ih =>
    intro st
    rw [List.foldl_cons]
    rcases hb : b.sets with _ | ⟨x, _ | ⟨y, ys⟩⟩
    · rw [show mdsCollect st b = st by unfold mdsCollect; rw [hb], ih,
        List.filter_cons_of_neg (by simp [hb])]
    · rw [show mdsCollect st b = (st.1 ++ [b], aUpsert st.2 x st.1.length) by
        unfold mdsCollect; rw [hb], ih]
      rw [List.filter_cons_of_pos (by simp [hb])]
      simp
    · rw [show mdsCollect st b = st by unfold mdsCollect; rw [hb], ih,
        List.filter_cons_of_neg (by simp [hb])]

theorem singleIds_eq_filter_map : ∀ L : List Area,
    singleIds L = (L.filter fun b => b.sets.length = 1).map
      fun b => b.sets.getD 0 "" := by
  intro L
  induction L with
  | nil => rfl
  | cons b rest ih =>
    rcases hb : b.sets with _ | ⟨x, _ | ⟨y, ys⟩⟩
    · rw [List.filter_cons_of_neg (by simp [hb])]
      simpa [singleIds, List.filterMap_cons, hb] using ih
    · rw [List.filter_cons_of_pos (by simp [hb])]
      rw [List.map_cons]
      have h1 : singleIds (b :: rest) = x :: singleIds rest := by
        simp [singleIds, List.filterMap_cons, hb]
      rw [h1, ih, hb]
      rfl
    · rw [List.filter_cons_of_neg (by simp [hb])]
      simpa [singleIds, List.filterMap_cons, hb] using ih

theorem constrainedMDS_rad (rng : Nat → ℝ) (areas : List Area)
    (restarts maxIterations : Nat) (sol : Solution) (a : Area) (s : String)
    (ha : a ∈ areas) (hs : a.sets = [s])
    (hpw : (singleIds areas).Pairwise (fun u v => u ≠ v))
    (hok : constrainedMDSLayout rng areas restarts maxIterations =
      Except.ok sol) :
    ((aLookup sol s).getD default).radius = Real.sqrt (a.size / Real.pi) := by
  unfold constrainedMDSLayout at hok
  simp only [] at hok
  obtain ⟨m, hm, h2⟩ := except_bind_ok hok
  have h3 := except_pure_ok h2
  rw [← h3]
  have hmem : a ∈ (areas.foldl mdsCollect ([], [])).1 := by
    rw [mdsCollect_fst, List.nil_append]
    exact List.mem_filter.mpr ⟨ha, by simp [hs]⟩
  have hpw2 : (((areas.foldl mdsCollect ([], [])).1.map
      fun b => b.sets.getD 0 "").Pairwise (fun u v => u ≠ v)) := by
    rw [mdsCollect_fst, List.nil_append, ← singleIds_eq_filter_map]
    exact hpw
  exact mds_build_lookup _ _ a s hs _ 0 [] hmem hpw2

theorem bestInitialLayout_rad (rng : Nat → ℝ) (areas : List Area)
    (sol : Solution) (a : Area) (s : String)
    (ha : a ∈ areas) (hs : a.sets = [s])
    (hpw : (singleIds areas).Pairwise (fun u v => u ≠ v))
    (hok : bestInitialLayout rng areas = Except.ok sol) :
    ((aLookup sol s).getD default).radius = Real.sqrt (a.size / Real.pi) := by
  unfold bestInitialLayout at hok
  obtain ⟨initial, hg, h2⟩ := except_bind_ok hok
  have h2' : (if 8 ≤ areas.length then
      (do
        let constrained ← constrainedMDSLayout rng areas 10 500
        return (if lossFunction constrained areas + 1e-8 <
            lossFunction initial areas then constrained else initial))
      else (pure initial : Except String Solution)) = Except.ok sol := h2
  by_cases hlen : 8 ≤ areas.length
  · rw [if_pos hlen] at h2'
    obtain ⟨constrained, hc, h3⟩ := except_bind_ok h2'
    have h4 := except_pure_ok h3
    rw [← h4]
    by_cases hcmp : lossFunction constrained areas + 1e-8 <
        lossFunction initial areas
    · rw [if_pos hcmp]
      exact constrainedMDS_rad rng areas 10 500 constrained a s ha hs hpw hc
    · rw [if_neg hcmp]
      exact greedyLayout_rad areas initial a s ha hs hpw hg
  · rw [if_neg hlen] at h2'
    have h4 := except_pure_ok h2'
    rw [← h4]
    exact greedyLayout_rad areas initial a s ha hs hpw hg

theorem singleIds_append (l1 l2 : List Area) :
    singleIds (l1 ++ l2) = singleIds l1 ++ singleIds l2 := by
  simp [singleIds, List.filterMap_append]

theorem singleIds_addMissingAreas (areas : List Area) :
    singleIds (addMissingAreas areas) = singleIds areas := by
  unfold addMissingAreas
  simp only []
  rw [singleIds_append]
  have hextra : singleIds ((pairsOf (List.insertionSort
      (fun a b : String => a ≤ b) (singleIds areas))).filterMap fun q =>
      if (pairKeys areas).contains (q.1 ++ "," ++ q.2) then none
      else some ({ sets := [q.1, q.2], size := 0 } : Area)) = [] := by
    unfold singleIds
    rw [List.filterMap_eq_nil]
    intro x hx
    obtain ⟨q, hq, hgq⟩ := List.mem_filterMap.mp hx
    split at hgq
    · exact Option.noConfusion hgq
    · cases hgq
      rfl
  rw [hextra, List.append_nil]

theorem mem_addMissingAreas {areas : List Area} {a : Area} (ha : a ∈ areas) :
    a ∈ addMissingAreas areas := by
  unfold addMissingAreas
  exact List.mem_append_left _ ha
/-- C1: for every well-formed input area list (pairwise-distinct single-set
ids, each with a nonnegative size) and the default layout parameters, the
Solution returned by venn maps each single-set id to a circle whose radius
is sqrt(size/pi) of that set's AreaSpec: the initial layout (greedy or
constrained MDS) assigns exactly that radius, and the simplex refinement
step writes only the x and y coordinates of each circle, leaving every
radius unchanged. -/
theorem C1_venn_radius_from_size (rng : Nat → ℝ) (areas0 : List Area)
    (sol : Solution) (a : Area) (s : String)
    (hwf : (singleIds areas0).Pairwise (fun u v => u ≠ v))
    (hsz : ∀ b ∈ areas0, 0 ≤ b.size)
    (ha : a ∈ areas0) (hs : a.sets = [s])
    (hok : venn rng areas0 = Except.ok sol) :
    ((aLookup sol s).getD default).radius = Real.sqrt (a.size / Real.pi) := by
  unfold venn at hok
  simp only [] at hok
  obtain ⟨circles, hbi, h2⟩ := except_bind_ok hok
  have h3 := except_pure_ok h2
  rw [← h3]
  refine (foldl_updateXY_rad _ _ circles s).trans ?_
  exact bestInitialLayout_rad rng (addMissingAreas areas0) circles a s
    (mem_addMissingAreas ha) hs
    (by rw [singleIds_addMissingAreas]; exact hwf) hbi


/-- Witness for C1: on the one-set input {sets:[a], size:1} (a well-formed
area list) venn returns a solution whose circle for a has radius
sqrt(1/pi). -/
theorem C1_radius_witness :
    (singleIds c1inp).Pairwise (fun u v => u ≠ v) ∧
    (∀ b ∈ c1inp, 0 ≤ b.size) ∧
    ({ sets := ["a"], size := 1 } : Area) ∈ c1inp ∧
    ({ sets := ["a"], size := 1 } : Area).sets = ["a"] ∧
    ∃ sol, venn c1rng c1inp = Except.ok sol ∧
      ((aLookup sol "a").getD default).radius = Real.sqrt (1 / Real.pi) := by
  obtain ⟨sol, hsol⟩ : ∃ sol, venn c1rng c1inp = Except.ok sol := ⟨_, rfl⟩
  refine ⟨by simp [singleIds, c1inp], ?_, by simp [c1inp], rfl, sol, hsol, ?_⟩
  · intro b hb
    simp only [c1inp, List.mem_singleton] at hb
    rw [hb]
    norm_num
  · have hwf : (singleIds c1inp).Pairwise (fun u v => u ≠ v) := by
      simp [singleIds, c1inp]
    have hsz : ∀ b ∈ c1inp, 0 ≤ b.size := by
      intro b hb
      simp only [c1inp, List.mem_singleton] at hb
      rw [hb]
      norm_num
    have hmem : ({ sets := ["a"], size := 1 } : Area) ∈ c1inp := by
      simp [c1inp]
    exact C1_venn_radius_from_size c1rng c1inp sol
      { sets := ["a"], size := 1 } "a" hwf hsz hmem rfl hsol

end DV
